import Mathlib

/-!
# fastq_stat: a shallow embedding of the scanner and of the gzip pipeline

Bytes are natural numbers below 256, buffers are lists of bytes, indices and
sizes are natural numbers (integers where the source can go negative).
Undefined behaviour of the C++ source (a read outside an allocation, a copy
past the staging buffer, a signed overflow, a division by zero) is an explicit
`Fault`.  Worker threads of one stage work on disjoint data and are joined
before the next stage, so a stage is embedded as the workers run one after the
other in spawn order.
-/

namespace FastqStat

/-! ## fastq_calculator.h -/

/-- The counters of `struct Stat` (all `long`, all starting at zero). -/
structure Stat where
  linenum : Nat
  yield : Nat
  q20_base : Nat
  q30_base : Nat
deriving DecidableEq, Repr

/-- The value of a default-constructed `Stat`. -/
def Stat.zero : Stat := ⟨0, 0, 0, 0⟩

/-- Field-wise addition, the four `+=` lines of `Calculate` and of `main`. -/
def Stat.add (a b : Stat) : Stat :=
  ⟨a.linenum + b.linenum, a.yield + b.yield, a.q20_base + b.q20_base, a.q30_base + b.q30_base⟩

/-- What the C++ source leaves undefined, or where a model loop gives up. -/
inductive Fault where
  | bufferOverrun
  | stagingOverrun
  | intOverflow
  | divByZero
  | outOfFuel
deriving DecidableEq, Repr

deriving instance DecidableEq for Except

/-- Largest value of a 32-bit `int`. -/
def INT_MAX : Nat := 2147483647

/-- Capacity of `char score_line[64*4]`. -/
def SCORE_LINE_SIZE : Nat := 64 * 4

/-- A byte read as a (signed) `char` / `epi8` element. -/
def asSignedChar (b : Nat) : Int :=
  if b % 256 < 128 then ((b % 256 : Nat) : Int) else ((b % 256 : Nat) : Int) - 256

/-- Little-endian bit mask of a list of lane results (`__mmask64`). -/
def maskOfBits : List Bool → Nat
  | [] => 0
  | b :: bs => (if b then 1 else 0) + 2 * maskOfBits bs

/-- Number of set bits among the low `w` bits of `m`. -/
def popcntBits : Nat → Nat → Nat
  | 0, _ => 0
  | w + 1, m => m % 2 + popcntBits w (m / 2)

/-- The intrinsic `_mm_popcnt_u64`. -/
def mm_popcnt_u64 (m : Nat) : Nat := popcntBits 64 m

/-- The intrinsic `_mm512_set1_epi8`: 64 copies of one byte. -/
def mm512_set1_epi8 (v : Nat) : List Nat := List.replicate 64 v

/-- The intrinsic `_mm512_loadu_epi8`: the 64 bytes at `mem + off`. -/
def mm512_loadu_epi8 (mem : List Nat) (off : Nat) : List Nat := (mem.drop off).take 64

/-- The intrinsic `_mm512_cmpge_epi8_mask`: bit `k` is set when element `k` of
`a` is greater than or equal to element `k` of `b`, both read as signed bytes. -/
def mm512_cmpge_epi8_mask (a b : List Nat) : Nat :=
  maskOfBits (List.zipWith (fun x y => decide (asSignedChar y ≤ asSignedChar x)) a b)

/-- The loop variables of `find_qc_pos_job` other than the cursor. -/
structure ScanState where
  line_index : Nat
  yield : Nat
  score_line : List Nat
  stat : Stat
deriving DecidableEq, Repr

/-- The inner `for (j ...)` loop of `find_qc_pos_job`: one 64-byte lane of the
staging buffer per round, the two masks counted into `q20_base`, `q30_base`. -/
def laneLoop (score_line : List Nat) (yield_64_count : Nat) (stat : Stat) : Stat :=
  (List.range yield_64_count).foldl
    (fun s j =>
      let score := mm512_loadu_epi8 score_line (j * 64)
      let q20_mask := mm512_cmpge_epi8_mask score (mm512_set1_epi8 (20 + 33))
      let q30_mask := mm512_cmpge_epi8_mask score (mm512_set1_epi8 (30 + 33))
      { s with q20_base := s.q20_base + mm_popcnt_u64 q20_mask,
               q30_base := s.q30_base + mm_popcnt_u64 q30_mask })
    stat

/-- The call `memcpy(score_line, buffer + i, yield)`. -/
def memcpyScore (buffer : List Nat) (i yield : Nat) (score_line : List Nat) :
    Except Fault (List Nat) :=
  if SCORE_LINE_SIZE < yield then .error .stagingOverrun
  else if buffer.length < i + yield then .error .bufferOverrun
  else .ok ((buffer.drop i).take yield ++ score_line.drop yield)

/-- One round of the outer `for` loop of `find_qc_pos_job`, the `i++` included:
the next cursor and loop variables. -/
def scanStep (buffer : List Nat) (i : Nat) (st : ScanState) : Except Fault (Nat × ScanState) :=
  match buffer[i]? with
  | none => .error .bufferOverrun
  | some c =>
    let st1 : ScanState :=
      if c = 64 then
        { line_index := 0, yield := 0, score_line := List.replicate SCORE_LINE_SIZE 0,
          stat := { st.stat with linenum := st.stat.linenum + 1 } }
      else st
    if c = 10 then
      if st1.line_index < INT_MAX then .ok (i + 1, { st1 with line_index := st1.line_index + 1 })
      else .error .intOverflow
    else if c ≠ 0 then
      if st1.line_index = 1 ∧ ¬ st1.yield < INT_MAX then .error .intOverflow
      else
        let st2 : ScanState := if st1.line_index = 1 then { st1 with yield := st1.yield + 1 } else st1
        if st2.line_index = 3 then
          match memcpyScore buffer i st2.yield st2.score_line with
          | .error e => .error e
          | .ok score_line =>
            let yield_64_count := (st2.yield + 63) / 64
            let stat := laneLoop score_line yield_64_count st2.stat
            .ok (i + st2.yield + 1,
                 { st2 with score_line := score_line,
                            stat := { stat with yield := stat.yield + st2.yield } })
        else .ok (i + 1, st2)
    else .ok (i + 1, st1)

/-- The outer `for (long i = start_pos; i < end_pos; i++)` loop. -/
def scanLoop (buffer : List Nat) (end_pos : Nat) : Nat → Nat → ScanState → Except Fault Stat
  | 0, i, st => if end_pos ≤ i then .ok st.stat else .error .outOfFuel
  | fuel + 1, i, st =>
    if end_pos ≤ i then .ok st.stat
    else
      match scanStep buffer i st with
      | .error e => .error e
      | .ok (i', st') => scanLoop buffer end_pos fuel i' st'

/-- The function `find_qc_pos_job(buffer, start_pos, end_pos, stat)`.  The
staging buffer `score_line` is not initialised by the source, so its first
content is the parameter `stack` (cut or zero-filled to the 256 bytes of the
array).  Every round moves the cursor forward, so `end_pos - start_pos` rounds
are enough. -/
def find_qc_pos_job (buffer : List Nat) (start_pos end_pos : Nat) (stack : List Nat)
    (stat : Stat) : Except Fault Stat :=
  scanLoop buffer end_pos (end_pos - start_pos) start_pos
    { line_index := 0, yield := 0,
      score_line := (stack ++ List.replicate SCORE_LINE_SIZE 0).take SCORE_LINE_SIZE,
      stat := stat }


/-! ## Well-formed FASTQ text -/

/-- Bytes of `l` that pass the signed threshold `v` (`asSignedChar v ≤ asSignedChar x`). -/
def geCount (v : Nat) (l : List Nat) : Nat :=
  l.countP (fun x => decide (asSignedChar v ≤ asSignedChar x))

/-- The four lines of one FASTQ record; `header` is the header line after its `@`. -/
structure Record where
  header : List Nat
  sequence : List Nat
  separator : List Nat
  quality : List Nat
deriving DecidableEq, Repr

/-- The bytes of a record up to, not including, the newline that ends its quality line. -/
def Record.core (r : Record) : List Nat :=
  64 :: (r.header ++ 10 :: (r.sequence ++ 10 :: (r.separator ++ 10 :: r.quality)))

/-- The bytes of a record, every line ended by a newline. -/
def Record.bytes (r : Record) : List Nat := r.core ++ [10]

/-- The buffer made of the records one after the other. -/
def fastqBytes : List Record → List Nat
  | [] => []
  | r :: rs => r.bytes ++ fastqBytes rs

/-- A well-formed record: no `@` or newline in the header after its first byte,
a sequence line of 1 to 256 bytes without `@`, newline or zero byte, a separator
line without `@` or newline, and a quality line as long as the sequence line,
of bytes in 33..126, that does not begin with `@`. -/
def Record.WellFormed (r : Record) : Prop :=
  (∀ c ∈ r.header, c ≠ 64 ∧ c ≠ 10) ∧
  1 ≤ r.sequence.length ∧ r.sequence.length ≤ 256 ∧
  (∀ c ∈ r.sequence, c ≠ 64 ∧ c ≠ 10 ∧ c ≠ 0) ∧
  (∀ c ∈ r.separator, c ≠ 64 ∧ c ≠ 10) ∧
  r.quality.length = r.sequence.length ∧
  (∀ c ∈ r.quality, 33 ≤ c ∧ c ≤ 126) ∧
  r.quality.head? ≠ some 64

instance (r : Record) : Decidable r.WellFormed := by
  unfold Record.WellFormed; infer_instance

/-- The Stat a scan should return for a list of records: their number, the
summed sequence lengths, and the quality bytes at or above 53 and 63. -/
def expectedStat (rs : List Record) : Stat :=
  { linenum := rs.length,
    yield := (rs.map (fun r => r.sequence.length)).sum,
    q20_base := (rs.map (fun r => r.quality.countP (fun c => decide (53 ≤ c)))).sum,
    q30_base := (rs.map (fun r => r.quality.countP (fun c => decide (63 ≤ c)))).sum }

/-- Byte-at-a-time reference count for Q20, as the spec words it: a quality
byte `c`, read as a `char`, counts when `c - 33 >= 20`. -/
def scalarQ20 (q : List Nat) : Nat :=
  q.foldl (fun n c => if 20 ≤ asSignedChar c - 33 then n + 1 else n) 0

/-- Byte-at-a-time reference count for Q30: `c - 33 >= 30`. -/
def scalarQ30 (q : List Nat) : Nat :=
  q.foldl (fun n c => if 30 ≤ asSignedChar c - 33 then n + 1 else n) 0

/-- A record with an empty header text, `L` bases `A`, the separator `+` and
`L` quality bytes of value `v`. -/
def uniformRecord (L v : Nat) : Record :=
  { header := [], sequence := List.replicate L 65, separator := [43],
    quality := List.replicate L v }

/-- The function `correct_pos`: move `*next_start_pos` forward to the next `@`
and store it in `*cur_end_pos` too; the result is that common value.  The
source has no bound on the walk, so a walk that leaves the buffer is a fault.
At most `buffer.length` bytes can be passed over before that. -/
def correct_pos (buffer : List Nat) : Nat → Nat → Except Fault Nat
  | 0, next_start_pos =>
    match buffer[next_start_pos]? with
    | none => .error .bufferOverrun
    | some c => if c ≠ 64 then .error .outOfFuel else .ok next_start_pos
  | fuel + 1, next_start_pos =>
    match buffer[next_start_pos]? with
    | none => .error .bufferOverrun
    | some c =>
      if c ≠ 64 then correct_pos buffer fuel (next_start_pos + 1) else .ok next_start_pos

/-- The first loop of `Calculate`: the naive `thread_start_pos` and
`thread_end_pos` arrays. -/
def naivePositions (buffer_size thread_count : Nat) : List Nat × List Nat :=
  let basic_step := buffer_size / thread_count
  ((List.range thread_count).map (fun i => i * basic_step),
   (List.range thread_count).map
     (fun i => if i = thread_count - 1 then buffer_size else (i + 1) * basic_step))

/-- The second loop of `Calculate`, over the indices `is`: each round calls
`correct_pos(buffer, &thread_end_pos[i], &thread_start_pos[i + 1])`. -/
def correctLoop (buffer : List Nat) :
    List Nat → List Nat × List Nat → Except Fault (List Nat × List Nat)
  | [], pos => .ok pos
  | i :: is, pos =>
    match correct_pos buffer buffer.length (pos.1.getD (i + 1) 0) with
    | .error e => .error e
    | .ok p => correctLoop buffer is (pos.1.set (i + 1) p, pos.2.set i p)

/-- The partitions `Calculate` hands to its workers: the two arrays after the
correction loop `for (i = 0; i < thread_count - 1; i++)`. -/
def correctedPositions (buffer : List Nat) (buffer_size thread_count : Nat) :
    Except Fault (List Nat × List Nat) :=
  correctLoop buffer (List.range (thread_count - 1)) (naivePositions buffer_size thread_count)

/-- Run `f` on every element, stopping at the first fault. -/
def mapExcept {α β : Type} (f : α → Except Fault β) : List α → Except Fault (List β)
  | [] => .ok []
  | a :: as =>
    match f a with
    | .error e => .error e
    | .ok b =>
      match mapExcept f as with
      | .error e => .error e
      | .ok bs => .ok (b :: bs)

/-- The worker threads of `Calculate`: `find_qc_pos_job` on every partition,
each from a zero Stat and on a stack of its own (`stackOf i`). -/
def partitionStats (buffer : List Nat) (pos : List Nat × List Nat) (thread_count : Nat)
    (stackOf : Nat → List Nat) : Except Fault (List Stat) :=
  mapExcept
    (fun i => find_qc_pos_job buffer (pos.1.getD i 0) (pos.2.getD i 0) (stackOf i) Stat.zero)
    (List.range thread_count)

/-- The method `FastqCalculator::Calculate(buffer, buffer_size, thread_count,
stat_file)`: the returned flag and the new value of `stat_file`.  `buffer` is
the whole allocation, `thread_count` a positive `int` (zero divides by zero). -/
def Calculate (buffer : List Nat) (buffer_size thread_count : Nat) (stackOf : Nat → List Nat)
    (stat_file : Stat) : Except Fault (Bool × Stat) :=
  if thread_count = 0 then .error .divByZero
  else
    match correctedPositions buffer buffer_size thread_count with
    | .error e => .error e
    | .ok pos =>
      match partitionStats buffer pos thread_count stackOf with
      | .error e => .error e
      | .ok stats => .ok (true, stats.foldl Stat.add stat_file)

/-- The reduction of `main` over its two files: `stat_total` starts at zero and
takes `stat_file[0]`, then `stat_file[1]`, field by field. -/
def mainTotal (stat_file0 stat_file1 : Stat) : Stat :=
  (Stat.zero.add stat_file0).add stat_file1

/-- The position `p` is the first one at or after `s` that holds the marker `@`. -/
def IsFirstMarker (buffer : List Nat) (s p : Nat) : Prop :=
  s ≤ p ∧ buffer[p]? = some 64 ∧ ∀ q, s ≤ q → q < p → buffer[q]? ≠ some 64

/-- Length of the first `a` records of `rs`: the buffer offset where record `a` starts. -/
def recordOffset (rs : List Record) (a : Nat) : Nat := (fastqBytes (rs.take a)).length

/-- The marker `@` occurs nowhere in the quality line. -/
def Record.NoMarkerInQuality (r : Record) : Prop := ∀ c ∈ r.quality, c ≠ 64

instance (r : Record) : Decidable r.NoMarkerInQuality := by
  unfold Record.NoMarkerInQuality; infer_instance

/-! ## fastq_unzip.h -/

/-- The fields of `struct gzip_block`.  The pointer `compressed` is kept as its
distance from the start of the compressed buffer; `uncompressed` is `none` for
`NULL`, else the bytes of the output buffer, a byte never written being `none`. -/
structure GZIP_BLOCK where
  index : Int
  offset : Int
  compressed_size : Int
  uncompressed_size : Int
  compressed : Int
  uncompressed : Option (List (Option Nat))
  actual_out_nbytes : Int
deriving DecidableEq, Repr

/-- A byte of memory at distance `i` from the start of the compressed buffer.
`under` holds the bytes that lie in memory right before the buffer (the scan
starts ten bytes before it); outside `under` and the buffer a read is a fault. -/
def readByte (under buffer : List Nat) (i : Int) : Except Fault Nat :=
  if 0 ≤ i then
    match buffer[i.toNat]? with
    | some b => .ok b
    | none => .error .bufferOverrun
  else if -i ≤ under.length then
    match under[under.length - (-i).toNat]? with
    | some b => .ok b
    | none => .error .bufferOverrun
  else .error .bufferOverrun

/-- The test of `offset_thread` at position `i`: magic bytes `1F 8B 08`, the
three high bits of the flags byte clear, byte 8 in {0, 2, 4}, byte 9 in
{0, 3, 255}; bytes are read in the order of the source, left to right. -/
def signatureAt (under buffer : List Nat) (i : Int) : Except Fault Bool :=
  match readByte under buffer i with
  | .error e => .error e
  | .ok b0 =>
    if b0 ≠ 0x1f then .ok false
    else match readByte under buffer (i + 1) with
    | .error e => .error e
    | .ok b1 =>
      if b1 ≠ 0x8b then .ok false
      else match readByte under buffer (i + 2) with
      | .error e => .error e
      | .ok b2 =>
        if b2 ≠ 0x08 then .ok false
        else match readByte under buffer (i + 3) with
        | .error e => .error e
        | .ok b3 =>
          if Nat.land b3 0xE0 ≠ 0 then .ok false
          else match readByte under buffer (i + 8) with
          | .error e => .error e
          | .ok b8 =>
            if ¬ (b8 = 0 ∨ b8 = 2 ∨ b8 = 4) then .ok false
            else match readByte under buffer (i + 9) with
            | .error e => .error e
            | .ok b9 => .ok (decide (b9 = 0 ∨ b9 = 3 ∨ b9 = 255))

/-- The loop of `offset_thread` over the positions `is`, in order: the
positions that pass the test, as pushed onto `param->offsets`. -/
def offsetLoop (under buffer : List Nat) : List Int → Except Fault (List Int)
  | [] => .ok []
  | i :: is =>
    match signatureAt under buffer i with
    | .error e => .error e
    | .ok m =>
      match offsetLoop under buffer is with
      | .error e => .error e
      | .ok rest => .ok (if m then i :: rest else rest)

/-- The function `offset_thread` on `[start, start + length)`. -/
def offset_thread (under buffer : List Nat) (start length : Int) : Except Fault (List Int) :=
  offsetLoop under buffer ((List.range length.toNat).map (fun j => start + (j : Int)))

/-- The `(start, length)` of the `i`-th scan worker of `find_gzip_members`. -/
def offsetParam (file_size core i : Int) : Int × Int :=
  let chunk_size := file_size / core
  let start := i * chunk_size
  let p_start := start - 10
  (p_start, if p_start + chunk_size ≥ file_size then file_size - p_start else chunk_size)

/-- The scan workers for the worker indices `ws` and the loop that gathers
their results: each non-empty result is inserted at the front of `offsets`. -/
def gatherOffsets (under buffer : List Nat) (core : Int) :
    List Nat → List Int → Except Fault (List Int)
  | [], offsets => .ok offsets
  | i :: ws, offsets =>
    match offset_thread under buffer (offsetParam buffer.length core i).1
        (offsetParam buffer.length core i).2 with
    | .error e => .error e
    | .ok found => gatherOffsets under buffer core ws (found ++ offsets)

/-- The read `*(unsigned int *)(buffer + at)`: four bytes, little-endian. -/
def readU32 (under buffer : List Nat) (pos : Int) : Except Fault Int :=
  match readByte under buffer pos, readByte under buffer (pos + 1),
      readByte under buffer (pos + 2), readByte under buffer (pos + 3) with
  | .ok b0, .ok b1, .ok b2, .ok b3 =>
    .ok ((b0 + 256 * b1 + 65536 * b2 + 16777216 * b3 : Nat) : Int)
  | _, _, _, _ => .error .bufferOverrun

/-- A freshly filled `GZIP_BLOCK` of `find_gzip_members`. -/
def newBlock (index offset length isize : Int) : GZIP_BLOCK :=
  { index := index, offset := offset, compressed_size := length, uncompressed_size := isize,
    compressed := offset, uncompressed := none, actual_out_nbytes := 0 }

/-- The loop of `find_gzip_members` over the pairs of consecutive sorted
offsets; `index` counts every round, `dest` gains a block per pair of distinct
offsets, of length `next_offset - offset + 1`. -/
def pairLoop (under buffer : List Nat) :
    List Int → Int → List GZIP_BLOCK → Except Fault (List GZIP_BLOCK × Int)
  | offset :: next_offset :: rest, index, dest =>
    if offset = next_offset then pairLoop under buffer (next_offset :: rest) (index + 1) dest
    else
      match readU32 under buffer (next_offset - 4) with
      | .error e => .error e
      | .ok isize =>
        pairLoop under buffer (next_offset :: rest) (index + 1)
          (dest ++ [newBlock index offset (next_offset - offset + 1) isize])
  | _, index, dest => .ok (dest, index)

/-- Ascending insertion sort, standing for `std::sort` on the offsets. -/
def sortOffsets (l : List Int) : List Int := l.insertionSort (fun a b => a ≤ b)

/-- The function `find_gzip_members(buffer, file_size, core, dest)` on an empty
`dest`: the returned flag and the blocks appended to `dest`. -/
def find_gzip_members (under buffer : List Nat) (core : Nat) :
    Except Fault (Bool × List GZIP_BLOCK) :=
  if core = 0 then .error .divByZero
  else
    match gatherOffsets under buffer core (List.range core) [] with
    | .error e => .error e
    | .ok offsets =>
      match offsets with
      | [] => .ok (false, [])
      | [o] =>
        match readU32 under buffer ((buffer.length : Int) - 4) with
        | .error e => .error e
        | .ok isize => .ok (true, [newBlock 0 o ((buffer.length : Int) - o) isize])
      | o :: _ :: _ =>
        let sorted := sortOffsets offsets
        match pairLoop under buffer sorted 0 [] with
        | .error e => .error e
        | .ok (dest, index) =>
          let last_offset := sorted.getLastD o
          match dest.getLast? with
          | none => .error .bufferOverrun
          | some back =>
            if last_offset ≠ back.offset then
              match readU32 under buffer ((buffer.length : Int) - 4) with
              | .error e => .error e
              | .ok isize =>
                .ok (true, dest ++ [newBlock index last_offset
                  ((buffer.length : Int) - last_offset) isize])
            else .ok (true, dest)

/-- The values of `enum libdeflate_result`. -/
inductive LibdeflateResult where
  | LIBDEFLATE_SUCCESS
  | LIBDEFLATE_BAD_DATA
  | LIBDEFLATE_SHORT_OUTPUT
  | LIBDEFLATE_INSUFFICIENT_SPACE
deriving DecidableEq, Repr

/-- What one call of the inflate primitive does: its status, the values it
stores through `actual_in_nbytes_ret` and `actual_out_nbytes_ret` (`none` when
it leaves the variable alone) and the bytes it writes at the start of the
output buffer. -/
structure InflateOut where
  result : LibdeflateResult
  actual_in : Option Nat
  actual_out : Option Nat
  out : List Nat
deriving DecidableEq, Repr

/-- The inflate primitive `libdeflate_gzip_decompress_ex`, a parameter of the
model: from the input bytes and the number of output bytes available. -/
abbrev Inflate := List Nat → Nat → InflateOut

/-- The bytes `[compressed, compressed + compressed_size)` handed to the
primitive, the size read as a `size_t`; a range that is not inside the
compressed buffer is a fault. -/
def inflateInput (buffer : List Nat) (compressed compressed_size : Int) :
    Except Fault (List Nat) :=
  if 0 ≤ compressed ∧ 0 ≤ compressed_size ∧ compressed + compressed_size ≤ buffer.length then
    .ok ((buffer.drop compressed.toNat).take compressed_size.toNat)
  else .error .bufferOverrun

/-- The array `new char[n]`: `n` bytes, none of them written yet. -/
def newChars (n : Int) : List (Option Nat) := List.replicate n.toNat none

/-- The bytes `out` written at the start of an output buffer. -/
def writeOut (old : List (Option Nat)) (out : List Nat) : Except Fault (List (Option Nat)) :=
  if old.length < out.length then .error .bufferOverrun
  else .ok (out.map some ++ old.drop out.length)

/-- The `while (block->compressed_size != 0)` loop of `job_thread`, with the
local variables `actual_in_nbytes` and `actual_out_nbytes`.  The loop has no
bound of its own: `fuel` counts the rounds the model is ready to run. -/
def jobLoop (inflate : Inflate) (buffer : List Nat) :
    Nat → Nat → Nat → GZIP_BLOCK → Except Fault GZIP_BLOCK
  | 0, _, _, block => if block.compressed_size = 0 then .ok block else .error .outOfFuel
  | fuel + 1, actual_in_nbytes, actual_out_nbytes, block =>
    if block.compressed_size = 0 then .ok block
    else
      match inflateInput buffer block.compressed block.compressed_size with
      | .error e => .error e
      | .ok input =>
        let r := inflate input block.uncompressed_size.toNat
        match writeOut (block.uncompressed.getD []) r.out with
        | .error e => .error e
        | .ok written =>
          let actual_in_nbytes := r.actual_in.getD actual_in_nbytes
          let actual_out_nbytes := r.actual_out.getD actual_out_nbytes
          if r.result = .LIBDEFLATE_INSUFFICIENT_SPACE then
            jobLoop inflate buffer fuel actual_in_nbytes actual_out_nbytes
              { block with uncompressed_size := block.uncompressed_size * 2,
                           uncompressed := some (newChars (block.uncompressed_size * 2)) }
          else
            jobLoop inflate buffer fuel actual_in_nbytes actual_out_nbytes
              { block with compressed := block.compressed + actual_in_nbytes,
                           compressed_size := block.compressed_size - actual_in_nbytes,
                           uncompressed := some written,
                           actual_out_nbytes := block.actual_out_nbytes + actual_out_nbytes }

/-- The body of the `for` loop of `job_thread` for one block (its `compressed`
pointer is never `NULL`): allocate the output buffer if there is none, then
run the decode loop. -/
def jobBlock (inflate : Inflate) (buffer : List Nat) (fuel : Nat) (block : GZIP_BLOCK) :
    Except Fault GZIP_BLOCK :=
  let block1 : GZIP_BLOCK :=
    if block.uncompressed = none then
      { block with uncompressed := some (newChars block.uncompressed_size) }
    else block
  jobLoop inflate buffer fuel 0 0 block1

/-- The function `job_thread` on the blocks `start + i` for the `i` in `is`:
the blocks and `*param.total_size` after it. -/
def job_thread (inflate : Inflate) (buffer : List Nat) (fuel : Nat) (start : Nat) :
    List Nat → List GZIP_BLOCK × Int → Except Fault (List GZIP_BLOCK × Int)
  | [], state => .ok state
  | i :: is, (blocks, total_size) =>
    match blocks[start + i]? with
    | none => .error .bufferOverrun
    | some block =>
      match jobBlock inflate buffer fuel block with
      | .error e => .error e
      | .ok block' =>
        job_thread inflate buffer fuel start is
          (blocks.set (start + i) block', total_size + block'.actual_out_nbytes)

/-- The loop of `Unzip` that starts the inflate workers `ws`, each on
`[start_index, start_index + length)`; the workers run in spawn order. -/
def inflateWorkers (inflate : Inflate) (buffer : List Nat) (fuel thread_count : Nat) :
    List Nat → Nat → List GZIP_BLOCK × Int → Except Fault (List GZIP_BLOCK × Int)
  | [], _, state => .ok state
  | i :: ws, start_index, (blocks, total_size) =>
    let chunk_size := blocks.length / thread_count
    let p_start := start_index
    let p_length := if i < blocks.length % thread_count then chunk_size + 1 else chunk_size
    let start_index := start_index + p_length
    let p_length := if p_start + p_length > blocks.length then blocks.length - p_start else p_length
    match job_thread inflate buffer fuel p_start (List.range p_length) (blocks, total_size) with
    | .error e => .error e
    | .ok state => inflateWorkers inflate buffer fuel thread_count ws start_index state

/-- The `(p->start, p->length)` that the inflate loop of `Unzip` hands to the
workers `ws`, for `size` blocks, from the running `start_index`. -/
def inflateRanges (size thread_count : Nat) : List Nat → Nat → List (Nat × Nat)
  | [], _ => []
  | i :: ws, start_index =>
    let chunk_size := size / thread_count
    let p_start := start_index
    let p_length := if i < size % thread_count then chunk_size + 1 else chunk_size
    let start_index := start_index + p_length
    let p_length := if p_start + p_length > size then size - p_start else p_length
    (p_start, p_length) :: inflateRanges size thread_count ws start_index

/-- The function `job_thread` run once for every `(start, length)` of a list,
in order. -/
def jobThreads (inflate : Inflate) (buffer : List Nat) (fuel : Nat) :
    List (Nat × Nat) → List GZIP_BLOCK × Int → Except Fault (List GZIP_BLOCK × Int)
  | [], state => .ok state
  | range :: ranges, state =>
    match job_thread inflate buffer fuel range.1 (List.range range.2) state with
    | .error e => .error e
    | .ok state' => jobThreads inflate buffer fuel ranges state'

/-- The inflate stage of `Unzip`: the blocks and `total_out_size` after all
`thread_count` workers are joined. -/
def inflateStage (inflate : Inflate) (buffer : List Nat) (fuel thread_count : Nat)
    (blocks : List GZIP_BLOCK) (total_out_size : Int) : Except Fault (List GZIP_BLOCK × Int) :=
  inflateWorkers inflate buffer fuel thread_count (List.range thread_count) 0
    (blocks, total_out_size)

/-- The offset pass of `Unzip`: `block->offset = offset; offset +=
block->actual_out_nbytes` over the blocks, from the running `offset`. -/
def offsetPass : List GZIP_BLOCK → Int → List GZIP_BLOCK
  | [], _ => []
  | block :: rest, offset =>
    { block with offset := offset } :: offsetPass rest (offset + block.actual_out_nbytes)

/-- The `[start, end)` block ranges that the merge loop of `Unzip` hands to
`merge_thread`, for the worker indices `ws`; `end_index` is the only variable
the loop carries (`start_index` stays 0, `chunk_size` is fixed). -/
def mergeRanges (size thread_count : Nat) : List Nat → Int → List (Int × Int)
  | [], _ => []
  | i :: ws, end_index =>
    let chunk_size : Int := ((size / thread_count : Nat) : Int)
    let p_start := end_index
    let p_end := 0 + chunk_size
    let end_index := p_end
    let p_end := if i = thread_count - 1 then (size : Int) else p_end
    let p_end := if p_start + p_end > size then (size : Int) - p_start else p_end
    if p_start = p_end then mergeRanges size thread_count ws end_index
    else (p_start, p_end) :: mergeRanges size thread_count ws end_index

/-- The call `memcpy(dst + offset, src, n)` on buffers whose unwritten bytes are `none`. -/
def memcpyAt (dst : List (Option Nat)) (offset : Int) (src : List (Option Nat)) (n : Int) :
    Except Fault (List (Option Nat)) :=
  if offset < 0 ∨ n < 0 ∨ src.length < n.toNat ∨ dst.length < offset.toNat + n.toNat then
    .error .bufferOverrun
  else .ok (dst.take offset.toNat ++ src.take n.toNat ++ dst.drop (offset.toNat + n.toNat))

/-- The function `merge_thread` on the block indices `is`: the output buffer
after the copies.  A copied block keeps its (freed) pointer. -/
def merge_thread (blocks : List GZIP_BLOCK) : List Int → List (Option Nat) →
    Except Fault (List (Option Nat))
  | [], out => .ok out
  | i :: is, out =>
    if i < 0 then .error .bufferOverrun
    else
      match blocks[i.toNat]? with
      | none => .error .bufferOverrun
      | some block =>
        if block.offset < 0 then merge_thread blocks is out
        else
          match block.uncompressed with
          | none => merge_thread blocks is out
          | some data =>
            if block.uncompressed_size = 0 then merge_thread blocks is out
            else
              match memcpyAt out block.offset data block.actual_out_nbytes with
              | .error e => .error e
              | .ok out' => merge_thread blocks is out'

/-- The block indices `start, start + 1, ..., end - 1` of one merge worker. -/
def mergeIndices (range : Int × Int) : List Int :=
  (List.range (range.2 - range.1).toNat).map (fun j => range.1 + (j : Int))

/-- The merge workers of `Unzip`, run in spawn order over their ranges. -/
def mergeWorkers (blocks : List GZIP_BLOCK) : List (Int × Int) → List (Option Nat) →
    Except Fault (List (Option Nat))
  | [], out => .ok out
  | range :: ranges, out =>
    match merge_thread blocks (mergeIndices range) out with
    | .error e => .error e
    | .ok out' => mergeWorkers blocks ranges out'

/-- The merge stage of `Unzip`, after the offset pass: a new buffer of
`total_out_size` bytes filled by the merge workers when there is more than one
block, else the output buffer of the only block. -/
def mergeStage (blocks : List GZIP_BLOCK) (total_out_size : Int) (thread_count : Nat) :
    Except Fault (List (Option Nat)) :=
  if blocks.length > 1 then
    if total_out_size < 0 then .error .bufferOverrun
    else
      mergeWorkers blocks (mergeRanges blocks.length thread_count (List.range thread_count) 0)
        (newChars total_out_size)
  else
    match blocks with
    | block :: _ => .ok (block.uncompressed.getD [])
    | [] => .error .bufferOverrun

/-- The step `if (blocks.size() == 1) blocks[0].uncompressed_size =
blocks[0].compressed_size * 6` of `Unzip`. -/
def presize : List GZIP_BLOCK → List GZIP_BLOCK
  | [b] => [{ b with uncompressed_size := b.compressed_size * 6 }]
  | blocks => blocks

/-- What `Unzip` leaves behind: the returned flag, `total_out_size` and
`uncompressed_buffer`. -/
structure UnzipResult where
  ok : Bool
  total_out_size : Int
  uncompressed_buffer : List (Option Nat)
deriving DecidableEq, Repr

/-- The method `FastqUnzip::Unzip` on the bytes of the file (`buffer`), with
the inflate primitive, the memory before the buffer and the fuel of the decode
loops as parameters.  `total_out_size` starts at 0 (the constructor). -/
def Unzip (inflate : Inflate) (under buffer : List Nat) (thread_count fuel : Nat) :
    Except Fault UnzipResult :=
  match find_gzip_members under buffer thread_count with
  | .error e => .error e
  | .ok (false, _) => .ok { ok := false, total_out_size := 0, uncompressed_buffer := [] }
  | .ok (true, blocks) =>
    match inflateStage inflate buffer fuel thread_count (presize blocks) 0 with
    | .error e => .error e
    | .ok (blocks, total_out_size) =>
      let blocks := offsetPass blocks 0
      match mergeStage blocks total_out_size thread_count with
      | .error e => .error e
      | .ok uncompressed_buffer =>
        .ok { ok := true, total_out_size := total_out_size,
              uncompressed_buffer := uncompressed_buffer }

/-- Modelled from the spec: the inflate primitive (libdeflate, not under src/)
is a black box that decodes one member from the front of its input and reports
bytes consumed, bytes produced and a status.  This stand-in decodes "stored"
members: the ten header bytes `1F 8B 08 00 00 00 00 00 00 03`, one length byte
`n`, `n` payload bytes, four check bytes and the four size bytes `n 0 0 0`.  An
input shorter than the 18 bytes of header and trailer, or one that does not
start with the magic bytes, is bad data and stores nothing. -/
def storedInflate : Inflate := fun input out_avail =>
  if input.length < 18 ∨ input.take 3 ≠ [0x1f, 0x8b, 0x08] then
    ⟨.LIBDEFLATE_BAD_DATA, none, none, []⟩
  else if input.length < 19 + input.getD 10 0 then ⟨.LIBDEFLATE_BAD_DATA, none, none, []⟩
  else if out_avail < input.getD 10 0 then ⟨.LIBDEFLATE_INSUFFICIENT_SPACE, none, none, []⟩
  else
    ⟨.LIBDEFLATE_SUCCESS, some (19 + input.getD 10 0), some (input.getD 10 0),
      (input.drop 11).take (input.getD 10 0)⟩

/-- The stored member that `storedInflate` decodes to `payload`. -/
def storedMember (payload : List Nat) : List Nat :=
  [0x1f, 0x8b, 0x08, 0, 0, 0, 0, 0, 0, 3] ++ [payload.length] ++ payload ++ [0, 0, 0, 0] ++
    [payload.length, 0, 0, 0]

/-- Bytes produced by the blocks before block `j`: the sum of their `actual_out_nbytes`. -/
def producedBefore (blocks : List GZIP_BLOCK) (j : Nat) : Int :=
  ((blocks.take j).map (fun b => b.actual_out_nbytes)).sum

/-- Three stored members one after the other, used in the examples. -/
def sampleStream : List Nat :=
  storedMember [97, 98, 99] ++ storedMember [100, 101] ++ storedMember [102]

/-- Blocks for the three members of `sampleStream` with their exact spans (22,
21 and 20 bytes) and declared sizes 3, 1 (too small) and 1. -/
def sampleBlocks : List GZIP_BLOCK :=
  [newBlock 0 0 22 3, newBlock 1 22 21 1, newBlock 2 43 20 1]

/-- The blocks of `sampleBlocks` after the inflate stage. -/
def sampleInflated : List GZIP_BLOCK :=
  [{ index := 0, offset := 0, compressed_size := 0, uncompressed_size := 3, compressed := 22,
     uncompressed := some [some 97, some 98, some 99], actual_out_nbytes := 3 },
   { index := 1, offset := 22, compressed_size := 0, uncompressed_size := 2, compressed := 43,
     uncompressed := some [some 100, some 101], actual_out_nbytes := 2 },
   { index := 2, offset := 43, compressed_size := 0, uncompressed_size := 1, compressed := 63,
     uncompressed := some [some 102], actual_out_nbytes := 1 }]

/-- The gzip member of the text `abc` (23 bytes) followed by the gzip member of
the empty text (20 bytes), as `gzip` writes them. -/
def gzipAbcEmpty : List Nat :=
  [31, 139, 8, 0, 0, 0, 0, 0, 0, 3, 75, 76, 74, 6, 0, 194, 65, 36, 53, 3, 0, 0, 0,
   31, 139, 8, 0, 0, 0, 0, 0, 0, 3, 3, 0, 0, 0, 0, 0, 0, 0, 0, 0]

/-- A stored member cut off after 18 bytes: its trailer is incomplete. -/
def truncatedMember : List Nat := (storedMember [97, 98, 99]).take 18

/-- An inflate primitive that reports bad data after storing that it consumed
its whole input and produced nothing. -/
def failingInflate : Inflate := fun input _ =>
  ⟨.LIBDEFLATE_BAD_DATA, some input.length, some 0, []⟩

/-- The gzip member of the empty text, 20 bytes, as `gzip` writes it. -/
def gzipEmpty : List Nat := [31, 139, 8, 0, 0, 0, 0, 0, 0, 3, 3, 0, 0, 0, 0, 0, 0, 0, 0, 0]

/-- The stored member of `abc` followed by a stored member of `de` whose header
names the operating system 7, which the scanner does not accept: one block
that holds two members. -/
def twoMembersOneBlock : List Nat :=
  storedMember [97, 98, 99] ++
    ([0x1f, 0x8b, 0x08, 0, 0, 0, 0, 0, 0, 7] ++ [2] ++ [100, 101] ++ [0, 0, 0, 0] ++ [2, 0, 0, 0])

/-- A record whose quality line may hold any byte values: header, sequence and
separator as in `Record.WellFormed`; the quality line is as long as the
sequence line, holds bytes 0..255, and its first byte is none of NUL, newline
and `@`. -/
def Record.RawQuality (r : Record) : Prop :=
  (∀ c ∈ r.header, c ≠ 64 ∧ c ≠ 10) ∧
  1 ≤ r.sequence.length ∧ r.sequence.length ≤ 256 ∧
  (∀ c ∈ r.sequence, c ≠ 64 ∧ c ≠ 10 ∧ c ≠ 0) ∧
  (∀ c ∈ r.separator, c ≠ 64 ∧ c ≠ 10) ∧
  r.quality.length = r.sequence.length ∧
  (∀ c ∈ r.quality, c < 256) ∧
  r.quality.head? ≠ some 64 ∧ r.quality.head? ≠ some 10 ∧ r.quality.head? ≠ some 0

instance (r : Record) : Decidable r.RawQuality := by
  unfold Record.RawQuality; infer_instance

/-- The ordering of the counters of a Stat: `q30_base ≤ q20_base ≤ yield`. -/
def Stat.Ordered (s : Stat) : Prop := s.q30_base ≤ s.q20_base ∧ s.q20_base ≤ s.yield

instance (s : Stat) : Decidable s.Ordered := by
  unfold Stat.Ordered; infer_instance

/-- A value of type `double`, as `main` gets it from counters that are not
negative: not a number (NaN), plus infinity, or a finite value. -/
inductive DoubleValue where
  | nan
  | inf
  | finite (x : ℚ)
deriving DecidableEq

/-- The comparison `a > b` of two doubles; it is false when a side is NaN. -/
def DoubleValue.gt : DoubleValue → DoubleValue → Bool
  | .finite x, .finite y => decide (y < x)
  | .inf, .finite _ => true
  | _, _ => false

/-- The value `double Q20 = (double)stat_total.q20_base / (double)stat_total.yield * 100`
of `main`.  The parameter `fl` is the rounding of an exact value to a double:
each conversion, the division and the product round once.  With a divisor of
zero the quotient is NaN for 0.0 / 0.0 and infinity for a positive dividend,
and the product with 100 keeps either. -/
def Q20 (fl : ℚ → ℚ) (stat_total : Stat) : DoubleValue :=
  if fl (stat_total.yield : ℚ) = 0 then
    (if fl (stat_total.q20_base : ℚ) = 0 then .nan else .inf)
  else .finite (fl (fl (fl (stat_total.q20_base : ℚ) / fl (stat_total.yield : ℚ)) * 100))

/-- The value `double Q30 = (double)stat_total.q30_base / (double)stat_total.yield * 100`
of `main`, with the rounding `fl` as in `Q20`. -/
def Q30 (fl : ℚ → ℚ) (stat_total : Stat) : DoubleValue :=
  if fl (stat_total.yield : ℚ) = 0 then
    (if fl (stat_total.q30_base : ℚ) = 0 then .nan else .inf)
  else .finite (fl (fl (fl (stat_total.q30_base : ℚ) / fl (stat_total.yield : ℚ)) * 100))

/-- The constant `file_count` of `main`. -/
def file_count : Int := 2

/-- The value `int thread_count_per_file = (thread_count + 0.5) / file_count`
of `main`: sum and quotient are doubles, and the conversion to `int` cuts the
fraction off (toward zero).  For an `int` the quotient is the rational
`(2 * thread_count + 1) / (2 * file_count)`, a multiple of 1/4 below 2^31,
which the doubles hold exactly; so the value is that quotient, truncated. -/
def thread_count_per_file (thread_count : Int) : Int :=
  Int.tdiv (2 * thread_count + 1) (2 * file_count)

/-- A stored member of `x`, a stored member of `abc` and a stored member of the
empty text, 20 + 22 + 19 bytes: with 13 scan workers the last member, at
offset 42, lies in the part of the file that no worker scans. -/
def hiddenEmptyMember : List Nat :=
  storedMember [120] ++ storedMember [97, 98, 99] ++ storedMember []

/-! ## Theorems -/

/-! ### Lanes -/

theorem popcntBits_maskOfBits (w : Nat) (bs : List Bool) :
    popcntBits w (maskOfBits bs) = (bs.take w).count true := by
  induction w generalizing bs with
  | zero => simp [popcntBits]
  | succ w ih =>
    cases bs with
    | nil => 
      simp [maskOfBits, popcntBits]
      have := ih []
      simpa [maskOfBits] using this
    | cons b bs =>
      have h1 : ((if b then 1 else 0) + 2 * maskOfBits bs) % 2 = (if b then 1 else 0) := by
        split <;> omega
      have h2 : ((if b then 1 else 0) + 2 * maskOfBits bs) / 2 = maskOfBits bs := by
        split <;> omega
      simp only [maskOfBits, popcntBits, h1, h2, ih, List.take_succ_cons, List.count_cons]
      cases b <;> simp; omega

theorem zipWith_replicate_right (f : Nat → Nat → Bool) (v : Nat) :
    ∀ (n : Nat) (a : List Nat), a.length ≤ n →
      List.zipWith f a (List.replicate n v) = a.map (fun x => f x v)
  | _, [], _ => by simp
  | 0, _ :: _, h => by simp at h
  | n + 1, x :: a, h => by
    simp [List.replicate_succ, zipWith_replicate_right f v n a (by simpa using h)]

theorem count_true_map (p : Nat → Bool) (l : List Nat) :
    (l.map p).count true = l.countP p := by
  induction l with
  | nil => rfl
  | cons x l ih => simp [List.countP_cons, List.count_cons, ih]

theorem lane_popcnt (v : Nat) (a : List Nat) (h : a.length ≤ 64) :
    mm_popcnt_u64 (mm512_cmpge_epi8_mask a (mm512_set1_epi8 v)) = geCount v a := by
  unfold mm_popcnt_u64 mm512_cmpge_epi8_mask mm512_set1_epi8 geCount
  rw [popcntBits_maskOfBits, zipWith_replicate_right _ _ _ _ h, List.take_of_length_le (by simpa using h),
    count_true_map]


theorem geCount_append (v : Nat) (a b : List Nat) :
    geCount v (a ++ b) = geCount v a + geCount v b := by
  simp [geCount, List.countP_append]

theorem geCount_zeros (v n : Nat) (hv : 0 < v % 256) (hv2 : v % 256 < 128) :
    geCount v (List.replicate n 0) = 0 := by
  have h : asSignedChar 0 < asSignedChar v := by
    simp only [asSignedChar, hv2, if_true]
    simp; omega
  simp only [geCount, List.countP_eq_zero, List.mem_replicate]
  rintro a ⟨-, rfl⟩
  simpa using h

theorem laneLoop_eq (sl : List Nat) (m : Nat) (stat : Stat) :
    laneLoop sl m stat =
      { stat with q20_base := stat.q20_base + geCount 53 (sl.take (m * 64)),
                  q30_base := stat.q30_base + geCount 63 (sl.take (m * 64)) } := by
  induction m with
  | zero => simp [laneLoop, geCount]
  | succ m ih =>
    have hlen : (mm512_loadu_epi8 sl (m * 64)).length ≤ 64 := by
      simp [mm512_loadu_epi8, List.length_take]
    unfold laneLoop at ih ⊢
    rw [List.range_succ, List.foldl_append, ih]
    simp only [List.foldl_cons, List.foldl_nil]
    rw [lane_popcnt _ _ hlen, lane_popcnt _ _ hlen]
    have : (m + 1) * 64 = m * 64 + 64 := by ring
    rw [this, List.take_add, geCount_append, geCount_append]
    simp [mm512_loadu_epi8, Nat.add_assoc]

/-- The staging buffer after `memset` and `memcpy` of a quality line `q`. -/
theorem laneLoop_staged (q : List Nat) (stat : Stat) :
    laneLoop (q ++ List.replicate (SCORE_LINE_SIZE - q.length) 0) ((q.length + 63) / 64) stat =
      { stat with q20_base := stat.q20_base + geCount 53 q,
                  q30_base := stat.q30_base + geCount 63 q } := by
  rw [laneLoop_eq]
  have h1 : q.length ≤ (q.length + 63) / 64 * 64 := by omega
  rw [List.take_append_eq_append_take, List.take_of_length_le h1, List.take_replicate,
    geCount_append, geCount_append, geCount_zeros _ _ (by decide) (by decide),
    geCount_zeros _ _ (by decide) (by decide)]
  simp

/-! ### The scan loop -/

theorem drop_cons_getElem? {l : List Nat} {i c : Nat} {rest : List Nat}
    (h : l.drop i = c :: rest) : l[i]? = some c := by
  have := congrArg (fun x => x[0]?) h
  simpa [List.getElem?_drop] using this

theorem drop_cons_succ {l : List Nat} {i c : Nat} {rest : List Nat}
    (h : l.drop i = c :: rest) : l.drop (i + 1) = rest := by
  have : l.drop (i + 1) = (l.drop i).drop 1 := by simp [List.drop_drop, Nat.add_comm]
  rw [this, h]; rfl

theorem drop_append_add {l : List Nat} {i : Nat} {run post : List Nat}
    (h : l.drop i = run ++ post) : l.drop (i + run.length) = post := by
  have : l.drop (i + run.length) = (l.drop i).drop run.length := by
    simp [List.drop_drop, Nat.add_comm]
  rw [this, h]; simp

theorem scanLoop_done (buffer : List Nat) (end_pos fuel i : Nat) (st : ScanState)
    (h : end_pos ≤ i) : scanLoop buffer end_pos fuel i st = .ok st.stat := by
  cases fuel <;> simp [scanLoop, h]

theorem scanLoop_step {buffer : List Nat} {end_pos i i' : Nat} {st st' : ScanState} (fuel : Nat)
    (h : i < end_pos) (hs : scanStep buffer i st = .ok (i', st')) :
    scanLoop buffer end_pos (fuel + 1) i st = scanLoop buffer end_pos fuel i' st' := by
  simp [scanLoop, Nat.not_le.mpr h, hs]

/-- A byte that is neither `@` nor newline, outside lines 1 and 3, changes nothing. -/
theorem scanStep_plain {buffer : List Nat} {i c : Nat} {st : ScanState}
    (hc : buffer[i]? = some c) (h64 : c ≠ 64) (h10 : c ≠ 10)
    (h1 : st.line_index ≠ 1) (h3 : st.line_index ≠ 3) :
    scanStep buffer i st = .ok (i + 1, st) := by
  simp only [scanStep, hc, h64, h10, if_false, h1, h3, false_and]
  split <;> rfl

/-- A newline moves to the next line. -/
theorem scanStep_newline {buffer : List Nat} {i : Nat} {st : ScanState}
    (hc : buffer[i]? = some 10) (h : st.line_index < INT_MAX) :
    scanStep buffer i st = .ok (i + 1, { st with line_index := st.line_index + 1 }) := by
  simp [scanStep, hc, h]

/-- The marker `@` counts a record and clears the per-record variables. -/
theorem scanStep_at {buffer : List Nat} {i : Nat} {st : ScanState}
    (hc : buffer[i]? = some 64) :
    scanStep buffer i st = .ok (i + 1,
      { line_index := 0, yield := 0, score_line := List.replicate SCORE_LINE_SIZE 0,
        stat := { st.stat with linenum := st.stat.linenum + 1 } }) := by
  simp [scanStep, hc]

/-- A base on the sequence line counts towards `yield`. -/
theorem scanStep_base {buffer : List Nat} {i c : Nat} {st : ScanState}
    (hc : buffer[i]? = some c) (h64 : c ≠ 64) (h10 : c ≠ 10) (h0 : c ≠ 0)
    (h1 : st.line_index = 1) (hy : st.yield < INT_MAX) :
    scanStep buffer i st = .ok (i + 1, { st with yield := st.yield + 1 }) := by
  simp [scanStep, hc, h64, h10, h0, h1, hy]

/-- The first byte of the quality line stages and counts the whole line. -/
theorem scanStep_quality {buffer : List Nat} {i c : Nat} {st : ScanState} {q post : List Nat}
    (hd : buffer.drop i = q ++ post) (hq : q.head? = some c)
    (h64 : c ≠ 64) (h10 : c ≠ 10) (h0 : c ≠ 0)
    (h3 : st.line_index = 3) (hy : st.yield = q.length) (hcap : q.length ≤ SCORE_LINE_SIZE)
    (hs : st.score_line = List.replicate SCORE_LINE_SIZE 0) :
    scanStep buffer i st = .ok (i + q.length + 1,
      { line_index := 3, yield := q.length,
        score_line := q ++ List.replicate (SCORE_LINE_SIZE - q.length) 0,
        stat := { st.stat with yield := st.stat.yield + q.length,
                               q20_base := st.stat.q20_base + geCount 53 q,
                               q30_base := st.stat.q30_base + geCount 63 q } }) := by
  obtain ⟨ln, y, sl, stat⟩ := st
  simp only at h3 hy hs
  subst h3 hy hs
  cases q with
  | nil => simp at hq
  | cons c' q' =>
    simp only [List.head?_cons, Option.some.injEq] at hq
    subst hq
    have hc : buffer[i]? = some c' := drop_cons_getElem? hd
    have hlen : i + (c' :: q').length ≤ buffer.length := by
      have := congrArg List.length hd
      simp only [List.length_drop, List.length_append, List.length_cons] at this ⊢
      omega
    have hcopy : memcpyScore buffer i (c' :: q').length (List.replicate SCORE_LINE_SIZE 0) =
        .ok ((c' :: q') ++ List.replicate (SCORE_LINE_SIZE - (c' :: q').length) 0) := by
      simp only [memcpyScore, Nat.not_lt.mpr hcap, if_false, Nat.not_lt.mpr hlen, hd]
      simp
    simp only [scanStep, hc, h64, h10, if_false, ne_eq, h0, not_false_eq_true, if_true]
    simp only [OfNat.ofNat_ne_one, false_and, if_false, hcopy, laneLoop_staged]
    simp

/-- Every round of the scan moves the cursor forward. -/
theorem scanStep_progress {buffer : List Nat} {i i' : Nat} {st st' : ScanState}
    (h : scanStep buffer i st = .ok (i', st')) : i < i' := by
  unfold scanStep at h
  split at h
  · simp at h
  · dsimp only at h
    split_ifs at h <;> (try split at h) <;> simp at h <;> omega

/-- Fuel beyond `end_pos - i` is never used: the loop cannot run out of it. -/
theorem scanLoop_fuel (buffer : List Nat) (end_pos : Nat) :
    ∀ (fuel i : Nat) (st : ScanState), end_pos - i ≤ fuel →
      scanLoop buffer end_pos fuel i st = scanLoop buffer end_pos (end_pos - i) i st := by
  intro fuel
  induction fuel using Nat.strong_induction_on with
  | _ fuel ih =>
    intro i st hf
    by_cases hi : end_pos ≤ i
    · rw [scanLoop_done _ _ _ _ _ hi, scanLoop_done _ _ _ _ _ hi]
    · have hlt : i < end_pos := Nat.lt_of_not_le hi
      obtain ⟨g, rfl⟩ : ∃ g, fuel = g + 1 := ⟨fuel - 1, by omega⟩
      obtain ⟨k, hk⟩ : ∃ k, end_pos - i = k + 1 := ⟨end_pos - i - 1, by omega⟩
      rw [hk]
      cases hs : scanStep buffer i st with
      | error e => simp [scanLoop, hi, hs]
      | ok p =>
        obtain ⟨i', st'⟩ := p
        have hp := scanStep_progress hs
        rw [scanLoop_step g hlt hs, scanLoop_step k hlt hs,
          ih g (by omega) i' st' (by omega), ih k (by omega) i' st' (by omega)]

/-- The loop with exactly the fuel that `find_qc_pos_job` gives it. -/
theorem scan_step {buffer : List Nat} {end_pos i i' : Nat} {st st' : ScanState}
    (h : i < end_pos) (hs : scanStep buffer i st = .ok (i', st')) :
    scanLoop buffer end_pos (end_pos - i) i st =
      scanLoop buffer end_pos (end_pos - i') i' st' := by
  have hp := scanStep_progress hs
  obtain ⟨k, hk⟩ : ∃ k, end_pos - i = k + 1 := ⟨end_pos - i - 1, by omega⟩
  rw [hk, scanLoop_step k h hs, scanLoop_fuel _ _ k i' st' (by omega)]

theorem scan_plain_run {buffer : List Nat} {end_pos : Nat} (run : List Nat) :
    ∀ (i : Nat) (post : List Nat) (st : ScanState),
      buffer.drop i = run ++ post → (∀ c ∈ run, c ≠ 64 ∧ c ≠ 10) →
      st.line_index ≠ 1 → st.line_index ≠ 3 → i + run.length ≤ end_pos →
      scanLoop buffer end_pos (end_pos - i) i st =
        scanLoop buffer end_pos (end_pos - (i + run.length)) (i + run.length) st := by
  induction run with
  | nil => intros; rfl
  | cons c run ih =>
    intro i post st hd hrun h1 h3 hle
    simp only [List.length_cons] at hle ⊢
    have hc := hrun c (List.mem_cons_self _ _)
    rw [scan_step (by omega) (scanStep_plain (drop_cons_getElem? hd) hc.1 hc.2 h1 h3),
      ih (i + 1) post st (drop_cons_succ hd) (fun x hx => hrun x (List.mem_cons_of_mem _ hx))
        h1 h3 (by omega)]
    congr 1 <;> omega

theorem scan_base_run {buffer : List Nat} {end_pos : Nat} (run : List Nat) :
    ∀ (i : Nat) (post : List Nat) (st : ScanState),
      buffer.drop i = run ++ post → (∀ c ∈ run, c ≠ 64 ∧ c ≠ 10 ∧ c ≠ 0) →
      st.line_index = 1 → st.yield + run.length ≤ INT_MAX → i + run.length ≤ end_pos →
      scanLoop buffer end_pos (end_pos - i) i st =
        scanLoop buffer end_pos (end_pos - (i + run.length)) (i + run.length)
          { st with yield := st.yield + run.length } := by
  induction run with
  | nil => intros; rfl
  | cons c run ih =>
    intro i post st hd hrun h1 hy hle
    simp only [List.length_cons] at hle hy ⊢
    have hc := hrun c (List.mem_cons_self _ _)
    rw [scan_step (by omega)
        (scanStep_base (drop_cons_getElem? hd) hc.1 hc.2.1 hc.2.2 h1 (by omega)),
      ih (i + 1) post { st with yield := st.yield + 1 } (drop_cons_succ hd)
        (fun x hx => hrun x (List.mem_cons_of_mem _ hx)) h1 (by simp only; omega) (by omega)]
    have e1 : i + 1 + run.length = i + (run.length + 1) := by omega
    have e2 : st.yield + 1 + run.length = st.yield + (run.length + 1) := by omega
    simp only [e1, e2]

theorem asSignedChar_small {b : Nat} (h : b < 128) : asSignedChar b = (b : Int) := by
  have h1 : b % 256 = b := Nat.mod_eq_of_lt (by omega)
  simp [asSignedChar, h1, h]

/-- On printable quality bytes the signed lane comparison is the plain comparison. -/
theorem geCount_quality (v : Nat) (hv : v < 128) (q : List Nat)
    (hq : ∀ c ∈ q, 33 ≤ c ∧ c ≤ 126) :
    geCount v q = q.countP (fun c => decide (v ≤ c)) := by
  unfold geCount
  apply List.countP_congr
  intro c hc
  have := hq c hc
  rw [asSignedChar_small hv, asSignedChar_small (by omega : c < 128)]
  simp

theorem Record.core_length (r : Record) :
    r.core.length =
      r.header.length + r.sequence.length + r.separator.length + r.quality.length + 4 := by
  simp [Record.core]; omega

/-- Scanning one well-formed record that starts at the cursor: the record is
counted once, with its bases and its quality bytes, and the cursor ends one
past the newline that closes the quality line. -/
theorem scan_record {buffer : List Nat} {end_pos : Nat} (r : Record) (hr : r.WellFormed)
    (i : Nat) (post : List Nat) (st : ScanState)
    (hd : buffer.drop i = r.core ++ post) (hle : i + r.core.length ≤ end_pos) :
    scanLoop buffer end_pos (end_pos - i) i st =
      scanLoop buffer end_pos (end_pos - (i + r.core.length + 1)) (i + r.core.length + 1)
        { line_index := 3, yield := r.sequence.length,
          score_line := r.quality ++ List.replicate (SCORE_LINE_SIZE - r.quality.length) 0,
          stat := st.stat.add (expectedStat [r]) } := by
  obtain ⟨hH, hS1, hS2, hS, hP, hQlen, hQ, hQhead⟩ := hr
  rw [Record.core_length] at hle ⊢
  obtain ⟨H, S, P, Q⟩ := r
  simp only [Record.core, List.cons_append, List.append_assoc] at hd
  simp only at hH hS1 hS2 hS hP hQlen hQ hQhead hle ⊢
  -- the marker
  have d1 := drop_cons_succ hd
  rw [scan_step (by omega) (scanStep_at (drop_cons_getElem? hd))]
  -- the header line
  rw [scan_plain_run H (i + 1) _ _ d1 hH (by simp) (by simp) (by omega)]
  have d2 := drop_append_add d1
  rw [scan_step (by omega) (scanStep_newline (drop_cons_getElem? d2) (by simp [INT_MAX]))]
  have d3 := drop_cons_succ d2
  -- the sequence line
  rw [scan_base_run S _ _ _ d3 hS (by simp) (by simp [INT_MAX]; omega) (by omega)]
  have d4 := drop_append_add d3
  rw [scan_step (by omega) (scanStep_newline (drop_cons_getElem? d4) (by simp [INT_MAX]))]
  have d5 := drop_cons_succ d4
  -- the separator line
  rw [scan_plain_run P _ _ _ d5 hP (by simp) (by simp) (by omega)]
  have d6 := drop_append_add d5
  rw [scan_step (by omega) (scanStep_newline (drop_cons_getElem? d6) (by simp [INT_MAX]))]
  have d7 := drop_cons_succ d6
  -- the quality line
  obtain ⟨c, hc⟩ : ∃ c, Q.head? = some c := by
    cases Q with
    | nil => simp at hQlen; omega
    | cons c Q => exact ⟨c, rfl⟩
  have hcQ : c ∈ Q := List.mem_of_mem_head? hc
  have hcr := hQ c hcQ
  have hc64 : c ≠ 64 := fun h => hQhead (by rw [hc, h])
  rw [scan_step (by omega) (scanStep_quality d7 hc hc64 (by omega) (by omega) (by simp)
    (by simp [hQlen]) (by simp [SCORE_LINE_SIZE]; omega) (by simp))]
  rw [geCount_quality 53 (by omega) Q hQ, geCount_quality 63 (by omega) Q hQ]
  have e : i + 1 + H.length + 1 + S.length + 1 + P.length + 1 + S.length + 1 =
      i + (H.length + S.length + P.length + S.length + 4) + 1 := by omega
  simp only [hQlen, Stat.add, expectedStat, List.length_singleton, List.map_cons, List.map_nil,
    List.sum_cons, List.sum_nil, Nat.add_zero, Nat.zero_add]
  rw [e]

theorem Stat.add_assoc (a b c : Stat) : (a.add b).add c = a.add (b.add c) := by
  simp [Stat.add, Nat.add_assoc]

theorem Stat.add_comm (a b : Stat) : a.add b = b.add a := by
  simp [Stat.add, Nat.add_comm]

theorem Stat.zero_add (a : Stat) : Stat.zero.add a = a := by
  simp [Stat.add, Stat.zero]

theorem Stat.add_zero (a : Stat) : a.add Stat.zero = a := by
  simp [Stat.add, Stat.zero]

theorem expectedStat_nil : expectedStat [] = Stat.zero := rfl

theorem expectedStat_cons (r : Record) (rs : List Record) :
    expectedStat (r :: rs) = (expectedStat [r]).add (expectedStat rs) := by
  simp [expectedStat, Stat.add, Nat.add_comm]

theorem expectedStat_append (a b : List Record) :
    expectedStat (a ++ b) = (expectedStat a).add (expectedStat b) := by
  induction a with
  | nil => simp [expectedStat_nil, Stat.zero_add]
  | cons r a ih => rw [List.cons_append, expectedStat_cons, ih, ← Stat.add_assoc, ← expectedStat_cons]

theorem fastqBytes_append (a b : List Record) :
    fastqBytes (a ++ b) = fastqBytes a ++ fastqBytes b := by
  induction a with
  | nil => rfl
  | cons r a ih => simp [fastqBytes, ih]

/-- Scanning a run of well-formed records that starts at the cursor and lies
inside the range: the cursor ends right behind the run and the counters have
grown by exactly the records of the run. -/
theorem scan_records {buffer : List Nat} {end_pos : Nat} (rs : List Record) :
    ∀ (i : Nat) (post : List Nat) (st : ScanState),
      (∀ r ∈ rs, r.WellFormed) → buffer.drop i = fastqBytes rs ++ post →
      i + (fastqBytes rs).length ≤ end_pos →
      ∃ st' : ScanState, st'.stat = st.stat.add (expectedStat rs) ∧
        scanLoop buffer end_pos (end_pos - i) i st =
          scanLoop buffer end_pos (end_pos - (i + (fastqBytes rs).length))
            (i + (fastqBytes rs).length) st' := by
  induction rs with
  | nil =>
    intro i post st _ _ _
    exact ⟨st, by simp [expectedStat_nil, Stat.add_zero], by simp [fastqBytes]⟩
  | cons r rs ih =>
    intro i post st hwf hd hle
    simp only [fastqBytes, Record.bytes, List.append_assoc, List.length_append,
      List.length_singleton, List.singleton_append, List.length_cons, List.cons_append] at hd hle
    have hrec := @scan_record buffer end_pos r (hwf r (List.mem_cons_self _ _)) i _ st hd
      (by omega)
    have d1 := drop_cons_succ (drop_append_add hd)
    obtain ⟨st', hst', hscan⟩ := ih (i + r.core.length + 1) post
      { line_index := 3, yield := r.sequence.length,
        score_line := r.quality ++ List.replicate (SCORE_LINE_SIZE - r.quality.length) 0,
        stat := st.stat.add (expectedStat [r]) }
      (fun x hx => hwf x (List.mem_cons_of_mem _ hx)) d1 (by omega)
    refine ⟨st', ?_, ?_⟩
    · rw [hst', expectedStat_cons r rs, Stat.add_assoc]
    · rw [hrec, hscan]
      simp only [fastqBytes, Record.bytes, List.append_assoc, List.length_append,
        List.length_singleton, List.singleton_append, List.length_cons]
      have e : i + r.core.length + 1 + (fastqBytes rs).length =
          i + (r.core.length + ((fastqBytes rs).length + 1)) := by omega
      rw [e]

/-- A scan that starts on a run of well-formed records reaching the end of the
buffer, the last newline present or not. -/
theorem scan_records_to_end (buffer : List Nat) (rs : List Record) (i : Nat) (st : ScanState)
    (hwf : ∀ r ∈ rs, r.WellFormed)
    (hd : buffer.drop i = fastqBytes rs ∨
      (rs ≠ [] ∧ buffer.drop i = (fastqBytes rs).dropLast))
    (hi : i ≤ buffer.length) :
    scanLoop buffer buffer.length (buffer.length - i) i st =
      .ok (st.stat.add (expectedStat rs)) := by
  have hlen : (buffer.drop i).length = buffer.length - i := List.length_drop _ _
  rcases hd with hd | ⟨hne, hd⟩
  · rw [hd] at hlen
    obtain ⟨st', hst', hscan⟩ := @scan_records buffer buffer.length rs i [] st hwf
      (by simpa using hd) (by omega)
    rw [hscan, scanLoop_done _ _ _ _ _ (by omega), hst']
  · obtain ⟨init, last, rfl⟩ : ∃ init last, rs = init ++ [last] :=
      ⟨rs.dropLast, rs.getLast hne, (List.dropLast_append_getLast hne).symm⟩
    have hb : (fastqBytes (init ++ [last])).dropLast = fastqBytes init ++ last.core := by
      rw [fastqBytes_append]
      simp only [fastqBytes, Record.bytes, List.append_nil]
      rw [← List.append_assoc, List.dropLast_concat]
    rw [hb] at hd
    rw [hd] at hlen
    simp only [List.length_append] at hlen
    obtain ⟨st', hst', hscan⟩ := @scan_records buffer buffer.length init i last.core st
      (fun r hr => hwf r (List.mem_append_left _ hr)) hd (by omega)
    have d1 := drop_append_add hd
    rw [hscan, scan_record last (hwf last (by simp)) _ [] st' (by simpa using d1) (by omega),
      scanLoop_done _ _ _ _ _ (by omega)]
    simp only [hst', expectedStat_append, Stat.add_assoc]

/-! ### Whole-buffer scans -/

/-- The whole-buffer scan of well-formed records, from any incoming counters. -/
theorem find_qc_pos_job_records (rs : List Record) (buffer stack : List Nat) (stat : Stat)
    (hwf : ∀ r ∈ rs, r.WellFormed)
    (hb : buffer = fastqBytes rs ∨ (rs ≠ [] ∧ buffer = (fastqBytes rs).dropLast)) :
    find_qc_pos_job buffer 0 buffer.length stack stat = .ok (stat.add (expectedStat rs)) := by
  unfold find_qc_pos_job
  exact scan_records_to_end buffer rs 0 _ hwf (by simpa using hb) (Nat.zero_le _)

/-- C2: scanning a buffer of `R` well-formed records (last newline present or
not) from a zero Stat returns `linenum = R`, `yield` = the summed sequence
lengths, `q20_base` = the number of quality bytes at or above 53 and `q30_base`
= the number at or above 63, whatever the stack held before. -/
theorem find_qc_pos_job_correct (rs : List Record) (buffer stack : List Nat)
    (hwf : ∀ r ∈ rs, r.WellFormed)
    (hb : buffer = fastqBytes rs ∨ (rs ≠ [] ∧ buffer = (fastqBytes rs).dropLast)) :
    find_qc_pos_job buffer 0 buffer.length stack Stat.zero =
      .ok { linenum := rs.length,
            yield := (rs.map (fun r => r.sequence.length)).sum,
            q20_base := (rs.map (fun r => r.quality.countP (fun c => decide (53 ≤ c)))).sum,
            q30_base := (rs.map (fun r => r.quality.countP (fun c => decide (63 ≤ c)))).sum } := by
  rw [find_qc_pos_job_records rs buffer stack Stat.zero hwf hb, Stat.zero_add]
  rfl

/-- C2 at a concrete buffer: a four-base record whose quality line holds `@`
after its first byte, followed by a shorter two-base record without a last
newline, scanned from a stack full of high bytes. -/
theorem find_qc_pos_job_correct_witness :
    find_qc_pos_job
        [64, 97, 10, 65, 67, 71, 84, 10, 43, 10, 73, 64, 73, 73, 10,
         64, 98, 10, 65, 67, 10, 43, 10, 53, 33]
        0 25 (List.replicate 256 73) Stat.zero
      = .ok { linenum := 2, yield := 6, q20_base := 5, q30_base := 4 } :=
  find_qc_pos_job_correct
    [⟨[97], [65, 67, 71, 84], [43], [73, 64, 73, 73]⟩, ⟨[98], [65, 67], [43], [53, 33]⟩]
    [64, 97, 10, 65, 67, 71, 84, 10, 43, 10, 73, 64, 73, 73, 10,
     64, 98, 10, 65, 67, 10, 43, 10, 53, 33]
    (List.replicate 256 73) (by decide) (Or.inr ⟨by decide, by decide⟩)

theorem foldl_count (p : Nat → Prop) [DecidablePred p] (q : List Nat) :
    ∀ a : Nat, q.foldl (fun n c => if p c then n + 1 else n) a = a + q.countP (fun c => decide (p c)) := by
  induction q with
  | nil => intro a; simp
  | cons c q ih =>
    intro a
    simp only [List.foldl_cons, List.countP_cons, ih]
    by_cases h : p c <;> simp [h]; omega

theorem scalarQ20_eq (q : List Nat) : scalarQ20 q = geCount 53 q := by
  unfold scalarQ20 geCount
  rw [foldl_count (fun c => 20 ≤ asSignedChar c - 33), Nat.zero_add]
  apply List.countP_congr
  intro c _
  rw [asSignedChar_small (by omega : 53 < 128)]
  simp; omega

theorem scalarQ30_eq (q : List Nat) : scalarQ30 q = geCount 63 q := by
  unfold scalarQ30 geCount
  rw [foldl_count (fun c => 30 ≤ asSignedChar c - 33), Nat.zero_add]
  apply List.countP_congr
  intro c _
  rw [asSignedChar_small (by omega : 63 < 128)]
  simp; omega

/-- C5: for a quality line `q` of 1 to 256 bytes found at the cursor, the
cleared staging buffer takes the copy, and the lane loop over `ceil(n/64)` lanes
of the staged line adds to `q20_base` and `q30_base` exactly what the scalar
byte-at-a-time reference (`c - 33 >= 20`, `c - 33 >= 30`) counts on the `n`
bytes; a lane of zero padding counts nothing. -/
theorem lanes_match_scalar (q : List Nat) (h1 : 1 ≤ q.length) (h256 : q.length ≤ 256)
    (buffer post : List Nat) (i : Nat) (hd : buffer.drop i = q ++ post) (stat : Stat) :
    memcpyScore buffer i q.length (List.replicate SCORE_LINE_SIZE 0) =
        .ok (q ++ List.replicate (SCORE_LINE_SIZE - q.length) 0) ∧
      laneLoop (q ++ List.replicate (SCORE_LINE_SIZE - q.length) 0) ((q.length + 63) / 64) stat =
        { stat with q20_base := stat.q20_base + scalarQ20 q,
                    q30_base := stat.q30_base + scalarQ30 q } ∧
      mm_popcnt_u64 (mm512_cmpge_epi8_mask (List.replicate 64 0) (mm512_set1_epi8 (20 + 33))) = 0 ∧
      mm_popcnt_u64 (mm512_cmpge_epi8_mask (List.replicate 64 0) (mm512_set1_epi8 (30 + 33))) = 0 := by
  refine ⟨?_, ?_, ?_, ?_⟩
  · have hlen : i + q.length ≤ buffer.length := by
      have := congrArg List.length hd
      simp only [List.length_drop, List.length_append] at this
      omega
    have hcap : ¬ SCORE_LINE_SIZE < q.length := by
      have : SCORE_LINE_SIZE = 256 := rfl
      omega
    simp only [memcpyScore, hcap, if_false, Nat.not_lt.mpr hlen, hd]
    simp
  · rw [laneLoop_staged, scalarQ20_eq, scalarQ30_eq]
  · rw [lane_popcnt _ _ (by simp)]; exact geCount_zeros _ _ (by decide) (by decide)
  · rw [lane_popcnt _ _ (by simp)]; exact geCount_zeros _ _ (by decide) (by decide)

/-- C5 at a quality line of 70 bytes (one full lane and a partial one): 40
bytes `I`, 20 bytes `5` and 10 bytes `+`. -/
theorem lanes_match_scalar_witness :
    laneLoop ((List.replicate 40 73 ++ List.replicate 20 53 ++ List.replicate 10 43) ++
        List.replicate (SCORE_LINE_SIZE - 70) 0) 2 Stat.zero =
      { linenum := 0, yield := 0, q20_base := 60, q30_base := 40 } :=
  (lanes_match_scalar (List.replicate 40 73 ++ List.replicate 20 53 ++ List.replicate 10 43)
    (by decide) (by decide)
    ((List.replicate 40 73 ++ List.replicate 20 53 ++ List.replicate 10 43) ++ [10]) [10] 0 rfl
    Stat.zero).2.1

theorem sum_map_const {α : Type} (l : List α) (f : α → Nat) (c : Nat) (h : ∀ x ∈ l, f x = c) :
    (l.map f).sum = l.length * c := by
  induction l with
  | nil => simp
  | cons x l ih =>
    simp only [List.map_cons, List.sum_cons, List.length_cons]
    rw [h x (List.mem_cons_self _ _), ih (fun y hy => h y (List.mem_cons_of_mem _ hy))]
    ring

/-- Uniform quality inside the staging capacity: for `R` records whose sequence
and quality lines have length `L` with `1 ≤ L ≤ 256` and whose quality bytes
are all 53, the scan of the whole buffer returns `linenum = R`, `yield = R*L`,
`q20_base = R*L` and `q30_base = 0`. -/
theorem uniform_quality (R L : Nat) (h1 : 1 ≤ L) (h256 : L ≤ 256) (rs : List Record)
    (hR : rs.length = R)
    (hrs : ∀ r ∈ rs, (∀ c ∈ r.header, c ≠ 64 ∧ c ≠ 10) ∧
      r.sequence.length = L ∧ (∀ c ∈ r.sequence, c ≠ 64 ∧ c ≠ 10 ∧ c ≠ 0) ∧
      (∀ c ∈ r.separator, c ≠ 64 ∧ c ≠ 10) ∧ r.quality = List.replicate L 53)
    (buffer stack : List Nat)
    (hb : buffer = fastqBytes rs ∨ (rs ≠ [] ∧ buffer = (fastqBytes rs).dropLast)) :
    find_qc_pos_job buffer 0 buffer.length stack Stat.zero =
      .ok { linenum := R, yield := R * L, q20_base := R * L, q30_base := 0 } := by
  have hwf : ∀ r ∈ rs, r.WellFormed := by
    intro r hr
    obtain ⟨hH, hS, hSb, hP, hQ⟩ := hrs r hr
    refine ⟨hH, by omega, by omega, hSb, hP, by simp [hQ, hS], ?_, ?_⟩
    · intro c hc
      rw [hQ] at hc
      rw [List.eq_of_mem_replicate hc]
      omega
    · rw [hQ]
      cases L with
      | zero => simp
      | succ n => simp [List.replicate_succ]
  rw [find_qc_pos_job_records rs buffer stack Stat.zero hwf hb, Stat.zero_add]
  unfold expectedStat
  rw [sum_map_const rs _ L (fun r hr => (hrs r hr).2.1),
    sum_map_const rs _ L (fun r hr => by
      rw [(hrs r hr).2.2.2.2]
      simp [List.countP_replicate]),
    sum_map_const rs _ 0 (fun r hr => by
      rw [(hrs r hr).2.2.2.2]
      simp [List.countP_replicate]),
    hR]
  simp

/-- Uniform quality at three records of length 70. -/
theorem uniform_quality_witness :
    find_qc_pos_job (fastqBytes (List.replicate 3 (uniformRecord 70 53))) 0
        (fastqBytes (List.replicate 3 (uniformRecord 70 53))).length [] Stat.zero =
      .ok { linenum := 3, yield := 3 * 70, q20_base := 3 * 70, q30_base := 0 } :=
  uniform_quality 3 70 (by decide) (by decide) (List.replicate 3 (uniformRecord 70 53)) rfl
    (by
      intro r hr
      rw [List.eq_of_mem_replicate hr]
      refine ⟨by simp [uniformRecord], by simp [uniformRecord], ?_, by simp [uniformRecord], rfl⟩
      intro c hc
      rw [show (uniformRecord 70 53).sequence = List.replicate 70 65 from rfl] at hc
      rw [List.eq_of_mem_replicate hc]
      omega)
    _ [] (Or.inl rfl)


/-! ### Partition correction -/

theorem correct_pos_first {buffer : List Nat} :
    ∀ (fuel s p : Nat), IsFirstMarker buffer s p → p - s ≤ fuel →
      correct_pos buffer fuel s = .ok p := by
  intro fuel
  induction fuel with
  | zero =>
    intro s p ⟨hsp, hp, _⟩ hf
    have : s = p := by omega
    subst this
    simp [correct_pos, hp]
  | succ fuel ih =>
    intro s p ⟨hsp, hp, hmin⟩ hf
    rcases Nat.eq_or_lt_of_le hsp with rfl | hlt
    · simp [correct_pos, hp]
    · have hplen : p < buffer.length := by
        rcases Nat.lt_or_ge p buffer.length with h | h
        · exact h
        · rw [List.getElem?_eq_none h] at hp; cases hp
      have hs : buffer[s]? = some buffer[s] := List.getElem?_eq_getElem (by omega)
      have hne : buffer[s] ≠ 64 := fun h => hmin s (Nat.le_refl _) hlt (by rw [hs, h])
      have hrec := ih (s + 1) p ⟨hlt, hp, fun q hq hqp => hmin q (by omega) hqp⟩ (by omega)
      simp only [correct_pos, hs, hne, ne_eq, not_false_eq_true, if_true]
      exact hrec

theorem exists_first_marker {buffer : List Nat} {s : Nat}
    (h : ∃ p, s ≤ p ∧ buffer[p]? = some 64) : ∃ p, IsFirstMarker buffer s p := by
  classical
  refine ⟨Nat.find h, (Nat.find_spec h).1, (Nat.find_spec h).2, ?_⟩
  intro q hsq hq hq64
  exact Nat.find_min h hq ⟨hsq, hq64⟩

theorem IsFirstMarker.lt_length {buffer : List Nat} {s p : Nat} (h : IsFirstMarker buffer s p) :
    p < buffer.length := by
  rcases Nat.lt_or_ge p buffer.length with h' | h'
  · exact h'
  · have := h.2.1
    rw [List.getElem?_eq_none h'] at this; cases this

theorem IsFirstMarker.mono {buffer : List Nat} {s t p q : Nat} (hp : IsFirstMarker buffer s p)
    (hq : IsFirstMarker buffer t q) (hst : s ≤ t) : p ≤ q := by
  by_contra hlt
  exact hp.2.2 q (Nat.le_trans hst hq.1) (by omega) hq.2.1

theorem getD_set_eq (l : List Nat) (i a : Nat) (h : i < l.length) : (l.set i a).getD i 0 = a := by
  simp [List.getD_eq_getElem?_getD, List.getElem?_set, h]

theorem getD_set_ne (l : List Nat) (i j a : Nat) (h : i ≠ j) :
    (l.set i a).getD j 0 = l.getD j 0 := by
  simp [List.getD_eq_getElem?_getD, List.getElem?_set, h]

/-- The correction loop over the rounds `m, m+1, ..., m+len-1`, when the starts
behind `m` still hold their naive values and every naive boundary has a first
marker `b j`. -/
theorem correctLoop_spec {buffer : List Nat} {k step : Nat} (b : Nat → Nat)
    (hb : ∀ j, 1 ≤ j → j < k → IsFirstMarker buffer (j * step) (b j)) :
    ∀ (len m : Nat) (starts ends : List Nat), m + len + 1 ≤ k →
      starts.length = k → ends.length = k →
      (∀ j, m < j → j < k → starts.getD j 0 = j * step) →
      ∃ starts' ends', correctLoop buffer (List.range' m len) (starts, ends) = .ok (starts', ends') ∧
        starts'.length = k ∧ ends'.length = k ∧
        (∀ j, starts'.getD j 0 = if m < j ∧ j ≤ m + len then b j else starts.getD j 0) ∧
        (∀ j, ends'.getD j 0 = if m ≤ j ∧ j < m + len then b (j + 1) else ends.getD j 0) := by
  intro len
  induction len with
  | zero =>
    intro m starts ends _ hs he _
    refine ⟨starts, ends, rfl, hs, he, ?_, ?_⟩
    · intro j
      have : ¬ (m < j ∧ j ≤ m + 0) := by omega
      rw [if_neg this]
    · intro j
      have : ¬ (m ≤ j ∧ j < m + 0) := by omega
      rw [if_neg this]
  | succ len ih =>
    intro m starts ends hk hs he hnaive
    have hfirst := hb (m + 1) (by omega) (by omega)
    have hcp : correct_pos buffer buffer.length (starts.getD (m + 1) 0) = .ok (b (m + 1)) := by
      rw [hnaive (m + 1) (by omega) (by omega)]
      exact correct_pos_first _ _ _ hfirst (by have := hfirst.lt_length; omega)
    obtain ⟨starts', ends', hloop, hs', he', hst, hen⟩ :=
      ih (m + 1) (starts.set (m + 1) (b (m + 1))) (ends.set m (b (m + 1))) (by omega)
        (by simpa using hs) (by simpa using he)
        (fun j hj hjk => by rw [getD_set_ne _ _ _ _ (by omega)]; exact hnaive j (by omega) hjk)
    refine ⟨starts', ends', ?_, hs', he', ?_, ?_⟩
    · simp only [List.range'_succ, correctLoop, hcp]
      exact hloop
    · intro j
      rw [hst j]
      by_cases h1 : m + 1 < j ∧ j ≤ m + 1 + len
      · have : m < j ∧ j ≤ m + (len + 1) := by omega
        simp [h1, this]
      · by_cases h2 : j = m + 1
        · subst h2
          have : m < m + 1 ∧ m + 1 ≤ m + (len + 1) := by omega
          simp only [h1, this, if_false, and_self, if_true]
          exact getD_set_eq _ _ _ (by omega)
        · have : ¬ (m < j ∧ j ≤ m + (len + 1)) := by omega
          simp only [h1, this, if_false]
          exact getD_set_ne _ _ _ _ (by omega)
    · intro j
      rw [hen j]
      by_cases h1 : m + 1 ≤ j ∧ j < m + 1 + len
      · have : m ≤ j ∧ j < m + (len + 1) := by omega
        simp [h1, this]
      · by_cases h2 : j = m
        · subst h2
          have : j ≤ j ∧ j < j + (len + 1) := by omega
          simp only [h1, this, if_false, and_self, if_true]
          exact getD_set_eq _ _ _ (by omega)
        · have : ¬ (m ≤ j ∧ j < m + (len + 1)) := by omega
          simp only [h1, this, if_false]
          exact getD_set_ne _ _ _ _ (by omega)

/-- What the correction loop of `Calculate` leaves in the two arrays when every
naive internal boundary has a first marker `b i`. -/
theorem correctedPositions_spec {buffer : List Nat} {k : Nat} (n : Nat) (hk : 1 ≤ k) (b : Nat → Nat)
    (hb : ∀ j, 1 ≤ j → j < k → IsFirstMarker buffer (j * (n / k)) (b j)) :
    ∃ starts ends, correctedPositions buffer n k = .ok (starts, ends) ∧
      starts.length = k ∧ ends.length = k ∧
      (∀ j, j < k → starts.getD j 0 = if j = 0 then 0 else b j) ∧
      (∀ j, j < k → ends.getD j 0 = if j = k - 1 then n else b (j + 1)) := by
  have hnaive1 : ∀ j, j < k → (naivePositions n k).1.getD j 0 = j * (n / k) := by
    intro j hj
    simp [naivePositions, List.getD_eq_getElem?_getD, List.getElem?_range hj]
  have hnaive2 : ∀ j, j < k →
      (naivePositions n k).2.getD j 0 = if j = k - 1 then n else (j + 1) * (n / k) := by
    intro j hj
    simp [naivePositions, List.getD_eq_getElem?_getD, List.getElem?_range hj]
  obtain ⟨starts, ends, hloop, hs, he, hst, hen⟩ :=
    correctLoop_spec b hb (k - 1) 0 (naivePositions n k).1 (naivePositions n k).2 (by omega)
      (by simp [naivePositions]) (by simp [naivePositions]) (fun j _ hj => hnaive1 j hj)
  refine ⟨starts, ends, ?_, hs, he, ?_, ?_⟩
  · unfold correctedPositions
    rw [List.range_eq_range']
    exact hloop
  · intro j hj
    rw [hst j]
    by_cases h0 : j = 0
    · subst h0
      have : ¬ (0 < 0 ∧ 0 ≤ 0 + (k - 1)) := by omega
      rw [if_neg this, hnaive1 0 hj, if_pos rfl, Nat.zero_mul]
    · have : 0 < j ∧ j ≤ 0 + (k - 1) := by omega
      rw [if_pos this, if_neg h0]
  · intro j hj
    rw [hen j]
    by_cases h1 : j = k - 1
    · have : ¬ (0 ≤ j ∧ j < 0 + (k - 1)) := by omega
      rw [if_neg this, hnaive2 j hj, if_pos h1, if_pos h1]
    · have : 0 ≤ j ∧ j < 0 + (k - 1) := by omega
      rw [if_pos this, if_neg h1]

/-- C10: when a `@` occurs at or after every naive internal boundary
`i * (buffer_size / k)`, `Calculate` computes `k` partitions with `start[0] = 0`,
`end[k-1] = buffer_size`, `end[i] = start[i+1]`, `start[i] ≤ end[i]`, and for
`i ≥ 1` `start[i]` is the first position at or after the naive boundary that
holds `@`. -/
theorem corrected_partitions (buffer : List Nat) (k : Nat) (hk : 1 ≤ k)
    (hm : ∀ i, 1 ≤ i → i < k → ∃ p, i * (buffer.length / k) ≤ p ∧ buffer[p]? = some 64) :
    ∃ starts ends, correctedPositions buffer buffer.length k = .ok (starts, ends) ∧
      starts.length = k ∧ ends.length = k ∧
      starts.getD 0 0 = 0 ∧ ends.getD (k - 1) 0 = buffer.length ∧
      (∀ i, i + 1 < k → ends.getD i 0 = starts.getD (i + 1) 0) ∧
      (∀ i, i < k → starts.getD i 0 ≤ ends.getD i 0) ∧
      (∀ i, 1 ≤ i → i < k →
        IsFirstMarker buffer (i * (buffer.length / k)) (starts.getD i 0)) := by
  have hex : ∀ i, ∃ p, 1 ≤ i → i < k → IsFirstMarker buffer (i * (buffer.length / k)) p := by
    intro i
    by_cases h : 1 ≤ i ∧ i < k
    · obtain ⟨p, hp⟩ := exists_first_marker (hm i h.1 h.2)
      exact ⟨p, fun _ _ => hp⟩
    · exact ⟨0, fun h1 h2 => absurd ⟨h1, h2⟩ h⟩
  choose b hb using hex
  obtain ⟨starts, ends, hpos, hs, he, hst, hen⟩ := correctedPositions_spec buffer.length hk b hb
  refine ⟨starts, ends, hpos, hs, he, ?_, ?_, ?_, ?_, ?_⟩
  · rw [hst 0 (by omega)]; rfl
  · rw [hen (k - 1) (by omega)]; simp
  · intro i hi
    rw [hen i (by omega), hst (i + 1) hi, if_neg (by omega), if_neg (by omega)]
  · intro i hi
    rw [hst i hi, hen i hi]
    by_cases h0 : i = 0
    · simp [h0]
    · rw [if_neg h0]
      by_cases h1 : i = k - 1
      · rw [if_pos h1]
        exact Nat.le_of_lt (hb i (by omega) hi).lt_length
      · rw [if_neg h1]
        exact (hb i (by omega) hi).mono (hb (i + 1) (by omega) (by omega))
          (Nat.mul_le_mul_right _ (Nat.le_succ i))
  · intro i h1 hi
    rw [hst i hi, if_neg (by omega)]
    exact hb i h1 hi

/-- C10 at a buffer of three records cut for two workers: the naive boundary 15
falls inside the second record and moves forward to the `@` at 22. -/
theorem corrected_partitions_witness :
    ∃ starts ends,
      correctedPositions
        [64, 97, 10, 65, 10, 43, 10, 73, 10, 64, 98, 10, 65, 65, 65, 65, 10, 43, 10, 73, 73, 10,
         64, 99, 10, 65, 10, 43, 10, 73, 10] 31 2 = .ok (starts, ends) ∧
      starts.length = 2 ∧ ends.length = 2 ∧
      starts.getD 0 0 = 0 ∧ ends.getD (2 - 1) 0 = 31 ∧
      (∀ i, i + 1 < 2 → ends.getD i 0 = starts.getD (i + 1) 0) ∧
      (∀ i, i < 2 → starts.getD i 0 ≤ ends.getD i 0) ∧
      (∀ i, 1 ≤ i → i < 2 →
        IsFirstMarker
          [64, 97, 10, 65, 10, 43, 10, 73, 10, 64, 98, 10, 65, 65, 65, 65, 10, 43, 10, 73, 73, 10,
           64, 99, 10, 65, 10, 43, 10, 73, 10] (i * (31 / 2)) (starts.getD i 0)) :=
  corrected_partitions
    [64, 97, 10, 65, 10, 43, 10, 73, 10, 64, 98, 10, 65, 65, 65, 65, 10, 43, 10, 73, 73, 10,
     64, 99, 10, 65, 10, 43, 10, 73, 10] 2 (by decide)
    (fun i h1 h2 => ⟨22, by
      have : i = 1 := by omega
      subst this
      decide⟩)

/-! ### Records and markers -/

theorem Record.bytes_eq (r : Record) :
    r.bytes = 64 :: (r.header ++ 10 :: (r.sequence ++ 10 :: (r.separator ++ 10 :: (r.quality ++ [10])))) := by
  simp [Record.bytes, Record.core]

theorem Record.bytes_tail_no_marker (r : Record) (hr : r.WellFormed) (hq : r.NoMarkerInQuality) :
    ∀ c ∈ r.header ++ 10 :: (r.sequence ++ 10 :: (r.separator ++ 10 :: (r.quality ++ [10]))),
      c ≠ 64 := by
  obtain ⟨hH, -, -, hS, hP, -, -, -⟩ := hr
  intro c hc
  simp only [List.mem_append, List.mem_cons, List.mem_singleton, List.not_mem_nil, or_false] at hc
  rcases hc with h | h | h | h | h | h | h | h
  · exact (hH c h).1
  · omega
  · exact (hS c h).1
  · omega
  · exact (hP c h).1
  · omega
  · exact hq c h
  · omega

theorem Record.bytes_length_pos (r : Record) : 0 < r.bytes.length := by
  simp [Record.bytes]

/-- In a buffer of well-formed records without `@` in their quality lines, a
marker can only be the first byte of a record. -/
theorem fastqBytes_marker (rs : List Record) :
    (∀ r ∈ rs, r.WellFormed ∧ r.NoMarkerInQuality) →
    ∀ p, (fastqBytes rs)[p]? = some 64 → ∃ a, a < rs.length ∧ p = recordOffset rs a := by
  induction rs with
  | nil => intro _ p hp; simp [fastqBytes] at hp
  | cons r rs ih =>
    intro hwf p hp
    have hr := hwf r (List.mem_cons_self _ _)
    rcases Nat.lt_or_ge p r.bytes.length with hlt | hge
    · refine ⟨0, by simp, ?_⟩
      simp only [recordOffset, List.take_zero, fastqBytes, List.length_nil]
      by_contra h0
      simp only [fastqBytes] at hp
      rw [List.getElem?_append_left hlt, Record.bytes_eq] at hp
      obtain ⟨q, rfl⟩ : ∃ q, p = q + 1 := ⟨p - 1, by omega⟩
      rw [List.getElem?_cons_succ] at hp
      exact Record.bytes_tail_no_marker r hr.1 hr.2 64 (List.getElem?_mem hp) rfl
    · simp only [fastqBytes] at hp
      rw [List.getElem?_append_right hge] at hp
      obtain ⟨a, ha, hpa⟩ := ih (fun x hx => hwf x (List.mem_cons_of_mem _ hx)) _ hp
      refine ⟨a + 1, by simpa using ha, ?_⟩
      simp only [recordOffset, List.take_succ_cons, fastqBytes, List.length_append] at hpa ⊢
      omega

theorem getElem?_dropLast {l : List Nat} {p c : Nat} (h : l.dropLast[p]? = some c) :
    l[p]? = some c := by
  rw [List.dropLast_eq_take, List.getElem?_take] at h
  split at h
  · exact h
  · cases h

theorem fastqBytes_split (rs : List Record) (a : Nat) :
    fastqBytes rs = fastqBytes (rs.take a) ++ fastqBytes (rs.drop a) := by
  rw [← fastqBytes_append, List.take_append_drop]

theorem fastqBytes_ne_nil {rs : List Record} (h : rs ≠ []) : fastqBytes rs ≠ [] := by
  cases rs with
  | nil => exact absurd rfl h
  | cons r rs => simp [fastqBytes, Record.bytes]

theorem drop_recordOffset (rs : List Record) (a : Nat) :
    (fastqBytes rs).drop (recordOffset rs a) = fastqBytes (rs.drop a) := by
  conv_lhs => rw [fastqBytes_split rs a]
  exact List.drop_left' rfl

theorem drop_recordOffset_dropLast (rs : List Record) (a : Nat) (ha : a < rs.length) :
    (fastqBytes rs).dropLast.drop (recordOffset rs a) = (fastqBytes (rs.drop a)).dropLast := by
  have hne : fastqBytes (rs.drop a) ≠ [] :=
    fastqBytes_ne_nil (by simp [List.drop_eq_nil_iff]; omega)
  conv_lhs => rw [fastqBytes_split rs a, List.dropLast_append_of_ne_nil _ hne]
  exact List.drop_left' rfl

theorem recordOffset_add (rs : List Record) (a d : Nat) :
    recordOffset rs (a + d) = recordOffset rs a + (fastqBytes ((rs.drop a).take d)).length := by
  simp only [recordOffset, List.take_add, fastqBytes_append, List.length_append]

theorem recordOffset_lt (rs : List Record) {a c : Nat} (hac : a < c) (hc : c ≤ rs.length) :
    recordOffset rs a < recordOffset rs c := by
  obtain ⟨d, rfl⟩ : ∃ d, c = a + (d + 1) := ⟨c - a - 1, by omega⟩
  rw [recordOffset_add]
  have hne : (rs.drop a).take (d + 1) ≠ [] := by
    intro h
    have := congrArg List.length h
    simp only [List.length_take, List.length_drop, List.length_nil] at this
    omega
  have := List.length_pos.mpr (fastqBytes_ne_nil hne)
  omega

theorem recordOffset_le_imp (rs : List Record) {a c : Nat}
    (h : recordOffset rs c ≤ recordOffset rs a) (hc : c ≤ rs.length) : c ≤ a := by
  by_contra hlt
  have := recordOffset_lt rs (Nat.lt_of_not_le hlt) hc
  omega

theorem recordOffset_length (rs : List Record) :
    recordOffset rs rs.length = (fastqBytes rs).length := by
  simp [recordOffset]

/-! ### Partitions of a buffer of records -/

theorem recordOffset_le (rs : List Record) {a c : Nat} (hac : a ≤ c) :
    recordOffset rs a ≤ recordOffset rs c := by
  obtain ⟨d, rfl⟩ : ∃ d, c = a + d := ⟨c - a, by omega⟩
  rw [recordOffset_add]; omega

theorem drop_take_append_drop (rs : List Record) {a c : Nat} (hac : a ≤ c) :
    rs.drop a = (rs.drop a).take (c - a) ++ rs.drop c := by
  have h : rs.drop c = (rs.drop a).drop (c - a) := by
    rw [List.drop_drop]; congr 1; omega
  rw [h, List.take_append_drop]

/-- A partition that runs from the start of record `a` to the start of record
`c` counts exactly the records in between. -/
theorem scan_partition_mid (rs : List Record) (buffer : List Nat)
    (hwf : ∀ r ∈ rs, r.WellFormed)
    (hb : buffer = fastqBytes rs ∨ (rs ≠ [] ∧ buffer = (fastqBytes rs).dropLast))
    (a c : Nat) (hac : a ≤ c) (hc : c < rs.length) (stack : List Nat) (stat : Stat) :
    find_qc_pos_job buffer (recordOffset rs a) (recordOffset rs c) stack stat =
      .ok (stat.add (expectedStat ((rs.drop a).take (c - a)))) := by
  have hsplit := drop_take_append_drop rs hac
  have hd : ∃ post, buffer.drop (recordOffset rs a) =
      fastqBytes ((rs.drop a).take (c - a)) ++ post := by
    rcases hb with rfl | ⟨_, rfl⟩
    · refine ⟨fastqBytes (rs.drop c), ?_⟩
      rw [drop_recordOffset, ← fastqBytes_append, ← hsplit]
    · refine ⟨(fastqBytes (rs.drop c)).dropLast, ?_⟩
      have hne : fastqBytes (rs.drop c) ≠ [] :=
        fastqBytes_ne_nil (by simp [List.drop_eq_nil_iff]; omega)
      rw [drop_recordOffset_dropLast rs a (by omega), ← List.dropLast_append_of_ne_nil _ hne,
        ← fastqBytes_append, ← hsplit]
  obtain ⟨post, hd⟩ := hd
  have hend : recordOffset rs c =
      recordOffset rs a + (fastqBytes ((rs.drop a).take (c - a))).length := by
    rw [← recordOffset_add]; congr 1; omega
  have hseg : ∀ r ∈ (rs.drop a).take (c - a), r.WellFormed :=
    fun r hr => hwf r (List.mem_of_mem_drop (List.mem_of_mem_take hr))
  obtain ⟨st', hst', hscan⟩ := @scan_records buffer (recordOffset rs c)
    ((rs.drop a).take (c - a)) (recordOffset rs a) post
    { line_index := 0, yield := 0,
      score_line := (stack ++ List.replicate SCORE_LINE_SIZE 0).take SCORE_LINE_SIZE,
      stat := stat } hseg hd (by omega)
  unfold find_qc_pos_job
  rw [hscan, scanLoop_done _ _ _ _ _ (by omega), hst']

/-- The last partition, from the start of record `a` to the end of the buffer,
counts the records from `a` on. -/
theorem scan_partition_last (rs : List Record) (buffer : List Nat)
    (hwf : ∀ r ∈ rs, r.WellFormed) (a : Nat)
    (hb : (buffer = fastqBytes rs ∧ a ≤ rs.length) ∨
      (buffer = (fastqBytes rs).dropLast ∧ a < rs.length))
    (stack : List Nat) (stat : Stat) :
    find_qc_pos_job buffer (recordOffset rs a) buffer.length stack stat =
      .ok (stat.add (expectedStat (rs.drop a))) := by
  have hseg : ∀ r ∈ rs.drop a, r.WellFormed := fun r hr => hwf r (List.mem_of_mem_drop hr)
  unfold find_qc_pos_job
  rcases hb with ⟨rfl, ha⟩ | ⟨rfl, ha⟩
  · refine scan_records_to_end _ (rs.drop a) _ _ hseg (Or.inl (drop_recordOffset rs a)) ?_
    rw [← recordOffset_length]; exact recordOffset_le rs ha
  · refine scan_records_to_end _ (rs.drop a) _ _ hseg
      (Or.inr ⟨by simp [List.drop_eq_nil_iff]; omega, drop_recordOffset_dropLast rs a ha⟩) ?_
    have h1 := recordOffset_lt rs ha (Nat.le_refl _)
    rw [recordOffset_length] at h1
    simp only [List.length_dropLast]
    omega

theorem mapExcept_ok {α β : Type} (f : α → Except Fault β) (g : α → β) (l : List α)
    (h : ∀ x ∈ l, f x = .ok (g x)) : mapExcept f l = .ok (l.map g) := by
  induction l with
  | nil => rfl
  | cons x l ih =>
    simp [mapExcept, h x (List.mem_cons_self _ _), ih (fun y hy => h y (List.mem_cons_of_mem _ hy))]

/-- Adding up the Stats of consecutive runs of records gives the Stat of the
records up to the last run. -/
theorem foldl_segments (rs : List Record) (A : Nat → Nat) (k : Nat) (hA0 : A 0 = 0)
    (hmono : ∀ i, i < k → A i ≤ A (i + 1)) :
    ∀ m, m ≤ k → ∀ s : Stat,
      ((List.range m).map
        (fun i => expectedStat ((rs.drop (A i)).take (A (i + 1) - A i)))).foldl Stat.add s =
        s.add (expectedStat (rs.take (A m))) := by
  intro m
  induction m with
  | zero => intro _ s; simp [hA0, expectedStat_nil, Stat.add_zero]
  | succ m ih =>
    intro hm s
    rw [List.range_succ, List.map_append, List.foldl_append, ih (by omega) s]
    simp only [List.map_cons, List.map_nil, List.foldl_cons, List.foldl_nil]
    have h := hmono m (by omega)
    have e : A (m + 1) = A m + (A (m + 1) - A m) := by omega
    conv_rhs => rw [e, List.take_add, expectedStat_append]
    rw [Stat.add_assoc]

theorem foldl_add_linenum (stats : List Stat) :
    ∀ s : Stat, (stats.foldl Stat.add s).linenum = s.linenum + (stats.map Stat.linenum).sum := by
  induction stats with
  | nil => intro s; simp
  | cons x stats ih =>
    intro s
    simp only [List.foldl_cons, List.map_cons, List.sum_cons, ih]
    simp [Stat.add, Nat.add_assoc]

theorem mapExcept_length {α β : Type} (f : α → Except Fault β) :
    ∀ (l : List α) (bs : List β), mapExcept f l = .ok bs → bs.length = l.length := by
  intro l
  induction l with
  | nil => intro bs h; simp [mapExcept] at h; simp [← h]
  | cons x l ih =>
    intro bs h
    simp only [mapExcept] at h
    split at h
    · cases h
    · split at h
      · cases h
      · rename_i bs' hbs
        simp only [Except.ok.injEq] at h
        rw [← h, List.length_cons, ih bs' hbs, List.length_cons]

/-- The partitions of `Calculate` on a buffer of well-formed records whose only
`@` bytes open the header lines: every worker returns, and the Stats of the
partitions add up to the Stat of all records. -/
theorem partitionStats_records (rs : List Record) (buffer : List Nat) (k : Nat)
    (stackOf : Nat → List Nat)
    (hwf : ∀ r ∈ rs, r.WellFormed ∧ r.NoMarkerInQuality)
    (hb : buffer = fastqBytes rs ∨ (rs ≠ [] ∧ buffer = (fastqBytes rs).dropLast))
    (hk : 1 ≤ k)
    (hm : ∀ i, 1 ≤ i → i < k → ∃ p, i * (buffer.length / k) ≤ p ∧ buffer[p]? = some 64) :
    ∃ starts ends stats, correctedPositions buffer buffer.length k = .ok (starts, ends) ∧
      partitionStats buffer (starts, ends) k stackOf = .ok stats ∧
      ∀ s : Stat, stats.foldl Stat.add s = s.add (expectedStat rs) := by
  have hwf1 : ∀ r ∈ rs, r.WellFormed := fun r hr => (hwf r hr).1
  -- the first marker behind every naive boundary
  have hex : ∀ i, ∃ p, 1 ≤ i → i < k → IsFirstMarker buffer (i * (buffer.length / k)) p := by
    intro i
    by_cases h : 1 ≤ i ∧ i < k
    · obtain ⟨p, hp⟩ := exists_first_marker (hm i h.1 h.2)
      exact ⟨p, fun _ _ => hp⟩
    · exact ⟨0, fun h1 h2 => absurd ⟨h1, h2⟩ h⟩
  choose b hbf using hex
  obtain ⟨starts, ends, hpos, hs, he, hst, hen⟩ := correctedPositions_spec buffer.length hk b hbf
  -- every such marker opens a record
  have hrec : ∀ i, ∃ a, 1 ≤ i → i < k → a < rs.length ∧ b i = recordOffset rs a := by
    intro i
    by_cases h : 1 ≤ i ∧ i < k
    · have h64 := (hbf i h.1 h.2).2.1
      have h64' : (fastqBytes rs)[b i]? = some 64 := by
        rcases hb with rfl | ⟨_, rfl⟩
        · exact h64
        · exact getElem?_dropLast h64
      obtain ⟨a, ha, hpa⟩ := fastqBytes_marker rs hwf (b i) h64'
      exact ⟨a, fun _ _ => ⟨ha, hpa⟩⟩
    · exact ⟨0, fun h1 h2 => absurd ⟨h1, h2⟩ h⟩
  choose α hα using hrec
  let A : Nat → Nat := fun i => if i = 0 then 0 else if i < k then α i else rs.length
  have hA0 : A 0 = 0 := rfl
  have hAk : A k = rs.length := by
    show (if k = 0 then 0 else if k < k then α k else rs.length) = rs.length
    rw [if_neg (by omega), if_neg (by omega)]
  have hAi : ∀ i, 1 ≤ i → i < k → A i = α i := by
    intro i h1 h2
    show (if i = 0 then 0 else if i < k then α i else rs.length) = α i
    rw [if_neg (by omega), if_pos h2]
  have hAle : ∀ i, i ≤ k → A i ≤ rs.length := by
    intro i hi
    by_cases h0 : i = 0
    · rw [h0, hA0]; omega
    · by_cases hik : i < k
      · rw [hAi i (by omega) hik]; exact Nat.le_of_lt (hα i (by omega) hik).1
      · have : i = k := by omega
        rw [this, hAk]
  have hstart : ∀ i, i < k → starts.getD i 0 = recordOffset rs (A i) := by
    intro i hi
    rw [hst i hi]
    by_cases h0 : i = 0
    · rw [if_pos h0, h0, hA0]; rfl
    · rw [if_neg h0, hAi i (by omega) hi]; exact (hα i (by omega) hi).2
  have hmono : ∀ i, i < k → A i ≤ A (i + 1) := by
    intro i hi
    by_cases hlast : i + 1 = k
    · rw [hlast, hAk]; exact hAle i (by omega)
    · by_cases h0 : i = 0
      · rw [h0, hA0]; omega
      · rw [hAi i (by omega) hi, hAi (i + 1) (by omega) (by omega)]
        have hle : b i ≤ b (i + 1) :=
          (hbf i (by omega) hi).mono (hbf (i + 1) (by omega) (by omega))
            (Nat.mul_le_mul_right _ (Nat.le_succ i))
        rw [(hα i (by omega) hi).2, (hα (i + 1) (by omega) (by omega)).2] at hle
        exact recordOffset_le_imp rs hle (Nat.le_of_lt (hα i (by omega) hi).1)
  -- every partition is a run of records
  have hpart : ∀ i ∈ List.range k,
      find_qc_pos_job buffer (starts.getD i 0) (ends.getD i 0) (stackOf i) Stat.zero =
        .ok (expectedStat ((rs.drop (A i)).take (A (i + 1) - A i))) := by
    intro i hi
    have hik : i < k := List.mem_range.mp hi
    rw [hstart i hik, hen i hik]
    by_cases hlast : i = k - 1
    · rw [if_pos hlast]
      have hk1 : i + 1 = k := by omega
      rw [hk1, hAk, List.take_of_length_le (by simp), ← Stat.zero_add (expectedStat _)]
      apply scan_partition_last rs buffer hwf1
      rcases hb with h | ⟨hne, h⟩
      · exact Or.inl ⟨h, hAle i (by omega)⟩
      · refine Or.inr ⟨h, ?_⟩
        by_cases h0 : i = 0
        · rw [h0, hA0]; exact List.length_pos.mpr hne
        · rw [hAi i (by omega) hik]; exact (hα i (by omega) hik).1
    · rw [if_neg hlast, (hα (i + 1) (by omega) (by omega)).2, ← hAi (i + 1) (by omega) (by omega),
        ← Stat.zero_add (expectedStat _)]
      apply scan_partition_mid rs buffer hwf1 hb _ _ (hmono i hik)
      rw [hAi (i + 1) (by omega) (by omega)]
      exact (hα (i + 1) (by omega) (by omega)).1
  refine ⟨starts, ends, _, hpos, mapExcept_ok _ _ _ hpart, ?_⟩
  intro s
  rw [foldl_segments rs A k hA0 hmono k (Nat.le_refl _) s, hAk, List.take_length]

/-- C3, as the code has it: for a buffer of `R` well-formed records in which
`@` occurs only as the first byte of the header lines, and a worker count for
which a `@` occurs at or after every naive internal boundary, every worker of
`Calculate` returns and the record counts of the corrected partitions add up
to `R`. -/
theorem partitions_count_records (rs : List Record) (buffer : List Nat) (k : Nat)
    (stackOf : Nat → List Nat)
    (hwf : ∀ r ∈ rs, r.WellFormed ∧ r.NoMarkerInQuality)
    (hb : buffer = fastqBytes rs ∨ (rs ≠ [] ∧ buffer = (fastqBytes rs).dropLast))
    (hk : 1 ≤ k)
    (hm : ∀ i, 1 ≤ i → i < k → ∃ p, i * (buffer.length / k) ≤ p ∧ buffer[p]? = some 64) :
    ∃ starts ends stats, correctedPositions buffer buffer.length k = .ok (starts, ends) ∧
      partitionStats buffer (starts, ends) k stackOf = .ok stats ∧
      stats.length = k ∧ (stats.map Stat.linenum).sum = rs.length := by
  obtain ⟨starts, ends, stats, hpos, hstats, hsum⟩ :=
    partitionStats_records rs buffer k stackOf hwf hb hk hm
  refine ⟨starts, ends, stats, hpos, hstats, ?_, ?_⟩
  · rw [mapExcept_length _ _ _ hstats, List.length_range]
  · have h := foldl_add_linenum stats Stat.zero
    rw [hsum Stat.zero, Stat.zero_add] at h
    simpa [expectedStat, Stat.zero] using h.symm

/-- C3 as amended, at three records cut for two workers: the naive boundary 16
falls inside the second record. -/
theorem partitions_count_records_witness :
    ∃ starts ends stats,
      correctedPositions
          (fastqBytes [⟨[97], [65], [43], [73]⟩, ⟨[98], [65, 67, 71, 84], [43], [73, 73, 53, 73]⟩,
            ⟨[99], [65], [43], [73]⟩])
          (fastqBytes [⟨[97], [65], [43], [73]⟩, ⟨[98], [65, 67, 71, 84], [43], [73, 73, 53, 73]⟩,
            ⟨[99], [65], [43], [73]⟩]).length 2 = .ok (starts, ends) ∧
      partitionStats
          (fastqBytes [⟨[97], [65], [43], [73]⟩, ⟨[98], [65, 67, 71, 84], [43], [73, 73, 53, 73]⟩,
            ⟨[99], [65], [43], [73]⟩])
          (starts, ends) 2 (fun _ => []) = .ok stats ∧
      stats.length = 2 ∧ (stats.map Stat.linenum).sum = 3 :=
  partitions_count_records
    [⟨[97], [65], [43], [73]⟩, ⟨[98], [65, 67, 71, 84], [43], [73, 73, 53, 73]⟩,
      ⟨[99], [65], [43], [73]⟩] _ 2 (fun _ => []) (by decide) (Or.inl rfl) (by decide)
    (fun i h1 h2 => ⟨24, by
      have : i = 1 := by omega
      subst this
      decide⟩)

/-! ### The inflate stage and the offset pass -/

theorem jobLoop_actual_out (inflate : Inflate) (buffer : List Nat) :
    ∀ (fuel a_in a_out : Nat) (block block' : GZIP_BLOCK),
      jobLoop inflate buffer fuel a_in a_out block = .ok block' →
      block.actual_out_nbytes ≤ block'.actual_out_nbytes := by
  intro fuel
  induction fuel with
  | zero =>
    intro a_in a_out block block' h
    simp only [jobLoop] at h
    split at h
    · cases h; exact Int.le_refl _
    · cases h
  | succ fuel ih =>
    intro a_in a_out block block' h
    simp only [jobLoop] at h
    split at h
    · cases h; exact Int.le_refl _
    · split at h
      · cases h
      · split at h
        · cases h
        · split at h
          · have := ih _ _ _ _ h
            simpa using this
          · have := ih _ _ _ _ h
            simp only at this
            omega

theorem jobBlock_actual_out (inflate : Inflate) (buffer : List Nat) (fuel : Nat)
    (block block' : GZIP_BLOCK) (h : jobBlock inflate buffer fuel block = .ok block') :
    block.actual_out_nbytes ≤ block'.actual_out_nbytes := by
  unfold jobBlock at h
  have := jobLoop_actual_out _ _ _ _ _ _ _ h
  split at this <;> simpa using this

theorem producedBefore_set (blocks : List GZIP_BLOCK) (s : Nat) (b : GZIP_BLOCK)
    (hs : s < blocks.length) :
    producedBefore (blocks.set s b) (s + 1) = producedBefore blocks s + b.actual_out_nbytes := by
  unfold producedBefore
  rw [List.take_succ, List.getElem?_set_self hs]
  have : List.take s (blocks.set s b) = List.take s blocks := by
    rw [List.set_take]
    exact List.set_eq_of_length_le (by simp)
  simp [this]

/-- One `job_thread` on the blocks `start + a, ..., start + a + len - 1`, when
`total_size` holds the bytes produced by the blocks before `start + a`. -/
theorem job_thread_spec (inflate : Inflate) (buffer : List Nat) (fuel start : Nat) :
    ∀ (len a : Nat) (blocks blocks' : List GZIP_BLOCK) (total total' : Int),
      job_thread inflate buffer fuel start (List.range' a len) (blocks, total) =
        .ok (blocks', total') →
      total = producedBefore blocks (start + a) →
      (∀ b ∈ blocks, 0 ≤ b.actual_out_nbytes) →
      start + a + len ≤ blocks.length →
      blocks'.length = blocks.length ∧ total' = producedBefore blocks' (start + a + len) ∧
        (∀ b ∈ blocks', 0 ≤ b.actual_out_nbytes) := by
  intro len
  induction len with
  | zero =>
    intro a blocks blocks' total total' h ht hnn _
    simp only [List.range'_zero, job_thread, Except.ok.injEq, Prod.mk.injEq] at h
    obtain ⟨rfl, rfl⟩ := h
    exact ⟨rfl, ht, hnn⟩
  | succ len ih =>
    intro a blocks blocks' total total' h ht hnn hlen
    simp only [List.range'_succ, job_thread] at h
    have hs : start + a < blocks.length := by omega
    rw [List.getElem?_eq_getElem hs] at h
    simp only at h
    split at h
    · cases h
    · rename_i b' hb'
      have hmono := jobBlock_actual_out _ _ _ _ _ hb'
      have hb0 : 0 ≤ blocks[start + a].actual_out_nbytes := hnn _ (List.getElem_mem _)
      obtain ⟨h1, h2, h3⟩ := ih (a + 1) (blocks.set (start + a) b') blocks'
        (total + b'.actual_out_nbytes) total' h
        (by rw [ht]; exact (producedBefore_set blocks (start + a) b' hs).symm)
        (by
          intro b hb
          rcases List.mem_or_eq_of_mem_set hb with h | h
          · exact hnn b h
          · rw [h]; omega)
        (by simp only [List.length_set]; omega)
      refine ⟨by simpa using h1, ?_, h3⟩
      rw [h2]; congr 1; omega

/-- The inflate workers `i, i + 1, ..., i + cnt - 1` of `Unzip`, when the
workers before them have handled the blocks before `start_index`. -/
theorem inflateWorkers_spec (inflate : Inflate) (buffer : List Nat) (fuel k n : Nat)
    (hk : 1 ≤ k) :
    ∀ (cnt i start_index : Nat) (blocks blocks' : List GZIP_BLOCK) (total total' : Int),
      inflateWorkers inflate buffer fuel k (List.range' i cnt) start_index (blocks, total) =
        .ok (blocks', total') →
      blocks.length = n →
      start_index = i * (n / k) + min i (n % k) →
      i + cnt ≤ k →
      total = producedBefore blocks start_index →
      (∀ b ∈ blocks, 0 ≤ b.actual_out_nbytes) →
      blocks'.length = n ∧
        total' = producedBefore blocks' ((i + cnt) * (n / k) + min (i + cnt) (n % k)) ∧
        (∀ b ∈ blocks', 0 ≤ b.actual_out_nbytes) := by
  intro cnt
  induction cnt with
  | zero =>
    intro i start_index blocks blocks' total total' h hn hs _ ht hnn
    simp only [List.range'_zero, inflateWorkers, Except.ok.injEq, Prod.mk.injEq] at h
    obtain ⟨rfl, rfl⟩ := h
    exact ⟨hn, by rw [ht, hs]; rfl, hnn⟩
  | succ cnt ih =>
    intro i start_index blocks blocks' total total' h hn hs hik ht hnn
    simp only [List.range'_succ, inflateWorkers, hn] at h
    have hdm : k * (n / k) + n % k = n := Nat.div_add_mod n k
    have hmod : n % k < k := Nat.mod_lt _ (by omega)
    have hmul : (i + 1) * (n / k) ≤ k * (n / k) := Nat.mul_le_mul_right _ (by omega)
    have hsucc : (i + 1) * (n / k) = i * (n / k) + n / k := Nat.succ_mul _ _
    have hnext : start_index + (if i < n % k then n / k + 1 else n / k) =
        (i + 1) * (n / k) + min (i + 1) (n % k) := by
      split <;> omega
    have hfit : ¬ start_index + (if i < n % k then n / k + 1 else n / k) > n := by
      rw [hnext]; omega
    rw [if_neg hfit] at h
    split at h
    · cases h
    · rename_i state hstate
      obtain ⟨blocks1, total1⟩ := state
      obtain ⟨h1, h2, h3⟩ := job_thread_spec inflate buffer fuel start_index _ 0 blocks blocks1
        total total1 (by rw [← List.range_eq_range']; exact hstate) (by simpa using ht) hnn
        (by rw [hn]; omega)
      obtain ⟨g1, g2, g3⟩ := ih (i + 1) _ blocks1 blocks' total1 total' h (by rw [h1, hn]) hnext
        (by omega) (by rw [h2]; rfl) h3
      refine ⟨g1, ?_, g3⟩
      have e : i + 1 + cnt = i + (cnt + 1) := by omega
      rw [g2, e]

/-- After the inflate stage `total_out_size` has grown by the bytes of all
blocks, every block handled by exactly one worker. -/
theorem inflateStage_total (inflate : Inflate) (buffer : List Nat) (fuel k : Nat) (hk : 1 ≤ k)
    (blocks0 blocks : List GZIP_BLOCK) (total : Int)
    (h0 : ∀ b ∈ blocks0, 0 ≤ b.actual_out_nbytes)
    (hstage : inflateStage inflate buffer fuel k blocks0 0 = .ok (blocks, total)) :
    blocks.length = blocks0.length ∧ total = producedBefore blocks blocks.length ∧
      (∀ b ∈ blocks, 0 ≤ b.actual_out_nbytes) := by
  unfold inflateStage at hstage
  rw [List.range_eq_range'] at hstage
  obtain ⟨h1, h2, h3⟩ := inflateWorkers_spec inflate buffer fuel k blocks0.length hk k 0 0
    blocks0 blocks 0 total hstage rfl (by simp) (by omega) (by simp [producedBefore]) h0
  refine ⟨h1, ?_, h3⟩
  have hdm : k * (blocks0.length / k) + blocks0.length % k = blocks0.length :=
    Nat.div_add_mod _ k
  have hmod : blocks0.length % k < k := Nat.mod_lt _ (by omega)
  have hcomm : (0 + k) * (blocks0.length / k) = k * (blocks0.length / k) := by
    rw [Nat.zero_add]
  have : (0 + k) * (blocks0.length / k) + min (0 + k) (blocks0.length % k) = blocks.length := by
    rw [hcomm, h1]; omega
  rw [h2, this]

theorem offsetPass_length (blocks : List GZIP_BLOCK) :
    ∀ offset : Int, (offsetPass blocks offset).length = blocks.length := by
  induction blocks with
  | nil => intro _; rfl
  | cons b blocks ih => intro offset; simp [offsetPass, ih]

/-- The offset pass leaves every block as it was, but for its `offset`, which
is the running offset plus the bytes of the blocks before it. -/
theorem offsetPass_getElem? (blocks : List GZIP_BLOCK) :
    ∀ (offset : Int) (j : Nat),
      (offsetPass blocks offset)[j]? =
        blocks[j]?.map (fun b => { b with offset := offset + producedBefore blocks j }) := by
  induction blocks with
  | nil => intro _ _; simp [offsetPass]
  | cons b blocks ih =>
    intro offset j
    cases j with
    | zero => simp [offsetPass, producedBefore]
    | succ j =>
      simp only [offsetPass, List.getElem?_cons_succ, ih, producedBefore, List.take_succ_cons,
        List.map_cons, List.sum_cons, Int.add_assoc]

theorem producedBefore_mono (blocks : List GZIP_BLOCK)
    (hnn : ∀ b ∈ blocks, 0 ≤ b.actual_out_nbytes) :
    ∀ i j, i ≤ j → producedBefore blocks i ≤ producedBefore blocks j := by
  intro i j hij
  obtain ⟨d, rfl⟩ : ∃ d, j = i + d := ⟨j - i, by omega⟩
  unfold producedBefore
  rw [List.take_add, List.map_append, List.sum_append]
  have : 0 ≤ (List.map (fun b => b.actual_out_nbytes) (List.take d (List.drop i blocks))).sum := by
    apply List.sum_nonneg
    intro x hx
    obtain ⟨b, hb, rfl⟩ := List.mem_map.mp hx
    exact hnn b (List.mem_of_mem_drop (List.mem_of_mem_take hb))
  omega

theorem producedBefore_succ (blocks : List GZIP_BLOCK) (j : Nat) (b : GZIP_BLOCK)
    (hb : blocks[j]? = some b) :
    producedBefore blocks (j + 1) = producedBefore blocks j + b.actual_out_nbytes := by
  unfold producedBefore
  rw [List.take_succ, hb]
  simp

theorem producedBefore_ge_length (blocks : List GZIP_BLOCK) (j : Nat) (h : blocks.length ≤ j) :
    producedBefore blocks j = producedBefore blocks blocks.length := by
  unfold producedBefore
  rw [List.take_of_length_le h, List.take_length]

/-- C9: once the inflate stage has returned, `total_out_size` is the sum of
`actual_out_nbytes` over all blocks, and the offset pass gives block `j` the
sum over the blocks before it; so every destination range starts at or after
0, ends inside `total_out_size`, ends where the next one starts (the last at
`total_out_size`), and an earlier range ends before a later one starts. -/
theorem merge_offsets_prefix_sums (inflate : Inflate) (buffer : List Nat) (fuel k : Nat)
    (hk : 1 ≤ k) (blocks0 blocks : List GZIP_BLOCK) (total : Int)
    (h0 : ∀ b ∈ blocks0, 0 ≤ b.actual_out_nbytes)
    (hstage : inflateStage inflate buffer fuel k blocks0 0 = .ok (blocks, total)) :
    (offsetPass blocks 0).length = blocks.length ∧
    producedBefore blocks blocks.length = total ∧
    (∀ j b, (offsetPass blocks 0)[j]? = some b →
      blocks[j]?.map (fun x => x.actual_out_nbytes) = some b.actual_out_nbytes ∧
      b.offset = producedBefore blocks j ∧
      0 ≤ b.offset ∧ 0 ≤ b.actual_out_nbytes ∧
      b.offset + b.actual_out_nbytes = producedBefore blocks (j + 1) ∧
      b.offset + b.actual_out_nbytes ≤ total) ∧
    (∀ (i j : Nat) (bi bj : GZIP_BLOCK), i < j → (offsetPass blocks 0)[i]? = some bi →
      (offsetPass blocks 0)[j]? = some bj → bi.offset + bi.actual_out_nbytes ≤ bj.offset) := by
  obtain ⟨_, htotal, hnn⟩ := inflateStage_total inflate buffer fuel k hk blocks0 blocks total h0 hstage
  have key : ∀ j b, (offsetPass blocks 0)[j]? = some b →
      ∃ x, blocks[j]? = some x ∧ b.actual_out_nbytes = x.actual_out_nbytes ∧
        b.offset = producedBefore blocks j := by
    intro j b hb
    rw [offsetPass_getElem?] at hb
    cases hx : blocks[j]? with
    | none => rw [hx] at hb; cases hb
    | some x =>
      rw [hx] at hb
      simp only [Option.map_some', Option.some.injEq] at hb
      subst hb
      exact ⟨x, rfl, rfl, by simp⟩
  refine ⟨offsetPass_length blocks 0, htotal.symm, ?_, ?_⟩
  · intro j b hb
    obtain ⟨x, hx, hout, hoff⟩ := key j b hb
    have hx0 : 0 ≤ x.actual_out_nbytes := hnn x (List.getElem?_mem hx)
    have hsucc := producedBefore_succ blocks j x hx
    have h0j : 0 ≤ producedBefore blocks j := by
      have := producedBefore_mono blocks hnn 0 j (Nat.zero_le _)
      simpa [producedBefore] using this
    have hle : producedBefore blocks (j + 1) ≤ producedBefore blocks blocks.length := by
      rcases Nat.lt_or_ge j blocks.length with h | h
      · exact producedBefore_mono blocks hnn _ _ h
      · rw [List.getElem?_eq_none h] at hx; cases hx
    refine ⟨by rw [hx, hout]; rfl, hoff, by omega, by omega, by omega, by omega⟩
  · intro i j bi bj hij hbi hbj
    obtain ⟨x, hx, hout, hoff⟩ := key i bi hbi
    obtain ⟨_, _, _, hoffj⟩ := key j bj hbj
    have hsucc := producedBefore_succ blocks i x hx
    have := producedBefore_mono blocks hnn (i + 1) j hij
    omega

/-- C9 at three members with their exact spans and two workers: block offsets
0, 3 and 5, total 6. -/
theorem merge_offsets_prefix_sums_witness :
    (offsetPass sampleInflated 0).length = 3 ∧ producedBefore sampleInflated 3 = 6 :=
  ⟨(merge_offsets_prefix_sums storedInflate sampleStream 4 2 (by decide) sampleBlocks
      sampleInflated 6 (by decide) (by decide)).1,
   (merge_offsets_prefix_sums storedInflate sampleStream 4 2 (by decide) sampleBlocks
      sampleInflated 6 (by decide) (by decide)).2.1⟩

theorem pairLoop_fresh (under buffer : List Nat) :
    ∀ (offsets : List Int) (index : Int) (dest dest' : List GZIP_BLOCK) (index' : Int),
      pairLoop under buffer offsets index dest = .ok (dest', index') →
      (∀ b ∈ dest, b.actual_out_nbytes = 0) → ∀ b ∈ dest', b.actual_out_nbytes = 0 := by
  intro offsets
  induction offsets with
  | nil =>
    intro index dest dest' index' h hd
    simp only [pairLoop, Except.ok.injEq, Prod.mk.injEq] at h
    rw [← h.1]; exact hd
  | cons o rest ih =>
    intro index dest dest' index' h hd
    cases rest with
    | nil =>
      simp only [pairLoop, Except.ok.injEq, Prod.mk.injEq] at h
      rw [← h.1]; exact hd
    | cons o' rest' =>
      simp only [pairLoop] at h
      split at h
      · exact ih _ _ _ _ h hd
      · split at h
        · cases h
        · refine ih _ _ _ _ h ?_
          intro b hb
          rcases List.mem_append.mp hb with hb | hb
          · exact hd b hb
          · rw [List.mem_singleton.mp hb]; rfl

/-- Every block that `find_gzip_members` makes starts with `actual_out_nbytes = 0`. -/
theorem find_gzip_members_fresh (under buffer : List Nat) (core : Nat) (flag : Bool)
    (blocks : List GZIP_BLOCK) (h : find_gzip_members under buffer core = .ok (flag, blocks)) :
    ∀ b ∈ blocks, b.actual_out_nbytes = 0 := by
  unfold find_gzip_members at h
  split at h
  · cases h
  · split at h
    · cases h
    · split at h
      · simp only [Except.ok.injEq, Prod.mk.injEq] at h
        rw [← h.2]; simp
      · split at h
        · cases h
        · simp only [Except.ok.injEq, Prod.mk.injEq] at h
          rw [← h.2]
          intro b hb
          rw [List.mem_singleton.mp hb]; rfl
      · simp only at h
        split at h
        · cases h
        · rename_i dest index hpl
          have hd := pairLoop_fresh under buffer _ _ _ _ _ hpl (by simp)
          split at h
          · cases h
          · split at h
            · split at h
              · cases h
              · simp only [Except.ok.injEq, Prod.mk.injEq] at h
                rw [← h.2]
                intro b hb
                rcases List.mem_append.mp hb with hb | hb
                · exact hd b hb
                · rw [List.mem_singleton.mp hb]; rfl
            · simp only [Except.ok.injEq, Prod.mk.injEq] at h
              rw [← h.2]; exact hd

/-! ### Evaluations of the gzip pipeline -/

/-- A truncated member makes the decode loop of its block run for ever: the
call fails, stores nothing, and the loop goes on with the same block. -/
theorem jobLoop_truncated (fuel : Nat) :
    jobLoop storedInflate truncatedMember fuel 0 0
      { index := 0, offset := 0, compressed_size := 18, uncompressed_size := 108,
        compressed := 0, uncompressed := some (newChars 108), actual_out_nbytes := 0 } =
      .error .outOfFuel := by
  induction fuel with
  | zero => rfl
  | succ f ih => exact ih

/-- With one worker and one block, a fault of the block is the fault of `Unzip`. -/
theorem unzip_one_block_fault (inflate : Inflate) (under buffer : List Nat) (fuel : Nat)
    (b : GZIP_BLOCK) (e : Fault)
    (hfind : find_gzip_members under buffer 1 = .ok (true, [b]))
    (hjob : jobBlock inflate buffer fuel { b with uncompressed_size := b.compressed_size * 6 } =
      .error e) :
    Unzip inflate under buffer 1 fuel = .error e := by
  simp [Unzip, hfind, presize, inflateStage, inflateWorkers, job_thread, hjob]

/-- C1 fails on the code: for two members (of 22 and 21 bytes) decoded by one
worker the first block spans 23 bytes, one too many; after the member is
decoded the loop calls the
primitive on that one byte, ignores the failure, subtracts the stale byte
count and leaves the buffer: whatever the fuel, `Unzip` does not return.  And
one member scanned by more workers than the file has bytes is not found:
`Unzip` returns false. -/
theorem round_trip_fails :
    find_gzip_members (List.replicate 10 0)
        (storedMember [97, 98, 99] ++ storedMember [100, 101]) 1 =
      .ok (true, [newBlock 0 0 23 3, newBlock 1 22 21 2]) ∧
    (∀ fuel, Unzip storedInflate (List.replicate 10 0)
        (storedMember [97, 98, 99] ++ storedMember [100, 101]) 1 fuel = .error .outOfFuel ∨
      Unzip storedInflate (List.replicate 10 0)
        (storedMember [97, 98, 99] ++ storedMember [100, 101]) 1 fuel = .error .bufferOverrun) ∧
    (∀ fuel, Unzip storedInflate (List.replicate 10 0) (storedMember [97, 98, 99]) 23 fuel =
      .ok { ok := false, total_out_size := 0, uncompressed_buffer := [] }) := by
  refine ⟨rfl, fun fuel => ?_, fun _ => rfl⟩
  match fuel with
  | 0 => exact Or.inl rfl
  | 1 => exact Or.inl rfl
  | 2 => exact Or.inl rfl
  | _ + 3 => exact Or.inr rfl

/-- C6 fails on the code: in the 43-byte file made of the gzip member of `abc`
and the gzip member of the empty text, eleven workers scan the positions -10
to 22 only and miss the member at 23, which one worker finds. -/
theorem discovery_misses_member :
    find_gzip_members (List.replicate 10 0) gzipAbcEmpty 11 = .ok (true, [newBlock 0 0 43 0]) ∧
    find_gzip_members (List.replicate 10 0) gzipAbcEmpty 1 =
      .ok (true, [newBlock 0 0 24 3, newBlock 1 23 20 0]) :=
  ⟨rfl, rfl⟩

/-- C7 fails on the code: for two blocks and two workers the merge loop hands
out the range `[0, 1)` only, for three blocks and two workers `[0, 1)` and
`[1, 2)`; the last block is copied by nobody and its bytes stay unwritten. -/
theorem merge_ranges_miss_blocks :
    mergeRanges 2 2 (List.range 2) 0 = [(0, 1)] ∧
    mergeRanges 3 2 (List.range 2) 0 = [(0, 1), (1, 2)] ∧
    mergeStage (offsetPass sampleInflated 0) 6 2 =
      .ok [some 97, some 98, some 99, some 100, some 101, none] ∧
    mergeStage (offsetPass sampleInflated 0) 6 1 =
      .ok [some 97, some 98, some 99, some 100, some 101, some 102] :=
  ⟨rfl, rfl, rfl, rfl⟩

set_option maxRecDepth 100000 in
/-- C8 fails on the code: on a truncated member the primitive reports bad data
and `Unzip` never returns (the decode loop repeats the failing call); with a
primitive that stores its counts before it reports bad data, `job_thread`
takes the counts and `Unzip` returns true with a buffer nobody wrote. -/
theorem decode_failure_not_surfaced :
    (∀ fuel, Unzip storedInflate (List.replicate 10 0) truncatedMember 1 fuel =
      .error .outOfFuel) ∧
    (∀ fuel, Unzip failingInflate (List.replicate 10 0) (storedMember [97, 98, 99]) 1 (fuel + 1) =
      .ok { ok := true, total_out_size := 0, uncompressed_buffer := newChars 132 }) := by
  refine ⟨fun fuel => ?_, fun fuel => ?_⟩
  · exact unzip_one_block_fault _ _ _ _ (newBlock 0 0 18 0) _ rfl (jobLoop_truncated fuel)
  · cases fuel <;> rfl

/-- The flag of `Unzip` is false only when `find_gzip_members` found nothing:
no status of the inflate primitive can make it false. -/
theorem unzip_false_only_without_members (inflate : Inflate) (under buffer : List Nat)
    (k fuel : Nat) (r : UnzipResult) (h : Unzip inflate under buffer k fuel = .ok r)
    (hr : r.ok = false) : ∃ blocks, find_gzip_members under buffer k = .ok (false, blocks) := by
  unfold Unzip at h
  split at h
  · cases h
  · rename_i blocks hfind
    exact ⟨blocks, hfind⟩
  · split at h
    · cases h
    · simp only at h
      split at h
      · cases h
      · simp only [Except.ok.injEq] at h
        rw [← h] at hr
        cases hr

/-! ### The bounded loops never give up -/

theorem memcpyScore_not_outOfFuel (buffer : List Nat) (i y : Nat) (sl : List Nat) :
    memcpyScore buffer i y sl ≠ .error .outOfFuel := by
  unfold memcpyScore
  split
  · simp
  · split <;> simp

theorem scanStep_not_outOfFuel (buffer : List Nat) (i : Nat) (st : ScanState) :
    scanStep buffer i st ≠ .error .outOfFuel := by
  intro h
  unfold scanStep at h
  split at h
  · simp at h
  · dsimp only at h
    split_ifs at h <;> (try split at h) <;> simp at h
    all_goals
      rename_i e heq
      exact memcpyScore_not_outOfFuel _ _ _ _ (h ▸ heq)

/-- The fuel `end_pos - start_pos` that `find_qc_pos_job` gives its loop is
enough: the loop ends by leaving the range or by a fault of the source. -/
theorem scanLoop_not_outOfFuel (buffer : List Nat) (end_pos : Nat) :
    ∀ (fuel i : Nat) (st : ScanState), end_pos - i ≤ fuel →
      scanLoop buffer end_pos fuel i st ≠ .error .outOfFuel := by
  intro fuel
  induction fuel with
  | zero =>
    intro i st hf
    rw [scanLoop_done _ _ _ _ _ (by omega)]
    simp
  | succ fuel ih =>
    intro i st hf
    by_cases hi : end_pos ≤ i
    · rw [scanLoop_done _ _ _ _ _ hi]; simp
    · cases hs : scanStep buffer i st with
      | error e =>
        simp only [scanLoop, hi, if_false, hs]
        intro h
        simp only [Except.error.injEq] at h
        exact scanStep_not_outOfFuel buffer i st (h ▸ hs)
      | ok p =>
        obtain ⟨i', st'⟩ := p
        have hp := scanStep_progress hs
        rw [scanLoop_step fuel (Nat.lt_of_not_le hi) hs]
        exact ih i' st' (by omega)

theorem find_qc_pos_job_not_outOfFuel (buffer : List Nat) (start_pos end_pos : Nat)
    (stack : List Nat) (stat : Stat) :
    find_qc_pos_job buffer start_pos end_pos stack stat ≠ .error .outOfFuel :=
  scanLoop_not_outOfFuel buffer end_pos _ _ _ (Nat.le_refl _)

/-- The fuel `buffer.length` that `Calculate` gives `correct_pos` is enough:
the walk ends on a marker or leaves the buffer. -/
theorem correct_pos_not_outOfFuel (buffer : List Nat) :
    ∀ (fuel s : Nat), buffer.length - s ≤ fuel →
      correct_pos buffer fuel s ≠ .error .outOfFuel := by
  intro fuel
  induction fuel with
  | zero =>
    intro s hf
    have : buffer[s]? = none := List.getElem?_eq_none (by omega)
    simp [correct_pos, this]
  | succ fuel ih =>
    intro s hf
    simp only [correct_pos]
    split
    · simp
    · split
      · exact ih (s + 1) (by omega)
      · simp

/-- The stand-in primitive is a decoder of the kind the spec describes: on an
input that starts with the stored member of `payload`, with room for it, it
succeeds, reports the length of the member as consumed and returns `payload`. -/
theorem storedInflate_member (payload rest : List Nat) (out_avail : Nat)
    (h : payload.length ≤ out_avail) :
    storedInflate (storedMember payload ++ rest) out_avail =
      ⟨.LIBDEFLATE_SUCCESS, some (storedMember payload).length, some payload.length, payload⟩ := by
  have h10 : (storedMember payload ++ rest).getD 10 0 = payload.length := by
    simp [storedMember]
  have hlen : (storedMember payload ++ rest).length = 19 + payload.length + rest.length := by
    simp [storedMember]; omega
  have htake : (storedMember payload ++ rest).take 3 = [0x1f, 0x8b, 0x08] := by
    simp [storedMember]
  have hdrop : ((storedMember payload ++ rest).drop 11).take payload.length = payload := by
    simp [storedMember]
  unfold storedInflate
  rw [h10, hlen, htake, hdrop]
  have e1 : ¬ (19 + payload.length + rest.length < 18 ∨ [0x1f, 0x8b, 0x08] ≠ [0x1f, 0x8b, 0x08]) := by
    simp; omega
  have e2 : ¬ (19 + payload.length + rest.length < 19 + payload.length) := by omega
  have e3 : ¬ (out_avail < payload.length) := by omega
  rw [if_neg e1, if_neg e2, if_neg e3]
  simp [storedMember]; omega

/-- `Calculate` on a buffer of well-formed records whose only `@` bytes open
the header lines, with a marker behind every naive boundary: it returns true
and adds the Stat of all records to `stat_file`, whatever the worker count. -/
theorem Calculate_records (rs : List Record) (buffer : List Nat) (k : Nat)
    (stackOf : Nat → List Nat) (stat_file : Stat)
    (hwf : ∀ r ∈ rs, r.WellFormed ∧ r.NoMarkerInQuality)
    (hb : buffer = fastqBytes rs ∨ (rs ≠ [] ∧ buffer = (fastqBytes rs).dropLast))
    (hk : 1 ≤ k)
    (hm : ∀ i, 1 ≤ i → i < k → ∃ p, i * (buffer.length / k) ≤ p ∧ buffer[p]? = some 64) :
    Calculate buffer buffer.length k stackOf stat_file =
      .ok (true, stat_file.add (expectedStat rs)) := by
  obtain ⟨starts, ends, stats, hpos, hstats, hsum⟩ :=
    partitionStats_records rs buffer k stackOf hwf hb hk hm
  have hk0 : k ≠ 0 := by omega
  simp only [Calculate, hk0, if_false, hpos, hstats, hsum]

/-! ### Combining Stats -/

theorem foldl_add_perm {l₁ l₂ : List Stat} (h : l₁.Perm l₂) :
    ∀ s : Stat, l₁.foldl Stat.add s = l₂.foldl Stat.add s := by
  induction h with
  | nil => intro s; rfl
  | cons x _ ih => intro s; exact ih (s.add x)
  | swap x y l =>
    intro s
    simp only [List.foldl_cons]
    rw [Stat.add_assoc, Stat.add_comm y x, ← Stat.add_assoc]
  | trans _ _ ih₁ ih₂ => intro s; rw [ih₁, ih₂]

theorem foldl_add_eq (stats : List Stat) :
    ∀ s : Stat, stats.foldl Stat.add s = s.add (stats.foldl Stat.add Stat.zero) := by
  induction stats with
  | nil => intro s; simp [Stat.add_zero]
  | cons x stats ih =>
    intro s
    simp only [List.foldl_cons]
    rw [ih (s.add x), ih (Stat.zero.add x), Stat.zero_add, Stat.add_assoc]

/-- C16: the field-wise addition of Stats is commutative and associative with
the zero Stat as identity, the total of `main` does not depend on the order of
its two files, and whenever `Calculate` returns, the Stat it leaves is the
incoming `stat_file` plus the sum of the Stats of its partitions, the same for
every order of these. -/
theorem stat_combination (buffer : List Nat) (buffer_size thread_count : Nat)
    (stackOf : Nat → List Nat) (stat_file : Stat) (flag : Bool) (result : Stat)
    (h : Calculate buffer buffer_size thread_count stackOf stat_file = .ok (flag, result)) :
    (∀ a b : Stat, a.add b = b.add a) ∧
    (∀ a b c : Stat, (a.add b).add c = a.add (b.add c)) ∧
    (∀ a : Stat, Stat.zero.add a = a ∧ a.add Stat.zero = a) ∧
    (∀ a b : Stat, mainTotal a b = a.add b ∧ mainTotal a b = mainTotal b a) ∧
    ∃ pos stats, correctedPositions buffer buffer_size thread_count = .ok pos ∧
      partitionStats buffer pos thread_count stackOf = .ok stats ∧
      result = stat_file.add (stats.foldl Stat.add Stat.zero) ∧
      ∀ stats' : List Stat, stats'.Perm stats → stats'.foldl Stat.add stat_file = result := by
  refine ⟨Stat.add_comm, Stat.add_assoc, fun a => ⟨Stat.zero_add a, Stat.add_zero a⟩, ?_, ?_⟩
  · intro a b
    have e : ∀ x y : Stat, mainTotal x y = x.add y := fun x y => by
      simp only [mainTotal, Stat.zero_add]
    exact ⟨e a b, by rw [e a b, e b a, Stat.add_comm]⟩
  · unfold Calculate at h
    split at h
    · cases h
    · split at h
      · cases h
      · rename_i pos hpos
        split at h
        · cases h
        · rename_i stats hstats
          simp only [Except.ok.injEq, Prod.mk.injEq] at h
          refine ⟨pos, stats, hpos, hstats, ?_, ?_⟩
          · rw [← h.2]; exact foldl_add_eq stats stat_file
          · intro stats' hp
            rw [← h.2]; exact foldl_add_perm hp stat_file

/-- C16 at a buffer of three records handled by two workers, from a `stat_file`
that already holds counts. -/
theorem stat_combination_witness :
    ∃ pos stats,
      correctedPositions
          [64, 97, 10, 65, 10, 43, 10, 73, 10, 64, 98, 10, 65, 67, 10, 43, 10, 53, 33, 10,
           64, 99, 10, 65, 10, 43, 10, 73, 10] 29 2 =
        .ok pos ∧
      partitionStats
          [64, 97, 10, 65, 10, 43, 10, 73, 10, 64, 98, 10, 65, 67, 10, 43, 10, 53, 33, 10,
           64, 99, 10, 65, 10, 43, 10, 73, 10] pos 2
          (fun _ => []) = .ok stats ∧
      (⟨4, 5, 4, 3⟩ : Stat) = (⟨1, 1, 1, 1⟩ : Stat).add (stats.foldl Stat.add Stat.zero) ∧
      ∀ stats' : List Stat, stats'.Perm stats →
        stats'.foldl Stat.add ⟨1, 1, 1, 1⟩ = (⟨4, 5, 4, 3⟩ : Stat) :=
  (stat_combination
    [64, 97, 10, 65, 10, 43, 10, 73, 10, 64, 98, 10, 65, 67, 10, 43, 10, 53, 33, 10,
           64, 99, 10, 65, 10, 43, 10, 73, 10] 29 2
    (fun _ => []) ⟨1, 1, 1, 1⟩ true ⟨4, 5, 4, 3⟩ rfl).2.2.2.2

/-- C17: on a buffer of well-formed records in which `@` occurs only as the
first byte of the header lines, for two worker counts that each find a `@` at
or after every naive internal boundary, `Calculate` returns true with the same
Stat, and that Stat is the one `find_qc_pos_job` returns on the whole buffer as
a single range. -/
theorem worker_count_invariance (rs : List Record) (buffer : List Nat) (k1 k2 : Nat)
    (stackOf1 stackOf2 : Nat → List Nat) (stack : List Nat) (stat_file : Stat)
    (hwf : ∀ r ∈ rs, r.WellFormed ∧ r.NoMarkerInQuality)
    (hb : buffer = fastqBytes rs ∨ (rs ≠ [] ∧ buffer = (fastqBytes rs).dropLast))
    (hk1 : 1 ≤ k1) (hk2 : 1 ≤ k2)
    (hm1 : ∀ i, 1 ≤ i → i < k1 → ∃ p, i * (buffer.length / k1) ≤ p ∧ buffer[p]? = some 64)
    (hm2 : ∀ i, 1 ≤ i → i < k2 → ∃ p, i * (buffer.length / k2) ≤ p ∧ buffer[p]? = some 64) :
    ∃ total : Stat,
      Calculate buffer buffer.length k1 stackOf1 stat_file = .ok (true, total) ∧
      Calculate buffer buffer.length k2 stackOf2 stat_file = .ok (true, total) ∧
      find_qc_pos_job buffer 0 buffer.length stack stat_file = .ok total :=
  ⟨stat_file.add (expectedStat rs),
    Calculate_records rs buffer k1 stackOf1 stat_file hwf hb hk1 hm1,
    Calculate_records rs buffer k2 stackOf2 stat_file hwf hb hk2 hm2,
    find_qc_pos_job_records rs buffer stack stat_file (fun r hr => (hwf r hr).1) hb⟩

/-- C17 at three records, for one worker and for two workers whose naive
boundary 16 falls inside the second record. -/
theorem worker_count_invariance_witness :
    ∃ total : Stat,
      Calculate
          (fastqBytes [⟨[97], [65], [43], [73]⟩, ⟨[98], [65, 67, 71, 84], [43], [73, 73, 53, 73]⟩,
            ⟨[99], [65], [43], [73]⟩])
          (fastqBytes [⟨[97], [65], [43], [73]⟩, ⟨[98], [65, 67, 71, 84], [43], [73, 73, 53, 73]⟩,
            ⟨[99], [65], [43], [73]⟩]).length 1 (fun _ => []) Stat.zero = .ok (true, total) ∧
      Calculate
          (fastqBytes [⟨[97], [65], [43], [73]⟩, ⟨[98], [65, 67, 71, 84], [43], [73, 73, 53, 73]⟩,
            ⟨[99], [65], [43], [73]⟩])
          (fastqBytes [⟨[97], [65], [43], [73]⟩, ⟨[98], [65, 67, 71, 84], [43], [73, 73, 53, 73]⟩,
            ⟨[99], [65], [43], [73]⟩]).length 2 (fun _ => []) Stat.zero = .ok (true, total) ∧
      find_qc_pos_job
          (fastqBytes [⟨[97], [65], [43], [73]⟩, ⟨[98], [65, 67, 71, 84], [43], [73, 73, 53, 73]⟩,
            ⟨[99], [65], [43], [73]⟩])
          0 (fastqBytes [⟨[97], [65], [43], [73]⟩, ⟨[98], [65, 67, 71, 84], [43], [73, 73, 53, 73]⟩,
            ⟨[99], [65], [43], [73]⟩]).length [] Stat.zero = .ok total :=
  worker_count_invariance
    [⟨[97], [65], [43], [73]⟩, ⟨[98], [65, 67, 71, 84], [43], [73, 73, 53, 73]⟩,
      ⟨[99], [65], [43], [73]⟩] _ 1 2 (fun _ => []) (fun _ => []) [] Stat.zero
    (by decide) (Or.inl rfl) (by decide) (by decide)
    (fun i h1 h2 => absurd h1 (by omega))
    (fun i h1 h2 => ⟨24, by
      have : i = 1 := by omega
      subst this
      decide⟩)

/-! ### A naive boundary without a marker behind it -/

theorem correct_pos_no_marker (buffer : List Nat) :
    ∀ (fuel s : Nat), (∀ p, s ≤ p → buffer[p]? ≠ some 64) → buffer.length - s ≤ fuel →
      correct_pos buffer fuel s = .error .bufferOverrun := by
  intro fuel
  induction fuel with
  | zero =>
    intro s _ hf
    have : buffer[s]? = none := List.getElem?_eq_none (by omega)
    simp [correct_pos, this]
  | succ fuel ih =>
    intro s hno hf
    simp only [correct_pos]
    cases hc : buffer[s]? with
    | none => rfl
    | some c =>
      have hne : c ≠ 64 := fun h => hno s (Nat.le_refl _) (by rw [hc, h])
      simp only [hne, ne_eq, not_false_eq_true, if_true]
      exact ih (s + 1) (fun p hp => hno p (by omega)) (by omega)

theorem correct_pos_ok (buffer : List Nat) :
    ∀ (fuel s p : Nat), correct_pos buffer fuel s = .ok p → s ≤ p ∧ buffer[p]? = some 64 := by
  intro fuel
  induction fuel with
  | zero =>
    intro s p h
    simp only [correct_pos] at h
    split at h
    · cases h
    · rename_i c hc
      by_cases h64 : c = 64
      · simp only [h64, ne_eq, not_true_eq_false, if_false, Except.ok.injEq] at h
        subst h; exact ⟨Nat.le_refl _, by rw [hc, h64]⟩
      · simp [h64] at h
  | succ fuel ih =>
    intro s p h
    simp only [correct_pos] at h
    split at h
    · cases h
    · rename_i c hc
      by_cases h64 : c = 64
      · simp only [h64, ne_eq, not_true_eq_false, if_false, Except.ok.injEq] at h
        subst h; exact ⟨Nat.le_refl _, by rw [hc, h64]⟩
      · simp only [h64, ne_eq, not_false_eq_true, if_true] at h
        have := ih (s + 1) p h
        exact ⟨by omega, this.2⟩

theorem correct_pos_error (buffer : List Nat) :
    ∀ (fuel s : Nat) (e : Fault), correct_pos buffer fuel s = .error e →
      e = .bufferOverrun ∨ e = .outOfFuel := by
  intro fuel
  induction fuel with
  | zero =>
    intro s e h
    simp only [correct_pos] at h
    split at h
    · simp only [Except.error.injEq] at h; exact Or.inl h.symm
    · split at h
      · simp only [Except.error.injEq] at h; exact Or.inr h.symm
      · cases h
  | succ fuel ih =>
    intro s e h
    simp only [correct_pos] at h
    split at h
    · simp only [Except.error.injEq] at h; exact Or.inl h.symm
    · split at h
      · exact ih _ _ h
      · cases h

/-- The correction loop over the rounds `m, ..., m + len - 1` when one of the
boundaries it has to move has no marker behind it: the walk leaves the buffer. -/
theorem correctLoop_missing {buffer : List Nat} {k step : Nat} (i : Nat)
    (hno : ∀ p, i * step ≤ p → buffer[p]? ≠ some 64) :
    ∀ (len m : Nat) (starts ends : List Nat), m + len + 1 ≤ k →
      starts.length = k → ends.length = k →
      (∀ j, m < j → j < k → starts.getD j 0 = j * step) →
      m < i → i ≤ m + len →
      correctLoop buffer (List.range' m len) (starts, ends) = .error .bufferOverrun := by
  intro len
  induction len with
  | zero => intro m _ _ _ _ _ _ h1 h2; omega
  | succ len ih =>
    intro m starts ends hk hs he hnaive h1 h2
    simp only [List.range'_succ, correctLoop]
    rw [hnaive (m + 1) (by omega) (by omega)]
    cases hc : correct_pos buffer buffer.length ((m + 1) * step) with
    | error e =>
      rcases correct_pos_error _ _ _ _ hc with rfl | rfl
      · rfl
      · exact absurd hc (correct_pos_not_outOfFuel buffer _ _ (by omega))
    | ok p =>
      obtain ⟨hp1, hp2⟩ := correct_pos_ok _ _ _ _ hc
      have hi : i ≠ m + 1 := by
        rintro rfl
        exact hno p hp1 hp2
      exact ih (m + 1) (starts.set (m + 1) p) (ends.set m p) (by omega)
        (by simpa using hs) (by simpa using he)
        (fun j hj hjk => by rw [getD_set_ne _ _ _ _ (by omega)]; exact hnaive j (by omega) hjk)
        (by omega) (by omega)

/-- When some naive internal boundary has no `@` at or after it, `Calculate`
on a buffer of exactly `buffer_size` bytes does not return: `correct_pos`
reads past the end of the buffer. -/
theorem Calculate_missing_marker (buffer : List Nat) (k : Nat) (stackOf : Nat → List Nat)
    (stat_file : Stat) (i : Nat) (h1 : 1 ≤ i) (hik : i < k)
    (hno : ∀ p, i * (buffer.length / k) ≤ p → buffer[p]? ≠ some 64) :
    Calculate buffer buffer.length k stackOf stat_file = .error .bufferOverrun := by
  have hloop := correctLoop_missing (k := k) i hno (k - 1) 0 (naivePositions buffer.length k).1
    (naivePositions buffer.length k).2 (by omega) (by simp [naivePositions])
    (by simp [naivePositions])
    (fun j _ hj => by
      simp [naivePositions, List.getD_eq_getElem?_getD, List.getElem?_range hj])
    (by omega) (by omega)
  have hk0 : k ≠ 0 := by omega
  simp only [Calculate, hk0, if_false, correctedPositions]
  rw [List.range_eq_range', hloop]

/-- The flag that `Calculate` returns is always true. -/
theorem Calculate_flag (buffer : List Nat) (buffer_size k : Nat) (stackOf : Nat → List Nat)
    (stat_file : Stat) (flag : Bool) (result : Stat)
    (h : Calculate buffer buffer_size k stackOf stat_file = .ok (flag, result)) : flag = true := by
  unfold Calculate at h
  split at h
  · cases h
  · split at h
    · cases h
    · split at h
      · cases h
      · simp only [Except.ok.injEq, Prod.mk.injEq] at h
        exact h.1.symm

/-- C11 fails on the code: one record of 9 bytes cut for two workers has no
`@` at or after the naive boundary 4.  `correct_pos` reads index 9 and beyond:
on an allocation of exactly 9 bytes that is a read outside the buffer, and on
a larger allocation that holds a `@` in its slack (index 11) `Calculate`
returns true with a Stat that counts a slack byte as a base.  No failure is
reported. -/
theorem missing_marker_not_reported :
    (∀ (stackOf : Nat → List Nat) (stat_file : Stat),
      Calculate [64, 97, 10, 65, 10, 43, 10, 73, 10] 9 2 stackOf stat_file =
        .error .bufferOverrun) ∧
    correctedPositions [64, 97, 10, 65, 10, 43, 10, 73, 10, 120, 120, 64, 120] 9 2 =
      .ok ([0, 11], [11, 9]) ∧
    Calculate [64, 97, 10, 65, 10, 43, 10, 73, 10, 120, 120, 64, 120] 9 2 (fun _ => [])
      Stat.zero = .ok (true, ⟨1, 2, 2, 2⟩) :=
  ⟨fun _ _ => rfl, rfl, rfl⟩

/-- C12 fails on the code: on an empty buffer one worker returns the zero
Stat, but with two or more workers the correction loop calls `correct_pos`,
which reads `buffer[0]` of a buffer without bytes. -/
theorem empty_buffer_read :
    (∀ stackOf : Nat → List Nat, Calculate [] 0 1 stackOf Stat.zero = .ok (true, Stat.zero)) ∧
    (∀ (k : Nat) (stackOf : Nat → List Nat),
      Calculate [] 0 (k + 2) stackOf Stat.zero = .error .bufferOverrun) :=
  ⟨fun _ => rfl,
   fun k stackOf => Calculate_missing_marker [] (k + 2) stackOf Stat.zero 1 (Nat.le_refl _)
     (by omega) (fun p _ => by simp)⟩

/-! ### The inflate partition -/

theorem job_thread_length (inflate : Inflate) (buffer : List Nat) (fuel start : Nat) :
    ∀ (is : List Nat) (blocks blocks' : List GZIP_BLOCK) (total total' : Int),
      job_thread inflate buffer fuel start is (blocks, total) = .ok (blocks', total') →
      blocks'.length = blocks.length := by
  intro is
  induction is with
  | nil =>
    intro blocks blocks' total total' h
    simp only [job_thread, Except.ok.injEq, Prod.mk.injEq] at h
    rw [← h.1]
  | cons i is ih =>
    intro blocks blocks' total total' h
    simp only [job_thread] at h
    split at h
    · cases h
    · split at h
      · cases h
      · have := ih _ _ _ _ h
        simpa using this

/-- The inflate loop of `Unzip` runs `job_thread` on exactly the ranges of
`inflateRanges`. -/
theorem inflateWorkers_eq_jobThreads (inflate : Inflate) (buffer : List Nat) (fuel k : Nat) :
    ∀ (ws : List Nat) (start_index : Nat) (blocks : List GZIP_BLOCK) (total : Int),
      inflateWorkers inflate buffer fuel k ws start_index (blocks, total) =
        jobThreads inflate buffer fuel (inflateRanges blocks.length k ws start_index)
          (blocks, total) := by
  intro ws
  induction ws with
  | nil => intro _ _ _; rfl
  | cons i ws ih =>
    intro start_index blocks total
    simp only [inflateWorkers, inflateRanges, jobThreads]
    split
    · rfl
    · rename_i state hstate
      obtain ⟨blocks1, total1⟩ := state
      have hlen := job_thread_length _ _ _ _ _ _ _ _ _ hstate
      rw [ih, hlen]

/-- Closed form of the inflate partition: worker `j` starts at
`j * (n / k) + min j (n % k)` and gets `n / k` blocks, one more when
`j < n % k`. -/
theorem inflateRanges_spec (n k : Nat) (hk : 1 ≤ k) :
    ∀ (cnt i : Nat), i + cnt ≤ k →
      inflateRanges n k (List.range' i cnt) (i * (n / k) + min i (n % k)) =
        (List.range' i cnt).map
          (fun j => (j * (n / k) + min j (n % k), if j < n % k then n / k + 1 else n / k)) := by
  intro cnt
  induction cnt with
  | zero => intro i _; rfl
  | succ cnt ih =>
    intro i hik
    have hdm : k * (n / k) + n % k = n := Nat.div_add_mod n k
    have hmod : n % k < k := Nat.mod_lt _ (by omega)
    have hmul : (i + 1) * (n / k) ≤ k * (n / k) := Nat.mul_le_mul_right _ (by omega)
    have hsucc : (i + 1) * (n / k) = i * (n / k) + n / k := Nat.succ_mul _ _
    have hnext : i * (n / k) + min i (n % k) + (if i < n % k then n / k + 1 else n / k) =
        (i + 1) * (n / k) + min (i + 1) (n % k) := by
      split <;> omega
    have hfit : ¬ i * (n / k) + min i (n % k) + (if i < n % k then n / k + 1 else n / k) > n := by
      rw [hnext]; omega
    simp only [List.range'_succ, inflateRanges, List.map_cons, if_neg hfit]
    rw [hnext, ih (i + 1) (by omega)]

theorem inflateRanges_getElem? (n k : Nat) (hk : 1 ≤ k) (i : Nat) (hi : i < k) :
    (inflateRanges n k (List.range k) 0)[i]? =
      some (i * (n / k) + min i (n % k), if i < n % k then n / k + 1 else n / k) := by
  have h := inflateRanges_spec n k hk k 0 (by omega)
  simp only [Nat.zero_mul, Nat.zero_min, Nat.add_zero] at h
  rw [List.range_eq_range', h, List.getElem?_map, List.getElem?_range' _ _ hi]
  simp

theorem inflateStart_mono (n k : Nat) {a b : Nat} (hab : a ≤ b) :
    a * (n / k) + min a (n % k) ≤ b * (n / k) + min b (n % k) := by
  have := Nat.mul_le_mul_right (n / k) hab
  omega

theorem inflateStart_succ (n k i : Nat) :
    (i + 1) * (n / k) + min (i + 1) (n % k) =
      i * (n / k) + min i (n % k) + (if i < n % k then n / k + 1 else n / k) := by
  have hsucc : (i + 1) * (n / k) = i * (n / k) + n / k := Nat.succ_mul _ _
  split <;> omega

theorem inflateStart_last (n k : Nat) (hk : 1 ≤ k) : k * (n / k) + min k (n % k) = n := by
  have hdm : k * (n / k) + n % k = n := Nat.div_add_mod n k
  have hmod : n % k < k := Nat.mod_lt _ (by omega)
  omega

/-- C13: for `n` blocks and `k >= 1` workers the inflate loop of `Unzip` hands
out `k` ranges; worker `i` gets `n / k + 1` blocks when `i < n % k` and `n / k`
otherwise; the first range starts at 0, every range ends where the next one
starts and the last one ends at `n`; so every block index below `n` lies in
exactly one range. -/
theorem inflate_partition (n k : Nat) (hk : 1 ≤ k) :
    (inflateRanges n k (List.range k) 0).length = k ∧
    (∀ i, i < k → ∃ s, (inflateRanges n k (List.range k) 0)[i]? =
        some (s, if i < n % k then n / k + 1 else n / k)) ∧
    ((inflateRanges n k (List.range k) 0)[0]?.map Prod.fst = some 0) ∧
    (∀ i s l : Nat, (inflateRanges n k (List.range k) 0)[i]? = some (s, l) →
      (((inflateRanges n k (List.range k) 0)[i + 1]?).map Prod.fst).getD n = s + l) ∧
    (∀ j, j < n → ∃! i : Nat, ∃ s l : Nat,
      (inflateRanges n k (List.range k) 0)[i]? = some (s, l) ∧
      s ≤ j ∧ j < s + l) := by
  have hget := inflateRanges_getElem? n k hk
  have hlen : (inflateRanges n k (List.range k) 0).length = k := by
    have h := inflateRanges_spec n k hk k 0 (by omega)
    simp only [Nat.zero_mul, Nat.zero_min, Nat.add_zero] at h
    rw [List.range_eq_range', h]
    simp
  have hnone : ∀ i, k ≤ i → (inflateRanges n k (List.range k) 0)[i]? = none :=
    fun i hi => List.getElem?_eq_none (by omega)
  have hinv : ∀ i s l, (inflateRanges n k (List.range k) 0)[i]? = some (s, l) →
      i < k ∧ s = i * (n / k) + min i (n % k) ∧ l = (if i < n % k then n / k + 1 else n / k) := by
    intro i s l h
    rcases Nat.lt_or_ge i k with hi | hi
    · rw [hget i hi] at h
      simp only [Option.some.injEq, Prod.mk.injEq] at h
      exact ⟨hi, h.1.symm, h.2.symm⟩
    · rw [hnone i hi] at h; cases h
  refine ⟨hlen, fun i hi => ⟨_, hget i hi⟩, ?_, ?_, ?_⟩
  · rw [hget 0 (by omega)]; simp
  · intro i s l h
    obtain ⟨hi, rfl, rfl⟩ := hinv i s l h
    rw [← inflateStart_succ]
    rcases Nat.lt_or_ge (i + 1) k with h1 | h1
    · rw [hget (i + 1) h1]; rfl
    · have : i + 1 = k := by omega
      rw [hnone (i + 1) h1, this, inflateStart_last n k hk]; rfl
  · intro j hj
    have hex : ∃ i, j < (i + 1) * (n / k) + min (i + 1) (n % k) :=
      ⟨k - 1, by
        have : k - 1 + 1 = k := by omega
        rw [this, inflateStart_last n k hk]; exact hj⟩
    classical
    have hspec := Nat.find_spec hex
    have hmin := fun m => @Nat.find_min _ _ hex m
    have hlt : Nat.find hex < k := by
      have : Nat.find hex ≤ k - 1 := Nat.find_min' hex (by
        have : k - 1 + 1 = k := by omega
        rw [this, inflateStart_last n k hk]; exact hj)
      omega
    have hlow : Nat.find hex * (n / k) + min (Nat.find hex) (n % k) ≤ j := by
      rcases Nat.eq_zero_or_pos (Nat.find hex) with h0 | hpos
      · rw [h0]; simp
      · have := hmin (Nat.find hex - 1) (by omega)
        have e : Nat.find hex - 1 + 1 = Nat.find hex := by omega
        rw [e] at this
        omega
    refine ⟨Nat.find hex, ⟨_, _, hget _ hlt, hlow, ?_⟩, ?_⟩
    · rw [← inflateStart_succ]; exact hspec
    · rintro i ⟨s, l, h, h1, h2⟩
      obtain ⟨hi, rfl, rfl⟩ := hinv i s l h
      rw [← inflateStart_succ] at h2
      by_contra hne
      rcases Nat.lt_or_gt_of_ne hne with hlt' | hgt
      · have := inflateStart_mono n k (show i + 1 ≤ Nat.find hex by omega)
        omega
      · have := inflateStart_mono n k (show Nat.find hex + 1 ≤ i by omega)
        omega

/-- C13 at 7 blocks and 3 workers: the ranges are `(0, 3)`, `(3, 2)`, `(5, 2)`. -/
theorem inflate_partition_witness :
    (inflateRanges 7 3 (List.range 3) 0).length = 3 ∧
    inflateRanges 7 3 (List.range 3) 0 = [(0, 3), (3, 2), (5, 2)] :=
  ⟨(inflate_partition 7 3 (by decide)).1, rfl⟩

/-- The inflate stage runs `job_thread` on the ranges of `inflateRanges`. -/
theorem inflateStage_eq_jobThreads (inflate : Inflate) (buffer : List Nat) (fuel k : Nat)
    (blocks : List GZIP_BLOCK) (total : Int) :
    inflateStage inflate buffer fuel k blocks total =
      jobThreads inflate buffer fuel (inflateRanges blocks.length k (List.range k) 0)
        (blocks, total) :=
  inflateWorkers_eq_jobThreads inflate buffer fuel k _ _ _ _

/-! ### More evaluations of the gzip pipeline -/

/-- When `find_gzip_members` returns false it has made no block. -/
theorem find_gzip_members_false (under buffer : List Nat) (core : Nat)
    (blocks : List GZIP_BLOCK) (h : find_gzip_members under buffer core = .ok (false, blocks)) :
    blocks = [] ∧ gatherOffsets under buffer core (List.range core) [] = .ok [] := by
  unfold find_gzip_members at h
  split at h
  · cases h
  · split at h
    · cases h
    · rename_i offsets hg
      split at h
      · simp only [Except.ok.injEq, Prod.mk.injEq] at h
        exact ⟨h.2.symm, hg⟩
      · split at h
        · cases h
        · simp at h
      · simp only at h
        split at h
        · cases h
        · split at h
          · cases h
          · split at h
            · split at h
              · cases h
              · simp at h
            · simp at h

/-- When `find_gzip_members` returns true it has made at least one block. -/
theorem find_gzip_members_true (under buffer : List Nat) (core : Nat)
    (blocks : List GZIP_BLOCK) (h : find_gzip_members under buffer core = .ok (true, blocks)) :
    blocks ≠ [] := by
  unfold find_gzip_members at h
  split at h
  · cases h
  · split at h
    · cases h
    · split at h
      · simp at h
      · split at h
        · cases h
        · simp only [Except.ok.injEq, Prod.mk.injEq] at h
          rw [← h.2]; simp
      · simp only at h
        split at h
        · cases h
        · split at h
          · cases h
          · rename_i back hback
            split at h
            · split at h
              · cases h
              · simp only [Except.ok.injEq, Prod.mk.injEq] at h
                rw [← h.2]; simp
            · simp only [Except.ok.injEq, Prod.mk.injEq] at h
              rw [← h.2]
              intro hnil
              rw [hnil] at hback
              cases hback

/-- When `find_gzip_members` returns false, so does `Unzip`. -/
theorem unzip_of_find_false (inflate : Inflate) (under buffer : List Nat) (k fuel : Nat)
    (blocks : List GZIP_BLOCK) (h : find_gzip_members under buffer k = .ok (false, blocks)) :
    Unzip inflate under buffer k fuel =
      .ok { ok := false, total_out_size := 0, uncompressed_buffer := [] } := by
  simp [Unzip, h]

/-- C14 fails on the code: the 20-byte gzip member of the empty text matches
the signature at position 0, but 21 workers get chunks of 0 bytes, scan nothing
and `find_gzip_members` returns false.  And when the ten bytes in front of a
buffer without any signature hold a member header, the first worker, which
starts at -10, reports the offset -10 and the function returns true. -/
theorem format_failure_not_iff :
    signatureAt (List.replicate 10 0) gzipEmpty 0 = .ok true ∧
    find_gzip_members (List.replicate 10 0) gzipEmpty 21 = .ok (false, []) ∧
    (∀ (inflate : Inflate) (fuel : Nat),
      Unzip inflate (List.replicate 10 0) gzipEmpty 21 fuel =
        .ok { ok := false, total_out_size := 0, uncompressed_buffer := [] }) ∧
    find_gzip_members [0x1f, 0x8b, 0x08, 0, 0, 0, 0, 0, 0, 0] (List.replicate 20 0) 1 =
      .ok (true, [newBlock 0 (-10) 30 0]) :=
  ⟨rfl, rfl, fun _ _ => rfl, rfl⟩

/-- C18 fails on the code: for three members of 22, 21 and 20 bytes at the
offsets 0, 22 and 43 the blocks have the sizes 23, 22 and 20; a block that is
not the last one reaches one byte into the next member. -/
theorem block_spans_overlap :
    find_gzip_members (List.replicate 10 0) sampleStream 1 =
      .ok (true, [newBlock 0 0 23 3, newBlock 1 22 22 2, newBlock 2 43 20 1]) ∧
    (0 : Int) + 23 ≠ 22 ∧ (22 : Int) + 22 ≠ 43 :=
  ⟨rfl, by decide, by decide⟩

set_option maxRecDepth 100000 in
/-- C20 fails on the code: in a block that holds the members of `abc` and of
`de`, both calls succeed and `actual_out_nbytes` is 3 + 2 = 5, but both calls
write at the start of the output buffer: it begins with `d e c`, not with
`a b c d e`. -/
theorem block_output_overwritten :
    find_gzip_members (List.replicate 10 0) twoMembersOneBlock 1 =
      .ok (true, [newBlock 0 0 43 2]) ∧
    (∀ fuel, jobBlock storedInflate twoMembersOneBlock (fuel + 2) (newBlock 0 0 43 5) =
      .ok { index := 0, offset := 0, compressed_size := 0, uncompressed_size := 5,
            compressed := 43, uncompressed := some [some 100, some 101, some 99, none, none],
            actual_out_nbytes := 5 }) ∧
    (∀ fuel, Unzip storedInflate (List.replicate 10 0) twoMembersOneBlock 1 (fuel + 2) =
      .ok { ok := true, total_out_size := 5,
            uncompressed_buffer := [some 100, some 101, some 99] ++ List.replicate 255 none }) := by
  refine ⟨rfl, fun fuel => ?_, fun fuel => ?_⟩
  · cases fuel <;> rfl
  · cases fuel <;> rfl

/-! ### Quality bytes of any value -/

/-- The signed lane comparison on a byte value: it holds from the threshold up to 127. -/
theorem asSignedChar_ge_iff (v b : Nat) (hv : v < 128) (hb : b < 256) :
    asSignedChar v ≤ asSignedChar b ↔ v ≤ b ∧ b ≤ 127 := by
  have h1 : b % 256 = b := Nat.mod_eq_of_lt hb
  rw [asSignedChar_small hv]
  unfold asSignedChar
  rw [h1]
  split <;> omega

theorem geCount_raw (v : Nat) (hv : v < 128) (q : List Nat) (hq : ∀ c ∈ q, c < 256) :
    geCount v q = q.countP (fun c => decide (v ≤ c ∧ c ≤ 127)) := by
  unfold geCount
  apply List.countP_congr
  intro c hc
  simp only [decide_eq_true_eq]
  exact asSignedChar_ge_iff v c hv (hq c hc)

/-- Scanning one record whose quality line holds any byte values. -/
theorem scan_record_raw {buffer : List Nat} {end_pos : Nat} (r : Record) (hr : r.RawQuality)
    (i : Nat) (post : List Nat) (st : ScanState)
    (hd : buffer.drop i = r.core ++ post) (hle : i + r.core.length ≤ end_pos) :
    scanLoop buffer end_pos (end_pos - i) i st =
      scanLoop buffer end_pos (end_pos - (i + r.core.length + 1)) (i + r.core.length + 1)
        { line_index := 3, yield := r.sequence.length,
          score_line := r.quality ++ List.replicate (SCORE_LINE_SIZE - r.quality.length) 0,
          stat := st.stat.add
            { linenum := 1, yield := r.sequence.length,
              q20_base := r.quality.countP (fun c => decide (53 ≤ c ∧ c ≤ 127)),
              q30_base := r.quality.countP (fun c => decide (63 ≤ c ∧ c ≤ 127)) } } := by
  obtain ⟨hH, hS1, hS2, hS, hP, hQlen, hQ, hQ64, hQ10, hQ0⟩ := hr
  rw [Record.core_length] at hle ⊢
  obtain ⟨H, S, P, Q⟩ := r
  simp only [Record.core, List.cons_append, List.append_assoc] at hd
  simp only at hH hS1 hS2 hS hP hQlen hQ hQ64 hQ10 hQ0 hle ⊢
  have d1 := drop_cons_succ hd
  rw [scan_step (by omega) (scanStep_at (drop_cons_getElem? hd))]
  rw [scan_plain_run H (i + 1) _ _ d1 hH (by simp) (by simp) (by omega)]
  have d2 := drop_append_add d1
  rw [scan_step (by omega) (scanStep_newline (drop_cons_getElem? d2) (by simp [INT_MAX]))]
  have d3 := drop_cons_succ d2
  rw [scan_base_run S _ _ _ d3 hS (by simp) (by simp [INT_MAX]; omega) (by omega)]
  have d4 := drop_append_add d3
  rw [scan_step (by omega) (scanStep_newline (drop_cons_getElem? d4) (by simp [INT_MAX]))]
  have d5 := drop_cons_succ d4
  rw [scan_plain_run P _ _ _ d5 hP (by simp) (by simp) (by omega)]
  have d6 := drop_append_add d5
  rw [scan_step (by omega) (scanStep_newline (drop_cons_getElem? d6) (by simp [INT_MAX]))]
  have d7 := drop_cons_succ d6
  obtain ⟨c, hc⟩ : ∃ c, Q.head? = some c := by
    cases Q with
    | nil => simp at hQlen; omega
    | cons c Q => exact ⟨c, rfl⟩
  have hc64 : c ≠ 64 := fun h => hQ64 (by rw [hc, h])
  have hc10 : c ≠ 10 := fun h => hQ10 (by rw [hc, h])
  have hc0 : c ≠ 0 := fun h => hQ0 (by rw [hc, h])
  rw [scan_step (by omega) (scanStep_quality d7 hc hc64 hc10 hc0 (by simp)
    (by simp [hQlen]) (by simp [SCORE_LINE_SIZE]; omega) (by simp))]
  rw [geCount_raw 53 (by omega) Q hQ, geCount_raw 63 (by omega) Q hQ]
  have e : i + 1 + H.length + 1 + S.length + 1 + P.length + 1 + S.length + 1 =
      i + (H.length + S.length + P.length + S.length + 4) + 1 := by omega
  simp only [hQlen, Stat.add]
  rw [e]

/-- C19, amended: for a record whose quality line holds any byte values 0..255
(its first byte not NUL, newline or `@`), `find_qc_pos_job` counts a quality
byte `b` towards `q20_base` exactly when `53 ≤ b ≤ 127` and towards `q30_base`
exactly when `63 ≤ b ≤ 127`: the lane comparison is on signed bytes, so a byte
of 128 or more meets neither threshold. -/
theorem signed_thresholds (r : Record) (stack : List Nat) (stat : Stat) (hr : r.RawQuality) :
    find_qc_pos_job r.bytes 0 r.bytes.length stack stat =
      .ok (stat.add
        { linenum := 1, yield := r.sequence.length,
          q20_base := r.quality.countP (fun b => decide (53 ≤ b ∧ b ≤ 127)),
          q30_base := r.quality.countP (fun b => decide (63 ≤ b ∧ b ≤ 127)) }) := by
  unfold find_qc_pos_job
  have hlen : r.bytes.length = r.core.length + 1 := by simp [Record.bytes]
  rw [scan_record_raw r hr 0 [10] _ (by simp [Record.bytes]) (by omega),
    scanLoop_done _ _ _ _ _ (by omega)]

/-- C19 at a concrete record: quality bytes 200, 53, 62, 63, 127 and 128 give
four bytes for Q20 (53, 62, 63, 127) and two for Q30 (63, 127). -/
theorem signed_thresholds_witness :
    find_qc_pos_job
        [64, 97, 10, 65, 67, 71, 84, 65, 67, 10, 43, 10, 200, 53, 62, 63, 127, 128, 10]
        0 19 (List.replicate 256 200) Stat.zero
      = .ok { linenum := 1, yield := 6, q20_base := 4, q30_base := 2 } :=
  signed_thresholds ⟨[97], [65, 67, 71, 84, 65, 67], [43], [200, 53, 62, 63, 127, 128]⟩
    (List.replicate 256 200) Stat.zero (by decide)

/-- C19 as stated fails: a one-base record whose quality byte is 200, which is
at least 53 and at least 63 as an unsigned value, is counted towards neither
`q20_base` nor `q30_base`. -/
theorem unsigned_thresholds_fail :
    (53 ≤ 200 ∧ 63 ≤ 200 ∧ 200 ≤ 255) ∧
    ∀ stack, find_qc_pos_job [64, 97, 10, 65, 10, 43, 10, 200, 10] 0 9 stack Stat.zero =
      .ok { linenum := 1, yield := 1, q20_base := 0, q30_base := 0 } :=
  ⟨by decide, fun stack =>
    signed_thresholds ⟨[97], [65], [43], [200]⟩ stack Stat.zero (by decide)⟩

/-! ### Order of the discovered blocks -/

/-- The blocks that `pairLoop` makes on ascending offsets: their offsets are
strictly ascending, lie below the last offset, and are all the offsets that
differ from the last one. -/
theorem pairLoop_offsets (under buffer : List Nat) :
    ∀ (l : List Int) (index : Int) (dest dest' : List GZIP_BLOCK) (index' : Int),
      l.Sorted (fun a b => a ≤ b) →
      pairLoop under buffer l index dest = .ok (dest', index') →
      ∃ P : List Int, dest'.map (fun b => b.offset) = dest.map (fun b => b.offset) ++ P ∧
        P.Pairwise (fun a b => a < b) ∧
        (∀ x ∈ P, x ∈ l ∧ ∀ last, l.getLast? = some last → x < last) ∧
        (∀ x ∈ l, ∀ last, l.getLast? = some last → x ≠ last → x ∈ P) := by
  intro l
  induction l with
  | nil =>
    intro index dest dest' index' _ h
    simp only [pairLoop, Except.ok.injEq, Prod.mk.injEq] at h
    exact ⟨[], by simp [h.1], List.Pairwise.nil, by simp, by simp⟩
  | cons a l ih =>
    intro index dest dest' index' hs h
    cases l with
    | nil =>
      simp only [pairLoop, Except.ok.injEq, Prod.mk.injEq] at h
      refine ⟨[], by simp [h.1], List.Pairwise.nil, by simp, ?_⟩
      intro x hx last hl hne
      simp only [List.getLast?_singleton, Option.some.injEq] at hl
      simp only [List.mem_singleton] at hx
      exact absurd (hx.trans hl) hne
    | cons b rest =>
      have hs' : (b :: rest).Sorted (fun a b => a ≤ b) := (List.sorted_cons.mp hs).2
      have hab : a ≤ b := (List.sorted_cons.mp hs).1 b (by simp)
      have hbx : ∀ x ∈ b :: rest, b ≤ x := by
        intro x hx
        rcases List.mem_cons.mp hx with rfl | hx
        · exact le_refl _
        · exact (List.sorted_cons.mp hs').1 x hx
      simp only [pairLoop] at h
      split at h
      · rename_i heq
        obtain ⟨P, hP, hpw, hin, hall⟩ := ih _ _ _ _ hs' h
        refine ⟨P, hP, hpw, ?_, ?_⟩
        · intro x hx
          refine ⟨List.mem_cons_of_mem _ (hin x hx).1, ?_⟩
          intro last hl
          rw [List.getLast?_cons_cons] at hl
          exact (hin x hx).2 last hl
        · intro x hx last hl hne
          rw [List.getLast?_cons_cons] at hl
          rcases List.mem_cons.mp hx with rfl | hx
          · exact hall x (by rw [heq]; simp) last hl hne
          · exact hall x hx last hl hne
      · rename_i hne
        split at h
        · cases h
        · obtain ⟨P, hP, hpw, hin, hall⟩ := ih _ _ _ _ hs' h
          have hlt : a < b := lt_of_le_of_ne hab hne
          refine ⟨a :: P, by simp [hP, newBlock], ?_, ?_, ?_⟩
          · refine List.pairwise_cons.mpr ⟨?_, hpw⟩
            intro x hx
            exact lt_of_lt_of_le hlt (hbx x (hin x hx).1)
          · intro x hx
            rcases List.mem_cons.mp hx with rfl | hx
            · refine ⟨by simp, ?_⟩
              intro last hl
              rw [List.getLast?_cons_cons] at hl
              exact lt_of_lt_of_le hlt (hbx last (List.mem_of_getLast?_eq_some hl))
            · refine ⟨List.mem_cons_of_mem _ (hin x hx).1, ?_⟩
              intro last hl
              rw [List.getLast?_cons_cons] at hl
              exact (hin x hx).2 last hl
          · intro x hx last hl hne'
            rw [List.getLast?_cons_cons] at hl
            rcases List.mem_cons.mp hx with rfl | hx
            · simp
            · exact List.mem_cons_of_mem _ (hall x hx last hl hne')

/-- The offsets of the blocks of a successful `find_gzip_members` are strictly
ascending and are exactly the offsets that the scan workers found. -/
theorem find_gzip_members_offsets (under buffer : List Nat) (core : Nat)
    (blocks : List GZIP_BLOCK) (h : find_gzip_members under buffer core = .ok (true, blocks)) :
    ∃ offsets, gatherOffsets under buffer core (List.range core) [] = .ok offsets ∧
      (blocks.map (fun b => b.offset)).Pairwise (fun a b => a < b) ∧
      ∀ o, o ∈ blocks.map (fun b => b.offset) ↔ o ∈ offsets := by
  unfold find_gzip_members at h
  split at h
  · cases h
  · split at h
    · cases h
    · rename_i offsets hg
      refine ⟨offsets, hg, ?_⟩
      split at h
      · simp at h
      · rename_i o
        split at h
        · cases h
        · simp only [Except.ok.injEq, Prod.mk.injEq, true_and] at h
          subst h
          simp [newBlock]
      · rename_i o o2 rest
        simp only at h
        have hsorted : (sortOffsets (o :: o2 :: rest)).Sorted (fun a b => a ≤ b) :=
          List.sorted_insertionSort _ _
        have hperm : (sortOffsets (o :: o2 :: rest)).Perm (o :: o2 :: rest) :=
          List.perm_insertionSort _ _
        have hne : sortOffsets (o :: o2 :: rest) ≠ [] := by
          intro hnil
          have := hperm.length_eq
          rw [hnil] at this
          simp at this
        obtain ⟨last, hlast⟩ : ∃ last, (sortOffsets (o :: o2 :: rest)).getLast? = some last :=
          ⟨_, List.getLast?_eq_getLast _ hne⟩
        have hD : (sortOffsets (o :: o2 :: rest)).getLastD o = last := by
          rw [List.getLastD_eq_getLast?, hlast]; rfl
        rw [hD] at h
        split at h
        · cases h
        · rename_i dest index hpl
          obtain ⟨P, hP, hpw, hin, hall⟩ := pairLoop_offsets under buffer _ _ _ _ _ hsorted hpl
          simp only [List.map_nil, List.nil_append] at hP
          split at h
          · cases h
          · rename_i back hback
            have hbackP : back.offset ∈ P := by
              rw [← hP]
              exact List.mem_map_of_mem _ (List.mem_of_getLast?_eq_some hback)
            have hbl : back.offset < last := (hin _ hbackP).2 last hlast
            split at h
            · split at h
              · cases h
              · simp only [Except.ok.injEq, Prod.mk.injEq, true_and] at h
                subst h
                simp only [List.map_append, List.map_cons, List.map_nil, hP, newBlock]
                refine ⟨?_, ?_⟩
                · rw [List.pairwise_append]
                  refine ⟨hpw, List.pairwise_singleton _ _, ?_⟩
                  intro x hx y hy
                  rw [List.mem_singleton] at hy
                  rw [hy]
                  exact (hin x hx).2 last hlast
                · intro x
                  rw [List.mem_append, List.mem_singleton, ← hperm.mem_iff]
                  constructor
                  · rintro (hx | rfl)
                    · exact (hin x hx).1
                    · exact List.mem_of_getLast?_eq_some hlast
                  · intro hx
                    by_cases hxl : x = last
                    · exact Or.inr hxl
                    · exact Or.inl (hall x hx last hlast hxl)
            · rename_i hcon
              exact absurd (not_not.mp hcon) (ne_of_gt hbl)

/-- C15: when `find_gzip_members` returns true, the offsets of the returned
blocks are strictly increasing, every offset found by the scan workers is the
offset of exactly one returned block, and every block has such an offset. -/
theorem block_offsets_strictly_increasing (under buffer : List Nat) (core : Nat)
    (blocks : List GZIP_BLOCK) (h : find_gzip_members under buffer core = .ok (true, blocks)) :
    (blocks.map (fun b => b.offset)).Pairwise (fun a b => a < b) ∧
    ∃ offsets, gatherOffsets under buffer core (List.range core) [] = .ok offsets ∧
      (∀ o ∈ offsets, blocks.countP (fun b => decide (b.offset = o)) = 1) ∧
      (∀ b ∈ blocks, b.offset ∈ offsets) := by
  obtain ⟨offsets, hg, hpw, hmem⟩ := find_gzip_members_offsets under buffer core blocks h
  refine ⟨hpw, offsets, hg, ?_, ?_⟩
  · intro o ho
    have hnd : (blocks.map (fun b => b.offset)).Nodup := hpw.imp (fun hab => ne_of_lt hab)
    have hc := List.count_eq_one_of_mem hnd ((hmem o).mpr ho)
    rw [List.count_eq_countP, List.countP_map] at hc
    rw [← hc]
    apply List.countP_congr
    intro b _
    simp
  · intro b hb
    exact (hmem b.offset).mp (List.mem_map_of_mem _ hb)

/-- C15 at a concrete stream: three members at the offsets 0, 22 and 43, found
by four scan workers. -/
theorem block_offsets_strictly_increasing_witness :
    find_gzip_members (List.replicate 10 0) sampleStream 4 =
      .ok (true, [newBlock 0 0 23 3, newBlock 1 22 22 2, newBlock 2 43 20 1]) ∧
    ([newBlock 0 0 23 3, newBlock 1 22 22 2, newBlock 2 43 20 1].map
      (fun b => b.offset)).Pairwise (fun a b => a < b) :=
  ⟨rfl, (block_offsets_strictly_increasing (List.replicate 10 0) sampleStream 4
    [newBlock 0 0 23 3, newBlock 1 22 22 2, newBlock 2 43 20 1] rfl).1⟩

/-! ### Order of the counters -/

theorem geCount_le_length (v : Nat) (l : List Nat) : geCount v l ≤ l.length :=
  List.countP_le_length _

theorem geCount_take_le (v n : Nat) (l : List Nat) : geCount v (l.take n) ≤ geCount v l :=
  (List.take_sublist n l).countP_le _

theorem geCount_63_le_53 (l : List Nat) : geCount 63 l ≤ geCount 53 l := by
  unfold geCount
  apply List.countP_mono_left
  intro x _ hx
  simp only [decide_eq_true_eq] at hx ⊢
  have h : asSignedChar 53 ≤ asSignedChar 63 := by decide
  exact le_trans h hx

theorem geCount_all_zero (v : Nat) (hv : 0 < v % 256) (hv2 : v % 256 < 128) (l : List Nat)
    (hl : ∀ x ∈ l, x = 0) : geCount v l = 0 := by
  have h : l = List.replicate l.length 0 := List.eq_replicate_iff.mpr ⟨rfl, hl⟩
  rw [h]
  exact geCount_zeros v _ hv hv2

theorem Stat.Ordered.add {a b : Stat} (ha : a.Ordered) (hb : b.Ordered) : (a.add b).Ordered := by
  unfold Stat.Ordered Stat.add at *
  simp only
  omega

/-- The percentages of a Stat with ordered counters, for every rounding that
is monotone and keeps 0, 1 and 100: neither exceeds 100 and Q30 does not
exceed Q20; at `yield = 0` both are NaN, else both are finite. -/
theorem Stat.Ordered.percent (fl : ℚ → ℚ) (hfl : Monotone fl) (h0 : fl 0 = 0) (h1 : fl 1 = 1)
    (h100 : fl 100 = 100) {s : Stat} (h : s.Ordered) :
    (Q20 fl s).gt (.finite 100) = false ∧ (Q30 fl s).gt (Q20 fl s) = false ∧
    (s.yield = 0 → Q20 fl s = .nan ∧ Q30 fl s = .nan) ∧
    (0 < s.yield → ∃ x y : ℚ,
      Q30 fl s = .finite x ∧ Q20 fl s = .finite y ∧ x ≤ y ∧ y ≤ 100) := by
  obtain ⟨o1, o2⟩ := h
  by_cases hy : s.yield = 0
  · have h20 : s.q20_base = 0 := by omega
    have h30 : s.q30_base = 0 := by omega
    have e20 : Q20 fl s = .nan := by simp [Q20, hy, h20, h0]
    have e30 : Q30 fl s = .nan := by simp [Q30, hy, h30, h0]
    refine ⟨by rw [e20]; rfl, by rw [e30, e20]; rfl, fun _ => ⟨e20, e30⟩, fun hpos => ?_⟩
    omega
  · have hb1 : (1 : ℚ) ≤ fl (s.yield : ℚ) := by
      rw [← h1]
      apply hfl
      have : 1 ≤ s.yield := by omega
      exact_mod_cast this
    have hb : fl (s.yield : ℚ) ≠ 0 := by
      intro e
      rw [e] at hb1
      norm_num at hb1
    have hbpos : (0 : ℚ) ≤ fl (s.yield : ℚ) := le_trans (by norm_num) hb1
    have ha : fl (s.q30_base : ℚ) ≤ fl (s.q20_base : ℚ) := hfl (Nat.cast_le.mpr o1)
    have hab : fl (s.q20_base : ℚ) ≤ fl (s.yield : ℚ) := hfl (Nat.cast_le.mpr o2)
    have hx : fl (fl (fl (s.q30_base : ℚ) / fl (s.yield : ℚ)) * 100) ≤
        fl (fl (fl (s.q20_base : ℚ) / fl (s.yield : ℚ)) * 100) := by
      apply hfl
      have := hfl (div_le_div_of_nonneg_right ha hbpos)
      linarith
    have hy100 : fl (fl (fl (s.q20_base : ℚ) / fl (s.yield : ℚ)) * 100) ≤ 100 := by
      rw [← h100]
      apply hfl
      have hq : fl (s.q20_base : ℚ) / fl (s.yield : ℚ) ≤ 1 := div_le_one_of_le₀ hab hbpos
      have := hfl hq
      rw [h1] at this
      rw [h100]
      linarith
    have e20 : Q20 fl s =
        .finite (fl (fl (fl (s.q20_base : ℚ) / fl (s.yield : ℚ)) * 100)) := by
      simp [Q20, hb]
    have e30 : Q30 fl s =
        .finite (fl (fl (fl (s.q30_base : ℚ) / fl (s.yield : ℚ)) * 100)) := by
      simp [Q30, hb]
    refine ⟨?_, ?_, fun h => absurd h hy, fun _ => ⟨_, _, e30, e20, hx, hy100⟩⟩
    · rw [e20]
      simp only [DoubleValue.gt, decide_eq_false_iff_not, not_lt]
      exact hy100
    · rw [e30, e20]
      simp only [DoubleValue.gt, decide_eq_false_iff_not, not_lt]
      exact hx

/-- One round of the scan keeps two facts: the staging buffer is zero from
index `yield` on, and the counters are ordered.  A round on `@` clears the
staging buffer, so it needs no clean buffer to start from. -/
theorem scanStep_ordered {buffer : List Nat} {i i' : Nat} {st st' : ScanState}
    (hz : (∀ x ∈ st.score_line.drop st.yield, x = 0) ∨ buffer[i]? = some 64)
    (ho : st.stat.Ordered) (h : scanStep buffer i st = .ok (i', st')) :
    (∀ x ∈ st'.score_line.drop st'.yield, x = 0) ∧ st'.stat.Ordered := by
  unfold scanStep at h
  cases hb : buffer[i]? with
  | none => rw [hb] at h; cases h
  | some c =>
    rw [hb] at h
    simp only at h
    obtain ⟨st1, hst1, hz1, ho1⟩ : ∃ st1 : ScanState,
        (if c = 64 then
          ({ line_index := 0, yield := 0, score_line := List.replicate SCORE_LINE_SIZE 0,
             stat := { st.stat with linenum := st.stat.linenum + 1 } } : ScanState)
        else st) = st1 ∧ (∀ x ∈ st1.score_line.drop st1.yield, x = 0) ∧ st1.stat.Ordered := by
      by_cases hc : c = 64
      · refine ⟨_, rfl, ?_, ?_⟩
        · simp only [hc, if_true, List.drop_zero]
          intro x hx
          exact (List.mem_replicate.mp hx).2
        · simp only [hc, if_true]
          exact ho
      · refine ⟨st, by simp [hc], ?_, ho⟩
        rcases hz with hz | hz
        · exact hz
        · rw [hb] at hz
          exact absurd (Option.some.inj hz) hc
    rw [hst1] at h
    split at h
    · split at h
      · simp only [Except.ok.injEq, Prod.mk.injEq] at h
        rw [← h.2]
        exact ⟨hz1, ho1⟩
      · cases h
    · split at h
      · split at h
        · cases h
        · obtain ⟨st2, hst2, hz2, ho2⟩ : ∃ st2 : ScanState,
              (if st1.line_index = 1 then { st1 with yield := st1.yield + 1 } else st1) = st2 ∧
              (∀ x ∈ st2.score_line.drop st2.yield, x = 0) ∧ st2.stat.Ordered := by
            by_cases h1 : st1.line_index = 1
            · refine ⟨_, rfl, ?_, ?_⟩
              · simp only [h1, if_true]
                intro x hx
                apply hz1 x
                have e : st1.score_line.drop (st1.yield + 1) =
                    (st1.score_line.drop st1.yield).drop 1 := by
                  rw [List.drop_drop, Nat.add_comm]
                rw [e] at hx
                exact List.mem_of_mem_drop hx
              · simp only [h1, if_true]
                exact ho1
            · exact ⟨st1, by simp [h1], hz1, ho1⟩
          simp only [hst2] at h
          split at h
          · split at h
            · cases h
            · rename_i score_line hcopy
              simp only [Except.ok.injEq, Prod.mk.injEq] at h
              rw [← h.2]
              unfold memcpyScore at hcopy
              split at hcopy
              · cases hcopy
              · split at hcopy
                · cases hcopy
                · rename_i hcap hlen
                  simp only [Except.ok.injEq] at hcopy
                  have hq : ((buffer.drop i).take st2.yield).length = st2.yield := by
                    rw [List.length_take, List.length_drop]
                    omega
                  have hdrop : score_line.drop st2.yield = st2.score_line.drop st2.yield := by
                    rw [← hcopy]
                    exact List.drop_left' hq
                  refine ⟨by simpa only [hdrop] using hz2, ?_⟩
                  rw [laneLoop_eq]
                  have h53 : geCount 53 score_line =
                      geCount 53 ((buffer.drop i).take st2.yield) := by
                    rw [← hcopy, geCount_append,
                      geCount_all_zero 53 (by decide) (by decide) _ hz2]
                    rfl
                  have a1 := geCount_take_le 53 ((st2.yield + 63) / 64 * 64) score_line
                  have a2 := geCount_le_length 53 ((buffer.drop i).take st2.yield)
                  have a3 := geCount_63_le_53 (score_line.take ((st2.yield + 63) / 64 * 64))
                  obtain ⟨o1, o2⟩ := ho2
                  unfold Stat.Ordered
                  simp only
                  omega
          · simp only [Except.ok.injEq, Prod.mk.injEq] at h
            rw [← h.2]
            exact ⟨hz2, ho2⟩
      · simp only [Except.ok.injEq, Prod.mk.injEq] at h
        rw [← h.2]
        exact ⟨hz1, ho1⟩

/-- The scan loop returns ordered counters when it starts on ordered counters
and either on a clean staging buffer or on a `@`. -/
theorem scanLoop_ordered (buffer : List Nat) (end_pos : Nat) :
    ∀ (fuel i : Nat) (st : ScanState) (s : Stat),
      ((∀ x ∈ st.score_line.drop st.yield, x = 0) ∨ buffer[i]? = some 64) →
      st.stat.Ordered → scanLoop buffer end_pos fuel i st = .ok s → s.Ordered := by
  intro fuel
  induction fuel with
  | zero =>
    intro i st s _ ho h
    simp only [scanLoop] at h
    split at h
    · simp only [Except.ok.injEq] at h
      rw [← h]; exact ho
    · cases h
  | succ fuel ih =>
    intro i st s hz ho h
    simp only [scanLoop] at h
    split at h
    · simp only [Except.ok.injEq] at h
      rw [← h]; exact ho
    · split at h
      · cases h
      · rename_i i' st' hs
        obtain ⟨hz', ho'⟩ := scanStep_ordered hz ho hs
        exact ih i' st' s (Or.inl hz') ho' h

theorem foldl_add_ordered (stats : List Stat) :
    ∀ s : Stat, s.Ordered → (∀ t ∈ stats, t.Ordered) → (stats.foldl Stat.add s).Ordered := by
  induction stats with
  | nil => intro s hs _; exact hs
  | cons t stats ih =>
    intro s hs ht
    exact ih (s.add t) (hs.add (ht t (by simp))) (fun u hu => ht u (List.mem_cons_of_mem _ hu))

/-- C21: when the range starts on `@` and `find_qc_pos_job` returns from a zero
Stat (no staged copy left the staging buffer or the buffer), the returned Stat
has `q30_base ≤ q20_base ≤ yield`; the doubles Q20 and Q30 that `main` derives
do not exceed 100 and Q30 does not exceed Q20, for every rounding `fl` that is
monotone and keeps 0, 1 and 100: at `yield = 0` both are NaN, which exceeds
nothing, and else both are finite with `Q30 ≤ Q20 ≤ 100`.  The same holds for
the sum of this Stat and any further Stats with ordered counters. -/
theorem counter_ordering (fl : ℚ → ℚ) (hfl : Monotone fl) (h0 : fl 0 = 0) (h1 : fl 1 = 1)
    (h100 : fl 100 = 100) (buffer stack : List Nat) (start_pos end_pos : Nat) (s : Stat)
    (hfirst : buffer[start_pos]? = some 64)
    (h : find_qc_pos_job buffer start_pos end_pos stack Stat.zero = .ok s) :
    (s.q30_base ≤ s.q20_base ∧ s.q20_base ≤ s.yield) ∧
    ((Q20 fl s).gt (.finite 100) = false ∧ (Q30 fl s).gt (Q20 fl s) = false ∧
      (s.yield = 0 → Q20 fl s = .nan ∧ Q30 fl s = .nan) ∧
      (0 < s.yield → ∃ x y : ℚ,
        Q30 fl s = .finite x ∧ Q20 fl s = .finite y ∧ x ≤ y ∧ y ≤ 100)) ∧
    ∀ stats : List Stat, (∀ t ∈ stats, t.q30_base ≤ t.q20_base ∧ t.q20_base ≤ t.yield) →
      ∀ total : Stat, total = stats.foldl Stat.add s →
        (total.q30_base ≤ total.q20_base ∧ total.q20_base ≤ total.yield) ∧
        (Q20 fl total).gt (.finite 100) = false ∧ (Q30 fl total).gt (Q20 fl total) = false ∧
        (total.yield = 0 → Q20 fl total = .nan ∧ Q30 fl total = .nan) ∧
        (0 < total.yield → ∃ x y : ℚ,
          Q30 fl total = .finite x ∧ Q20 fl total = .finite y ∧ x ≤ y ∧ y ≤ 100) := by
  have hs : s.Ordered := by
    unfold find_qc_pos_job at h
    exact scanLoop_ordered buffer end_pos _ _ _ s (Or.inr hfirst)
      (by unfold Stat.Ordered Stat.zero; simp) h
  refine ⟨hs, hs.percent fl hfl h0 h1 h100, ?_⟩
  intro stats hstats total htotal
  have hsum : total.Ordered := by
    rw [htotal]
    exact foldl_add_ordered stats s hs hstats
  exact ⟨hsum, hsum.percent fl hfl h0 h1 h100⟩

set_option maxRecDepth 100000 in
/-- C21 at two concrete buffers, with the rounding that changes nothing: two
records scanned from a stack full of high bytes give the counters 4 ≤ 5 ≤ 6
and finite percentages; the buffer `@a` with its newline gives `yield = 0`,
and both percentages are NaN. -/
theorem counter_ordering_witness :
    (find_qc_pos_job
        [64, 97, 10, 65, 67, 71, 84, 10, 43, 10, 73, 64, 73, 73, 10,
         64, 98, 10, 65, 67, 10, 43, 10, 53, 33]
        0 25 (List.replicate 256 73) Stat.zero
      = .ok { linenum := 2, yield := 6, q20_base := 5, q30_base := 4 } ∧
      ((4 : Nat) ≤ 5 ∧ (5 : Nat) ≤ 6) ∧
      ∃ x y : ℚ, Q30 id { linenum := 2, yield := 6, q20_base := 5, q30_base := 4 } = .finite x ∧
        Q20 id { linenum := 2, yield := 6, q20_base := 5, q30_base := 4 } = .finite y ∧
        x ≤ y ∧ y ≤ 100) ∧
    (find_qc_pos_job [64, 97, 10] 0 3 [] Stat.zero
      = .ok { linenum := 1, yield := 0, q20_base := 0, q30_base := 0 } ∧
      Q20 id { linenum := 1, yield := 0, q20_base := 0, q30_base := 0 } = .nan ∧
      Q30 id { linenum := 1, yield := 0, q20_base := 0, q30_base := 0 } = .nan) :=
  ⟨⟨rfl,
    (counter_ordering id monotone_id rfl rfl rfl
      [64, 97, 10, 65, 67, 71, 84, 10, 43, 10, 73, 64, 73, 73, 10,
       64, 98, 10, 65, 67, 10, 43, 10, 53, 33]
      (List.replicate 256 73) 0 25 { linenum := 2, yield := 6, q20_base := 5, q30_base := 4 }
      rfl rfl).1,
    (counter_ordering id monotone_id rfl rfl rfl
      [64, 97, 10, 65, 67, 71, 84, 10, 43, 10, 73, 64, 73, 73, 10,
       64, 98, 10, 65, 67, 10, 43, 10, 53, 33]
      (List.replicate 256 73) 0 25 { linenum := 2, yield := 6, q20_base := 5, q30_base := 4 }
      rfl rfl).2.1.2.2.2 (by decide)⟩,
   ⟨rfl,
    (counter_ordering id monotone_id rfl rfl rfl [64, 97, 10] [] 0 3
      { linenum := 1, yield := 0, q20_base := 0, q30_base := 0 } rfl rfl).2.1.2.2.1 rfl⟩⟩

/-! ### Reads longer than the staging buffer -/

theorem scanLoop_fault {buffer : List Nat} {end_pos i : Nat} {st : ScanState} {e : Fault}
    (h : i < end_pos) (hs : scanStep buffer i st = .error e) :
    scanLoop buffer end_pos (end_pos - i) i st = .error e := by
  obtain ⟨k, hk⟩ : ∃ k, end_pos - i = k + 1 := ⟨end_pos - i - 1, by omega⟩
  rw [hk]
  simp [scanLoop, Nat.not_le.mpr h, hs]

/-- The first byte of a quality line that is reached with more than 256 bases
counted: the copy into the staging buffer writes past its end. -/
theorem scanStep_overrun {buffer : List Nat} {i c : Nat} {st : ScanState}
    (hc : buffer[i]? = some c) (h64 : c ≠ 64) (h10 : c ≠ 10) (h0 : c ≠ 0)
    (h3 : st.line_index = 3) (hy : SCORE_LINE_SIZE < st.yield) :
    scanStep buffer i st = .error .stagingOverrun := by
  simp [scanStep, hc, h64, h10, h0, h3, memcpyScore, hy]

/-- Scanning a record whose sequence line has more than 256 bases: the scan
reaches the quality line and overruns the staging buffer. -/
theorem scan_long_record {buffer : List Nat} {end_pos : Nat} (r : Record)
    (hH : ∀ c ∈ r.header, c ≠ 64 ∧ c ≠ 10)
    (hS1 : SCORE_LINE_SIZE < r.sequence.length) (hS2 : r.sequence.length ≤ INT_MAX)
    (hS : ∀ c ∈ r.sequence, c ≠ 64 ∧ c ≠ 10 ∧ c ≠ 0)
    (hP : ∀ c ∈ r.separator, c ≠ 64 ∧ c ≠ 10)
    (hQ64 : r.quality.head? ≠ some 64) (hQ10 : r.quality.head? ≠ some 10)
    (hQ0 : r.quality.head? ≠ some 0) (hQ : r.quality ≠ [])
    (i : Nat) (post : List Nat) (st : ScanState)
    (hd : buffer.drop i = r.core ++ post) (hle : i + r.core.length ≤ end_pos) :
    scanLoop buffer end_pos (end_pos - i) i st = .error .stagingOverrun := by
  rw [Record.core_length] at hle
  obtain ⟨H, S, P, Q⟩ := r
  simp only [Record.core, List.cons_append, List.append_assoc] at hd
  simp only at hH hS1 hS2 hS hP hQ64 hQ10 hQ0 hQ hle
  obtain ⟨c, Q', rfl⟩ : ∃ c Q', Q = c :: Q' := by
    cases Q with
    | nil => exact absurd rfl hQ
    | cons c Q' => exact ⟨c, Q', rfl⟩
  simp only [List.length_cons] at hle
  have d1 := drop_cons_succ hd
  rw [scan_step (by omega) (scanStep_at (drop_cons_getElem? hd))]
  rw [scan_plain_run H (i + 1) _ _ d1 hH (by simp) (by simp) (by omega)]
  have d2 := drop_append_add d1
  rw [scan_step (by omega) (scanStep_newline (drop_cons_getElem? d2) (by simp [INT_MAX]))]
  have d3 := drop_cons_succ d2
  rw [scan_base_run S _ _ _ d3 hS (by simp) (by simp; omega) (by omega)]
  have d4 := drop_append_add d3
  rw [scan_step (by omega) (scanStep_newline (drop_cons_getElem? d4) (by simp [INT_MAX]))]
  have d5 := drop_cons_succ d4
  rw [scan_plain_run P _ _ _ d5 hP (by simp) (by simp) (by omega)]
  have d6 := drop_append_add d5
  rw [scan_step (by omega) (scanStep_newline (drop_cons_getElem? d6) (by simp [INT_MAX]))]
  have d7 := drop_cons_succ d6
  exact scanLoop_fault (by omega)
    (scanStep_overrun (drop_cons_getElem? d7) (by simpa using hQ64) (by simpa using hQ10)
      (by simpa using hQ0) (by simp) (by simpa using hS1))

/-- A record of `L > 256` bases `A` and `L` quality bytes `v`: the scan overruns
the staging buffer. -/
theorem uniformRecord_overrun (L v : Nat) (hL : SCORE_LINE_SIZE < L) (hL2 : L ≤ INT_MAX)
    (h64 : v ≠ 64) (h10 : v ≠ 10) (h0 : v ≠ 0) (stack : List Nat) (stat : Stat) :
    find_qc_pos_job (uniformRecord L v).bytes 0 (uniformRecord L v).bytes.length stack stat =
      .error .stagingOverrun := by
  unfold find_qc_pos_job
  obtain ⟨n, rfl⟩ : ∃ n, L = n + 1 := ⟨L - 1, by omega⟩
  have hq : (uniformRecord (n + 1) v).quality.head? = some v := by
    simp [uniformRecord, List.replicate_succ]
  exact scan_long_record (uniformRecord (n + 1) v)
    (by simp [uniformRecord])
    (by simpa [uniformRecord] using hL) (by simpa [uniformRecord] using hL2)
    (by simp [uniformRecord]) (by simp [uniformRecord])
    (by rw [hq]; simpa using h64) (by rw [hq]; simpa using h10) (by rw [hq]; simpa using h0)
    (by simp [uniformRecord])
    0 [10] _ (by simp [Record.bytes]) (by simp [Record.bytes])

/-- C24 fails on the code: a record with a read of 300 bases (and 300 quality
bytes `I`) is scanned with `yield = 300` when the quality line is reached, and
the copy of 300 bytes into the 256 bytes of `score_line` writes past its end,
whatever the stack held before. -/
theorem staging_copy_overruns :
    SCORE_LINE_SIZE = 256 ∧
    ∀ stack : List Nat,
      find_qc_pos_job (uniformRecord 300 73).bytes 0 (uniformRecord 300 73).bytes.length
        stack Stat.zero = .error .stagingOverrun :=
  ⟨rfl, fun stack => uniformRecord_overrun 300 73 (by decide) (by decide) (by decide)
    (by decide) (by decide) stack Stat.zero⟩

/-! ### The worker count per file -/

/-- For a thread count that is not negative, the worker count per file is
`(2 * thread_count + 1) / 4`, rounded down. -/
theorem thread_count_per_file_eq (t : Int) (h : 0 ≤ t) :
    thread_count_per_file t = (2 * t + 1) / 4 := by
  unfold thread_count_per_file file_count
  rw [Int.tdiv_eq_ediv (by omega) (by decide)]
  rfl

/-- From a thread count of 2 on, every file gets at least one worker. -/
theorem thread_count_per_file_pos (t : Int) (h : 2 ≤ t) : 1 ≤ thread_count_per_file t := by
  rw [thread_count_per_file_eq t (by omega)]
  omega

/-- C23 fails on the code: for the thread count 1 the worker count per file is
the truncation of 1.5 / 2 = 0.75, which is 0; with it `Calculate` divides
`buffer_size` by zero, `find_gzip_members` divides `file_size` by zero, and so
`Unzip` does not return either. -/
theorem worker_count_zero :
    thread_count_per_file 1 = 0 ∧
    (∀ (buffer : List Nat) (buffer_size : Nat) (stackOf : Nat → List Nat) (stat_file : Stat),
      Calculate buffer buffer_size (thread_count_per_file 1).toNat stackOf stat_file =
        .error .divByZero) ∧
    (∀ under buffer : List Nat,
      find_gzip_members under buffer (thread_count_per_file 1).toNat = .error .divByZero) ∧
    (∀ (inflate : Inflate) (under buffer : List Nat) (fuel : Nat),
      Unzip inflate under buffer (thread_count_per_file 1).toNat fuel = .error .divByZero) :=
  ⟨rfl, fun _ _ _ _ => rfl, fun _ _ => rfl, fun _ _ _ _ => rfl⟩

/-! ### Growing an output buffer of no bytes -/

/-- A block with bytes left to decode and an output buffer of 0 bytes, on which
the primitive reports insufficient space: doubling 0 gives 0, the round ends
in the state it started from, and no number of rounds ends the loop. -/
theorem jobLoop_zero_capacity (inflate : Inflate) (buffer : List Nat) (block : GZIP_BLOCK)
    (input : List Nat) (hsize : block.compressed_size ≠ 0) (hcap : block.uncompressed_size = 0)
    (hbuf : block.uncompressed = some [])
    (hin : inflateInput buffer block.compressed block.compressed_size = .ok input)
    (hres : (inflate input 0).result = .LIBDEFLATE_INSUFFICIENT_SPACE)
    (hout : (inflate input 0).out = []) :
    ∀ fuel a b : Nat, jobLoop inflate buffer fuel a b block = .error .outOfFuel := by
  intro fuel
  induction fuel with
  | zero => intro a b; simp [jobLoop, hsize]
  | succ fuel ih =>
    intro a b
    have hb : ({ block with uncompressed_size := block.uncompressed_size * 2,
                            uncompressed := some (newChars (block.uncompressed_size * 2)) } :
        GZIP_BLOCK) = block := by
      obtain ⟨_, _, _, _, _, _, _⟩ := block
      simp only at hcap hbuf
      subst hcap hbuf
      simp [newChars]
    simp only [jobLoop, hsize, if_false, hin, hcap, Int.toNat_zero, hbuf, Option.getD_some,
      writeOut, hout, List.length_nil, Nat.lt_irrefl, hres, if_true]
    rw [hcap] at hb
    rw [hb]
    exact ih _ _

/-- C22 fails on the code.  With 13 scan workers the stream of three members
gives a last block that holds the member of `abc` and the member of the empty
text, whose declared size 0 becomes the block's capacity.  The span decodes
with a capacity of 3, and also from a capacity of 1 after two doublings; from
the capacity 0 the loop of `job_thread` never ends, whatever the fuel. -/
theorem zero_capacity_never_grows :
    find_gzip_members (List.replicate 10 0) hiddenEmptyMember 13 =
      .ok (true, [newBlock 0 0 21 1, newBlock 1 20 41 0]) ∧
    (∀ fuel, jobBlock storedInflate hiddenEmptyMember (fuel + 2) (newBlock 1 20 41 3) =
      .ok { index := 1, offset := 20, compressed_size := 0, uncompressed_size := 3,
            compressed := 61, uncompressed := some [some 97, some 98, some 99],
            actual_out_nbytes := 3 }) ∧
    (∀ fuel, jobBlock storedInflate hiddenEmptyMember (fuel + 4) (newBlock 1 20 41 1) =
      .ok { index := 1, offset := 20, compressed_size := 0, uncompressed_size := 4,
            compressed := 61, uncompressed := some [some 97, some 98, some 99, none],
            actual_out_nbytes := 3 }) ∧
    (∀ fuel, jobBlock storedInflate hiddenEmptyMember fuel (newBlock 1 20 41 0) =
      .error .outOfFuel) := by
  refine ⟨rfl, fun fuel => ?_, fun fuel => ?_, fun fuel => ?_⟩
  · cases fuel <;> rfl
  · cases fuel <;> rfl
  · exact jobLoop_zero_capacity storedInflate hiddenEmptyMember
      { newBlock 1 20 41 0 with uncompressed := some [] }
      ((hiddenEmptyMember.drop 20).take 41) (by decide) rfl rfl rfl rfl rfl fuel 0 0

/-! ### Evaluations on long inputs -/

set_option maxRecDepth 100000 in
/-- C4 fails on the code: for `R = 1`, `L = 257`, one record with 257 bases and
257 quality bytes 53, the copy of the quality line into `score_line` writes
past its 256 bytes, which the source does not check, so the scan does not
return the counters `1, 257, 257, 0`. -/
theorem uniform_quality_overrun :
    find_qc_pos_job (fastqBytes [uniformRecord 257 53]) 0
        (fastqBytes [uniformRecord 257 53]).length [] Stat.zero = .error .stagingOverrun ∧
    find_qc_pos_job (fastqBytes [uniformRecord 257 53]) 0
        (fastqBytes [uniformRecord 257 53]).length [] Stat.zero ≠
      .ok { linenum := 1, yield := 1 * 257, q20_base := 1 * 257, q30_base := 0 } := by
  have h : find_qc_pos_job (fastqBytes [uniformRecord 257 53]) 0
      (fastqBytes [uniformRecord 257 53]).length [] Stat.zero = .error .stagingOverrun := rfl
  exact ⟨h, by rw [h]; exact fun e => Except.noConfusion e⟩

set_option maxRecDepth 100000 in
/-- C3 as stated fails.  (1) Two records `@a/A/+/I` and `@b/AAAA/+/II@I`, two
workers: the naive boundary 12 moves to the `@` inside the second quality
line, and the partitions count 2 + 1 = 3 records instead of 2.  (2) One record,
two workers: no `@` lies behind the naive boundary and `correct_pos` walks out
of the buffer.  (3) One record of 257 bases, one worker: the staging copy
overruns.  (4) Two records, the first with zero bytes in its sequence line, one
worker: the cursor jumps over the second `@` and one record is counted.
(5) One record whose header line is `@a@`, one worker: two records are
counted. -/
theorem partitions_count_records_fails :
    (correctedPositions
        [64, 97, 10, 65, 10, 43, 10, 73, 10,
         64, 98, 10, 65, 65, 65, 65, 10, 43, 10, 73, 73, 64, 73, 10] 24 2 = .ok ([0, 21], [21, 24]) ∧
      partitionStats
        [64, 97, 10, 65, 10, 43, 10, 73, 10,
         64, 98, 10, 65, 65, 65, 65, 10, 43, 10, 73, 73, 64, 73, 10] ([0, 21], [21, 24]) 2
        (fun _ => []) = .ok [⟨2, 5, 5, 5⟩, ⟨1, 0, 0, 0⟩]) ∧
    correctedPositions [64, 97, 10, 65, 10, 43, 10, 73, 10] 9 2 = .error .bufferOverrun ∧
    (correctedPositions (fastqBytes [uniformRecord 257 53])
        (fastqBytes [uniformRecord 257 53]).length 1 = .ok ([0], [520]) ∧
      partitionStats (fastqBytes [uniformRecord 257 53]) ([0], [520]) 1 (fun _ => []) =
        .error .stagingOverrun) ∧
    (correctedPositions
        [64, 97, 10, 65, 0, 0, 65, 10, 43, 10, 73, 73, 73, 73, 10,
         64, 98, 10, 65, 10, 43, 10, 73, 10] 24 1 = .ok ([0], [24]) ∧
      partitionStats
        [64, 97, 10, 65, 0, 0, 65, 10, 43, 10, 73, 73, 73, 73, 10,
         64, 98, 10, 65, 10, 43, 10, 73, 10] ([0], [24]) 1 (fun _ => []) =
        .ok [⟨1, 6, 4, 4⟩]) ∧
    (correctedPositions [64, 97, 64, 10, 65, 10, 43, 10, 73, 10] 10 1 = .ok ([0], [10]) ∧
      partitionStats [64, 97, 64, 10, 65, 10, 43, 10, 73, 10] ([0], [10]) 1 (fun _ => []) =
        .ok [⟨2, 1, 1, 1⟩]) :=
  ⟨⟨rfl, rfl⟩, rfl, ⟨rfl, rfl⟩, ⟨rfl, rfl⟩, ⟨rfl, rfl⟩⟩

end FastqStat
